import Mathlib

/-!
# SCA_VEGA: power-trace preprocessing

A shallow embedding of `src/implementation.c`: the unsigned fixed-point
quantizer `float_to_fixed_bin`, the byte-block `hamming_distance`, the trace
statistics of `extract_features`, and the minimum/maximum scan that closes
`main`.

C `float` is IEEE-754 binary32, evaluated in that format, and `int` and
`unsigned` are 32 bits wide.  A `Float32` is the bit pattern (sign, biased
exponent, fraction); arithmetic decodes to exact rationals, computes exactly,
and rounds back to the nearest representable value, ties to even.
-/

/-! ## IEEE-754 binary32 -/

/-- One binary32 datum: sign bit, 8-bit biased exponent, 23-bit fraction. -/
structure Float32 where
  sign : Bool
  expo : Nat
  frac : Nat
  expo_lt : expo < 256
  frac_lt : frac < 8388608
deriving DecidableEq

namespace Float32

/-- Positive zero, the C literal `0.0f`. -/
def zero : Float32 := ⟨false, 0, 0, by decide, by decide⟩

/-- Infinity of the given sign. -/
def inf (s : Bool) : Float32 := ⟨s, 255, 0, by decide, by decide⟩

/-- The quiet NaN produced by invalid operations. -/
def nan : Float32 := ⟨false, 255, 4194304, by decide, by decide⟩

def isNaN (x : Float32) : Bool := x.expo == 255 && x.frac != 0

def isInf (x : Float32) : Bool := x.expo == 255 && x.frac == 0

def isFinite (x : Float32) : Bool := x.expo != 255

/-- Magnitude of a finite datum: `frac * 2^-149` for subnormals (and zero),
`(2^23 + frac) * 2^(expo - 150)` for normals. -/
def mag (x : Float32) : ℚ :=
  if x.expo = 0 then (x.frac : ℚ) / 2 ^ 149
  else ((2 ^ 23 + x.frac : ℕ) : ℚ) * 2 ^ ((x.expo : ℤ) - 150)

/-- Signed value of a finite datum. -/
def val (x : Float32) : ℚ := if x.sign then - x.mag else x.mag

/-- Position on the extended line: infinities sit at `±2^128`, beyond every
finite magnitude.  Meaningful for non-NaN data only. -/
def ord (x : Float32) : ℚ :=
  if x.isInf then (if x.sign then - 2 ^ 128 else 2 ^ 128) else x.val

/-- C `a < b`: false as soon as one side is a NaN. -/
def lt (a b : Float32) : Bool := !a.isNaN && !b.isNaN && decide (a.ord < b.ord)

/-- C `a > b`. -/
def gt (a b : Float32) : Bool := lt b a

/-- C `a == b`: false as soon as one side is a NaN; the two zeros are equal. -/
def eq (a b : Float32) : Bool := !a.isNaN && !b.isNaN && decide (a.ord = b.ord)

/-- C `a >= b`: false as soon as one side is a NaN. -/
def ge (a b : Float32) : Bool := !a.isNaN && !b.isNaN && decide (b.ord ≤ a.ord)

/-- Nearest natural number to a non-negative rational, ties to the even one. -/
def roundHalfEven (x : ℚ) : ℕ :=
  let f := ⌊x⌋₊
  let r := x - f
  if r < 1 / 2 then f
  else if 1 / 2 < r then f + 1
  else if f % 2 = 0 then f else f + 1

/-- Round the magnitude `q ≥ 0` to binary32 with sign `s`: round to nearest,
ties to even, gradual underflow, overflow to infinity.  The significand is
rounded at the exponent of `q` (at least `-126`); adding it to the exponent
field lets a carry out of the significand bump the exponent. -/
def round (s : Bool) (q : ℚ) : Float32 :=
  if q = 0 then ⟨s, 0, 0, by decide, by decide⟩
  else
    let e : ℤ := max (Int.log 2 q) (-126)
    let m : ℕ := roundHalfEven (q / 2 ^ (e - 23))
    let b : ℕ := (e + 126).toNat * 8388608 + m
    if h : b < 255 * 8388608 then
      ⟨s, b / 8388608, b % 8388608, by omega, Nat.mod_lt _ (by decide)⟩
    else inf s

/-- C `a + b` on `float`. -/
def add (a b : Float32) : Float32 :=
  if a.isNaN || b.isNaN then nan
  else if a.isInf then (if b.isInf && (a.sign != b.sign) then nan else a)
  else if b.isInf then b
  else
    let s := a.val + b.val
    if s = 0 then ⟨a.sign && b.sign, 0, 0, by decide, by decide⟩
    else round (decide (s < 0)) |s|

/-- C `a * b` on `float`. -/
def mul (a b : Float32) : Float32 :=
  if a.isNaN || b.isNaN then nan
  else if a.isInf then (if b.mag = 0 then nan else inf (a.sign != b.sign))
  else if b.isInf then (if a.mag = 0 then nan else inf (a.sign != b.sign))
  else round (a.sign != b.sign) (a.mag * b.mag)

/-- C `a / b` on `float`. -/
def div (a b : Float32) : Float32 :=
  if a.isNaN || b.isNaN then nan
  else if a.isInf then (if b.isInf then nan else inf (a.sign != b.sign))
  else if b.isInf then ⟨a.sign != b.sign, 0, 0, by decide, by decide⟩
  else if b.mag = 0 then (if a.mag = 0 then nan else inf (a.sign != b.sign))
  else round (a.sign != b.sign) (a.mag / b.mag)

/-- Conversion `(float)z` of a C `int`. -/
def ofInt (z : ℤ) : Float32 := round (decide (z < 0)) |(z : ℚ)|

/-- C `roundf`: nearest integer, halfway cases away from zero; the sign is
kept, infinities and NaNs pass through. -/
def roundf (x : Float32) : Float32 :=
  if x.isFinite then round x.sign (⌊x.mag + 1 / 2⌋₊ : ℕ) else x

/-- Conversion `(uint32_t)x`: the fractional part is discarded.  When the
integral part does not fit `uint32_t` (or `x` is infinite or a NaN) ISO C gives
the conversion no meaning; an implementation still delivers some 32-bit word,
which `cvt` supplies. -/
def toUInt32 (cvt : Float32 → ℕ) (x : Float32) : ℕ :=
  if x.isFinite ∧ -1 < x.val ∧ x.val < 2 ^ 32 then ⌊x.mag⌋₊ * (if x.sign then 0 else 1)
  else cvt x % 2 ^ 32

end Float32

/-- Out-of-range `(uint32_t)` conversion as x86-64 compilers emit it: a 64-bit
truncating convert (`cvttss2si`) whose low 32 bits are kept; the 64-bit
convert itself answers `0x8000000000000000` when out of range. -/
def cvt_x86_64 (x : Float32) : ℕ :=
  if x.isFinite ∧ x.mag < 2 ^ 63 then
    (if x.sign then (- (⌊x.mag⌋₊ : ℤ)) % 2 ^ 32 else (⌊x.mag⌋₊ : ℤ) % 2 ^ 32).toNat
  else 0

/-! ## Configuration constants -/

abbrev NUM_SAMPLES : ℕ := 3500
abbrev TRACE_LENGTH : ℕ := 1024
abbrev FIXED_TOTAL_BITS : ℕ := 12
abbrev FIXED_M : ℕ := 2
abbrev FIXED_N : ℕ := 10
abbrev HAMMING_TOTAL_BITS : ℕ := 8
abbrev HAMMING_M : ℕ := 8
abbrev HAMMING_N : ℕ := 0

/-! ## Quantizer -/

/-- What a call of `float_to_fixed_bin` does. -/
inductive Outcome where
  /-- Printed `Error: Negative value ...` and returned `NULL`. -/
  | negative_error : Outcome
  /-- The `malloc` returned `NULL`, and so did the call (`warned`: the overflow
  warning had been printed). -/
  | alloc_failed (warned : Bool) : Outcome
  /-- Returned the string `s` (`warned`: the overflow warning was printed). -/
  | bits (warned : Bool) (s : List Char) : Outcome
  /-- A shift count not below the width of the shifted type: the call has no
  defined result. -/
  | undefined : Outcome
deriving DecidableEq

/-- The `int` expression `1 << n`.  `1 << 31` shifts into the sign bit, which
compilers deliver as `INT_MIN`; counts of 32 and more have no result. -/
def shl_int (n : ℕ) : Option ℤ :=
  if n < 31 then some (2 ^ n) else if n = 31 then some (-(2 ^ 31)) else none

/-- The `unsigned` expression `1U << k`; counts of 32 and more have no result. -/
def shl_u32 (k : ℕ) : Option ℕ := if k < 32 then some (2 ^ k) else none

/-- The output loop `for (i = total_bits - 1; i >= 0; i--)`, called with the
number of iterations left: it writes `((fixed_val >> i) & 1) ? '1' : '0'` for
`i` one less than that, left to right. -/
def bin_loop (fixed_val : ℕ) : ℕ → List Char
  | 0 => []
  | i + 1 => (if (fixed_val >>> i) &&& 1 ≠ 0 then '1' else '0') :: bin_loop fixed_val i

/-- Source `float_to_fixed_bin(value, total_bits, m, n)`.  The widths are bit
counts, taken as naturals.  `cvt` is the platform's answer to an out-of-range
`(uint32_t)` conversion and `mallocOk` tells whether the allocation succeeds.
The returned list is the C string without its terminating NUL. -/
def float_to_fixed_bin (cvt : Float32 → ℕ) (mallocOk : Bool)
    (value : Float32) (total_bits m n : ℕ) : Outcome :=
  if value.lt Float32.zero then Outcome.negative_error
  else
    match shl_int n with
    | none => Outcome.undefined
    | some p =>
      let fixed_val : ℕ := Float32.toUInt32 cvt (Float32.roundf (value.mul (Float32.ofInt p)))
      match shl_u32 (m + n) with
      | none => Outcome.undefined
      | some lim =>
        let warned : Bool := decide (lim ≤ fixed_val)
        let fixed_val : ℕ := if lim ≤ fixed_val then lim - 1 else fixed_val
        if mallocOk = false then Outcome.alloc_failed warned
        else if 32 < total_bits then Outcome.undefined
        else Outcome.bits warned (bin_loop fixed_val total_bits)

/-- Reading of a bit string, most significant bit first. -/
def readBin (s : List Char) : ℕ :=
  s.foldl (fun acc c => 2 * acc + (if c = '1' then 1 else 0)) 0

/-- Round to the nearest integer, halfway cases away from zero, as the
quantizer's contract words it. -/
def roundHalfAway (x : ℚ) : ℤ := if 0 ≤ x then ⌊x + 1 / 2⌋ else - ⌊-x + 1 / 2⌋

/-! ## Leakage score -/

/-- Source `__builtin_popcount` on a 32-bit `unsigned`: the number of set bits. -/
def popcount (x : ℕ) : ℕ := ((List.range 32).map (fun k => (x >>> k) &&& 1)).sum

/-- A 16-byte block (`uint8_t[16]`). -/
abbrev Block : Type := Fin 16 → Fin 256

/-- Source `hamming_distance(a, b)`: for `i = 0 .. 15`, add the population
count of the byte `a[i] ^ b[i]` to the `int` accumulator. -/
def hamming_distance (a b : Block) : ℤ :=
  (List.finRange 16).foldl
    (fun dist i => dist + (popcount (((a i).val ^^^ (b i).val) % 256) : ℤ)) 0

/-- Bytewise complement of a block. -/
def Block.complement (a : Block) : Block := fun i => ⟨255 - (a i).val, by omega⟩

/-! ## Trace statistics -/

/-- The three results written through the out-pointers of `extract_features`. -/
structure Features where
  mean : Float32
  peak : Float32
  energy : Float32

/-- The locals `sum`, `max_val`, `energy_val` of `extract_features`. -/
structure Accum where
  sum : Float32
  max_val : Float32
  energy_val : Float32

/-- One iteration of the loop body on the sample `val`. -/
def extract_step (acc : Accum) (val : Float32) : Accum :=
  ⟨acc.sum.add val,
   if val.gt acc.max_val then val else acc.max_val,
   acc.energy_val.add (val.mul val)⟩

/-- The body of `extract_features` on the samples in the order the loop visits
them: all-zero locals, one `extract_step` per sample, then the three stores
`*mean = sum / TRACE_LENGTH`, `*peak = max_val`, `*energy = energy_val`. -/
def extract_loop (samples : List Float32) : Features :=
  let acc := samples.foldl extract_step ⟨Float32.zero, Float32.zero, Float32.zero⟩
  ⟨acc.sum.div (Float32.ofInt TRACE_LENGTH), acc.max_val, acc.energy_val⟩

/-- Source `extract_features(trace, &mean, &peak, &energy)` on a trace of
`TRACE_LENGTH` samples, visited for `i = 0 .. TRACE_LENGTH - 1`. -/
def extract_features (trace : Fin TRACE_LENGTH → Float32) : Features :=
  extract_loop (List.ofFn trace)

/-! ## Dataset summary -/

/-- The four locals of the closing scan in `main`. -/
structure Summary where
  max_hamming : ℤ
  min_hamming : ℤ
  max_index : ℕ
  min_index : ℕ
deriving DecidableEq

/-- Body of the scan for sample `i` with hamming distance `h`: the maximum is
replaced on `>`, then the minimum on `<`. -/
def summary_step (s : Summary) (i : ℕ) (h : ℤ) : Summary :=
  let s1 : Summary :=
    if h > s.max_hamming then ⟨h, s.min_hamming, i, s.min_index⟩ else s
  if h < s1.min_hamming then ⟨s1.max_hamming, h, s1.max_index, i⟩ else s1

/-- The scan `for (i = ...; i < NUM_SAMPLES; i++)` over the distances that are
left, `i` being the index of the first of them. -/
def summary_loop : Summary → ℕ → List ℤ → Summary
  | s, _, [] => s
  | s, i, h :: rest => summary_loop (summary_step s i h) (i + 1) rest

/-- The summary computed at the end of `main` from the recorded hamming
distances: seeded from sample 0, then scanned from sample 1.  There is no
sample 0 in an empty record. -/
def hamming_summary : List ℤ → Option Summary
  | [] => none
  | h0 :: rest => some (summary_loop ⟨h0, h0, 0, 0⟩ 1 rest)

/-- What the scan has established once the distances `p` are behind it. -/
def SummaryInv (p : List ℤ) (s : Summary) : Prop :=
  (p[s.min_index]? = some s.min_hamming ∧
    (∀ (j : ℕ) (x : ℤ), p[j]? = some x → s.min_hamming ≤ x) ∧
    (∀ (j : ℕ) (x : ℤ), j < s.min_index → p[j]? = some x → s.min_hamming < x)) ∧
  (p[s.max_index]? = some s.max_hamming ∧
    (∀ (j : ℕ) (x : ℤ), p[j]? = some x → x ≤ s.max_hamming) ∧
    (∀ (j : ℕ) (x : ℤ), j < s.max_index → p[j]? = some x → x < s.max_hamming))


/-- What the running maximum `m` of `extract_features` satisfies once the
samples `l` are behind it. -/
def PeakInv (l : List Float32) (m : Float32) : Prop :=
  m.isNaN = false ∧ 0 ≤ m.ord ∧
  (∀ x ∈ l, x.isNaN = false → x.ord ≤ m.ord) ∧
  (m = Float32.zero ∨ (m ∈ l ∧ 0 < m.ord))

/-- The float `-1.0f`. -/
def Float32.negOne : Float32 := ⟨true, 127, 0, by decide, by decide⟩

/-- The float `1.5f`. -/
def Float32.oneAndHalf : Float32 := ⟨false, 127, 4194304, by decide, by decide⟩

/-- The float `1.0f`. -/
def Float32.one : Float32 := ⟨false, 127, 0, by decide, by decide⟩

/-- A magnitude that binary32 holds exactly: a significand of at most 24 bits
at an exponent not below that of the subnormals. -/
def Float32.Rep (q : ℚ) : Prop :=
  ∃ (M : ℕ) (t : ℤ), M < 2 ^ 24 ∧ -149 ≤ t ∧ q = (M : ℚ) * 2 ^ t

/-- The float `4 - 2^-12 = 3.999755859375f`. -/
def Float32.belowFour : Float32 := ⟨false, 128, 8387584, by decide, by decide⟩

/-- The float `2^22 = 4194304.0f`. -/
def Float32.twoPow22 : Float32 := ⟨false, 149, 0, by decide, by decide⟩

/-- The float `2^32 = 4294967296.0f`. -/
def Float32.twoPow32 : Float32 := ⟨false, 159, 0, by decide, by decide⟩

/-- The float `2^-31`. -/
def Float32.twoPowNeg31 : Float32 := ⟨false, 96, 0, by decide, by decide⟩

/-- The float `2^127`. -/
def Float32.twoPow127 : Float32 := ⟨false, 254, 0, by decide, by decide⟩

/-- The float `2^118`, bit pattern `0x7A800000`. -/
def Float32.twoPow118 : Float32 := ⟨false, 245, 0, by decide, by decide⟩

/-- The float `129.0f`, that is `2^7 + 1`, bit pattern `0x43010000`. -/
def Float32.c129 : Float32 := ⟨false, 134, 65536, by decide, by decide⟩

/-- The float `16641.0f`, that is `129^2`, bit pattern `0x46820200`. -/
def Float32.c16641 : Float32 := ⟨false, 141, 131584, by decide, by decide⟩

/-- The float nearest to one tenth, `0.1f`, bit pattern `0x3DCCCCCD`. -/
def Float32.tenth : Float32 := ⟨false, 123, 5033165, by decide, by decide⟩

/-! ## The summary scan -/

theorem getElem?_snoc_cases (p : List ℤ) (h : ℤ) (j : ℕ) (x : ℤ)
    (hx : (p ++ [h])[j]? = some x) : p[j]? = some x ∨ (j = p.length ∧ x = h) := by
  rcases Nat.lt_or_ge j p.length with hj | hj
  · left
    rwa [List.getElem?_append_left hj] at hx
  · right
    rw [List.getElem?_append_right hj] at hx
    rcases Nat.eq_zero_or_pos (j - p.length) with h0 | h0
    · rw [h0] at hx
      simp at hx
      exact ⟨by omega, hx.symm⟩
    · rw [List.getElem?_eq_none (by simp; omega)] at hx
      cases hx

theorem getElem?_lt_length (p : List ℤ) (j : ℕ) (x : ℤ) (hx : p[j]? = some x) :
    j < p.length := by
  by_contra hc
  rw [List.getElem?_eq_none (by omega)] at hx
  cases hx

theorem summaryInv_step (p : List ℤ) (s : Summary) (h : ℤ) (hinv : SummaryInv p s) :
    SummaryInv (p ++ [h]) (summary_step s p.length h) := by
  obtain ⟨⟨hm1, hm2, hm3⟩, ⟨hM1, hM2, hM3⟩⟩ := hinv
  have hmi := getElem?_lt_length _ _ _ hm1
  have hMi := getElem?_lt_length _ _ _ hM1
  have hnew : (p ++ [h])[p.length]? = some h := by
    rw [List.getElem?_append_right (le_refl _)]; simp
  have hle : s.min_hamming ≤ s.max_hamming := hM2 _ _ hm1
  unfold summary_step
  by_cases h1 : h > s.max_hamming
  · have h2 : ¬ h < s.min_hamming := by omega
    simp only [h1, if_true]
    simp only [h2, if_false]
    refine ⟨⟨?_, ?_, ?_⟩, ⟨hnew, ?_, ?_⟩⟩ <;> try dsimp only
    · rw [List.getElem?_append_left hmi]; exact hm1
    · intro j x hx
      rcases getElem?_snoc_cases p h j x hx with hx | ⟨_, rfl⟩
      · exact hm2 j x hx
      · omega
    · intro j x hj hx
      rcases getElem?_snoc_cases p h j x hx with hx | ⟨hjl, _⟩
      · exact hm3 j x hj hx
      · omega
    · intro j x hx
      rcases getElem?_snoc_cases p h j x hx with hx | ⟨_, rfl⟩
      · have := hM2 j x hx; omega
      · exact le_refl _
    · intro j x hj hx
      rcases getElem?_snoc_cases p h j x hx with hx | ⟨hjl, _⟩
      · have := hM2 j x hx; omega
      · omega
  · simp only [h1, if_false]
    by_cases h2 : h < s.min_hamming
    · simp only [h2, if_true]
      refine ⟨⟨hnew, ?_, ?_⟩, ⟨?_, ?_, ?_⟩⟩ <;> try dsimp only
      · intro j x hx
        rcases getElem?_snoc_cases p h j x hx with hx | ⟨_, rfl⟩
        · have := hm2 j x hx; omega
        · exact le_refl _
      · intro j x hj hx
        rcases getElem?_snoc_cases p h j x hx with hx | ⟨hjl, _⟩
        · have := hm2 j x hx; omega
        · omega
      · rw [List.getElem?_append_left hMi]; exact hM1
      · intro j x hx
        rcases getElem?_snoc_cases p h j x hx with hx | ⟨_, rfl⟩
        · exact hM2 j x hx
        · omega
      · intro j x hj hx
        rcases getElem?_snoc_cases p h j x hx with hx | ⟨hjl, _⟩
        · exact hM3 j x hj hx
        · omega
    · simp only [h2, if_false]
      refine ⟨⟨?_, ?_, ?_⟩, ⟨?_, ?_, ?_⟩⟩ <;> try dsimp only
      · rw [List.getElem?_append_left hmi]; exact hm1
      · intro j x hx
        rcases getElem?_snoc_cases p h j x hx with hx | ⟨_, rfl⟩
        · exact hm2 j x hx
        · omega
      · intro j x hj hx
        rcases getElem?_snoc_cases p h j x hx with hx | ⟨hjl, _⟩
        · exact hm3 j x hj hx
        · omega
      · rw [List.getElem?_append_left hMi]; exact hM1
      · intro j x hx
        rcases getElem?_snoc_cases p h j x hx with hx | ⟨_, rfl⟩
        · exact hM2 j x hx
        · omega
      · intro j x hj hx
        rcases getElem?_snoc_cases p h j x hx with hx | ⟨hjl, _⟩
        · exact hM3 j x hj hx
        · omega

theorem summaryInv_loop (rest : List ℤ) :
    ∀ (p : List ℤ) (s : Summary), SummaryInv p s →
      SummaryInv (p ++ rest) (summary_loop s p.length rest) := by
  induction rest with
  | nil => intro p s hinv; simpa [summary_loop] using hinv
  | cons h rest ih =>
    intro p s hinv
    have hstep := ih (p ++ [h]) (summary_step s p.length h) (summaryInv_step p s h hinv)
    simpa [summary_loop, List.append_assoc] using hstep

theorem summaryInv_seed (h0 : ℤ) : SummaryInv [h0] ⟨h0, h0, 0, 0⟩ := by
  refine ⟨⟨by simp, ?_, ?_⟩, ⟨by simp, ?_, ?_⟩⟩ <;> dsimp only
  · intro j x hx
    have hj := getElem?_lt_length _ _ _ hx
    have : j = 0 := by simpa using hj
    subst this; simp at hx; omega
  · intro j x hj; simp at hj
  · intro j x hx
    have hj := getElem?_lt_length _ _ _ hx
    have : j = 0 := by simpa using hj
    subst this; simp at hx; omega
  · intro j x hj; simp at hj

/-- C6: on every non-empty record `h` of hamming distances the closing scan
of `main` ends with `min_hamming` the minimum of `h` and `min_index` the
smallest index holding it, and with `max_hamming` the maximum of `h` and
`max_index` the smallest index holding it; on `[5, 9, 3, 9, 3]` that is the
minimum 3 at index 2 and the maximum 9 at index 1. -/
theorem summary_first_extrema (h : List ℤ) (hne : h ≠ []) :
    (∃ s, hamming_summary h = some s ∧
      (h[s.min_index]? = some s.min_hamming ∧
        (∀ (j : ℕ) (x : ℤ), h[j]? = some x → s.min_hamming ≤ x) ∧
        (∀ (j : ℕ) (x : ℤ), j < s.min_index → h[j]? = some x → s.min_hamming < x)) ∧
      (h[s.max_index]? = some s.max_hamming ∧
        (∀ (j : ℕ) (x : ℤ), h[j]? = some x → x ≤ s.max_hamming) ∧
        (∀ (j : ℕ) (x : ℤ), j < s.max_index → h[j]? = some x → x < s.max_hamming))) ∧
    hamming_summary [5, 9, 3, 9, 3] = some ⟨9, 3, 1, 2⟩ := by
  refine ⟨?_, by decide⟩
  cases h with
  | nil => exact absurd rfl hne
  | cons h0 rest =>
    refine ⟨summary_loop ⟨h0, h0, 0, 0⟩ 1 rest, rfl, ?_⟩
    have := summaryInv_loop rest [h0] ⟨h0, h0, 0, 0⟩ (summaryInv_seed h0)
    simpa [SummaryInv] using this

/-- Witness for C6 on the record `[4, 1, 7, 1, 7]`. -/
theorem summary_first_extrema_witness :
    ([4, 1, 7, 1, 7] : List ℤ) ≠ [] ∧
    ((∃ s, hamming_summary [4, 1, 7, 1, 7] = some s ∧
      (([4, 1, 7, 1, 7] : List ℤ)[s.min_index]? = some s.min_hamming ∧
        (∀ (j : ℕ) (x : ℤ), ([4, 1, 7, 1, 7] : List ℤ)[j]? = some x → s.min_hamming ≤ x) ∧
        (∀ (j : ℕ) (x : ℤ), j < s.min_index →
          ([4, 1, 7, 1, 7] : List ℤ)[j]? = some x → s.min_hamming < x)) ∧
      (([4, 1, 7, 1, 7] : List ℤ)[s.max_index]? = some s.max_hamming ∧
        (∀ (j : ℕ) (x : ℤ), ([4, 1, 7, 1, 7] : List ℤ)[j]? = some x → x ≤ s.max_hamming) ∧
        (∀ (j : ℕ) (x : ℤ), j < s.max_index →
          ([4, 1, 7, 1, 7] : List ℤ)[j]? = some x → x < s.max_hamming))) ∧
    hamming_summary [5, 9, 3, 9, 3] = some ⟨9, 3, 1, 2⟩) :=
  ⟨by decide, summary_first_extrema [4, 1, 7, 1, 7] (by decide)⟩

/-! ## The leakage score -/

set_option maxRecDepth 1000000 in
theorem popcount_byte_zero : ∀ x : Fin 256, popcount x.val = 0 → x.val = 0 := by decide

set_option maxRecDepth 1000000 in
theorem popcount_byte_le : ∀ x : Fin 256, popcount x.val ≤ 8 := by decide

set_option maxRecDepth 1000000 in
theorem popcount_complement : ∀ x : Fin 256, popcount ((x.val ^^^ (255 - x.val)) % 256) = 8 := by
  decide

theorem foldl_add_popcount (g : Fin 16 → ℕ) (l : List (Fin 16)) (init : ℕ) :
    l.foldl (fun (dist : ℤ) i => dist + (g i : ℤ)) (init : ℤ) = ((init + (l.map g).sum : ℕ) : ℤ) := by
  induction l generalizing init with
  | nil => simp
  | cons i l ih =>
    simp only [List.foldl_cons, List.map_cons, List.sum_cons]
    have := ih (init + g i)
    rw [← add_assoc]
    rw [← this]
    push_cast
    rfl

/-- The distance as a sum over the sixteen byte positions. -/
theorem hamming_distance_eq_sum (a b : Block) :
    hamming_distance a b =
      ((((List.finRange 16).map
        (fun i => popcount (((a i).val ^^^ (b i).val) % 256))).sum : ℕ) : ℤ) := by
  unfold hamming_distance
  have := foldl_add_popcount (fun i => popcount (((a i).val ^^^ (b i).val) % 256))
    (List.finRange 16) 0
  simpa using this

theorem xor_byte_lt (x y : Fin 256) : x.val ^^^ y.val < 256 :=
  Nat.xor_lt_two_pow (n := 8) x.isLt y.isLt

theorem hamming_term_zero_iff (x y : Fin 256) :
    popcount ((x.val ^^^ y.val) % 256) = 0 ↔ x = y := by
  have hlt := xor_byte_lt x y
  rw [Nat.mod_eq_of_lt hlt]
  constructor
  · intro h
    have h0 := popcount_byte_zero ⟨x.val ^^^ y.val, hlt⟩ h
    exact Fin.ext (Nat.xor_eq_zero.mp h0)
  · intro h
    subst h
    rw [Nat.xor_self]
    decide

/-- C7: the hamming distance of two 16-byte blocks is zero exactly when
the blocks are equal byte for byte; in particular a block is at distance zero
from itself. -/
theorem hamming_distance_eq_zero_iff :
    (∀ a b : Block, hamming_distance a b = 0 ↔ a = b) ∧
    (∀ a : Block, hamming_distance a a = 0) := by
  have key : ∀ a b : Block, hamming_distance a b = 0 ↔ a = b := by
    intro a b
    rw [hamming_distance_eq_sum]
    constructor
    · intro h
      have hs : ((List.finRange 16).map
          (fun i => popcount (((a i).val ^^^ (b i).val) % 256))).sum = 0 := by
        exact_mod_cast h
      rw [List.sum_eq_zero_iff] at hs
      funext i
      apply (hamming_term_zero_iff (a i) (b i)).mp
      apply hs
      exact List.mem_map.mpr ⟨i, List.mem_finRange i, rfl⟩
    · intro h
      subst h
      have hs : ((List.finRange 16).map
          (fun i => popcount (((a i).val ^^^ (a i).val) % 256))).sum = 0 := by
        rw [List.sum_eq_zero_iff]
        intro x hx
        obtain ⟨i, _, rfl⟩ := List.mem_map.mp hx
        exact (hamming_term_zero_iff (a i) (a i)).mpr rfl
      exact_mod_cast hs
  exact ⟨key, fun a => (key a a).mpr rfl⟩

theorem sum_map_le_of_le (g : Fin 16 → ℕ) (c : ℕ) (hg : ∀ i, g i ≤ c) (l : List (Fin 16)) :
    (l.map g).sum ≤ l.length * c := by
  induction l with
  | nil => simp
  | cons i l ih =>
    simp only [List.map_cons, List.sum_cons, List.length_cons]
    have := hg i
    nlinarith

theorem sum_map_eq_of_eq (g : Fin 16 → ℕ) (c : ℕ) (hg : ∀ i, g i = c) (l : List (Fin 16)) :
    (l.map g).sum = l.length * c := by
  induction l with
  | nil => simp
  | cons i l ih =>
    simp only [List.map_cons, List.sum_cons, List.length_cons]
    rw [ih, hg i]
    ring

/-- C8: the hamming distance of two 16-byte blocks lies between 0 and 128,
and 128 is reached, by every block against its bytewise complement. -/
theorem hamming_distance_range :
    (∀ a b : Block, 0 ≤ hamming_distance a b ∧ hamming_distance a b ≤ 128) ∧
    (∀ a : Block, hamming_distance a a.complement = 128) := by
  constructor
  · intro a b
    rw [hamming_distance_eq_sum]
    refine ⟨Int.natCast_nonneg _, ?_⟩
    have h := sum_map_le_of_le (fun i => popcount (((a i).val ^^^ (b i).val) % 256)) 8
      (fun i => popcount_byte_le ⟨((a i).val ^^^ (b i).val) % 256, Nat.mod_lt _ (by decide)⟩)
      (List.finRange 16)
    rw [List.length_finRange] at h
    exact_mod_cast h
  · intro a
    rw [hamming_distance_eq_sum]
    have h := sum_map_eq_of_eq
      (fun i => popcount (((a i).val ^^^ (a.complement i).val) % 256)) 8
      (fun i => popcount_complement (a i)) (List.finRange 16)
    rw [List.length_finRange] at h
    exact_mod_cast h

/-- C9: the hamming distance of two 16-byte blocks does not depend on the
order of its arguments. -/
theorem hamming_distance_comm (a b : Block) :
    hamming_distance a b = hamming_distance b a := by
  unfold hamming_distance
  simp only [Nat.xor_comm]

/-! ## The peak of a trace -/

theorem Float32.zero_isNaN : Float32.zero.isNaN = false := by decide

theorem Float32.zero_ord : Float32.zero.ord = 0 := by
  simp [Float32.ord, Float32.isInf, Float32.val, Float32.mag, Float32.zero]

theorem foldl_extract_step_max_val (l : List Float32) :
    ∀ acc : Accum, (l.foldl extract_step acc).max_val =
      l.foldl (fun m v => if v.gt m then v else m) acc.max_val := by
  induction l with
  | nil => intro acc; rfl
  | cons v l ih =>
    intro acc
    simp only [List.foldl_cons]
    rw [ih]
    rfl

theorem peakInv_step (l : List Float32) (m v : Float32) (h : PeakInv l m) :
    PeakInv (l ++ [v]) (if v.gt m then v else m) := by
  obtain ⟨hnan, h0, hub, hmem⟩ := h
  by_cases hgt : v.gt m = true
  · rw [if_pos hgt]
    simp only [Float32.gt, Float32.lt, Bool.and_eq_true, Bool.not_eq_true', decide_eq_true_eq]
      at hgt
    obtain ⟨⟨_, hv⟩, hlt⟩ := hgt
    refine ⟨hv, by linarith, ?_, Or.inr ⟨by simp, by linarith⟩⟩
    intro x hx hxn
    rcases List.mem_append.mp hx with hx | hx
    · have := hub x hx hxn
      linarith
    · rw [List.mem_singleton.mp hx]
  · rw [if_neg hgt]
    refine ⟨hnan, h0, ?_, ?_⟩
    · intro x hx hxn
      rcases List.mem_append.mp hx with hx | hx
      · exact hub x hx hxn
      · rw [List.mem_singleton.mp hx] at hxn ⊢
        by_contra hc
        apply hgt
        simp only [Float32.gt, Float32.lt, Bool.and_eq_true, Bool.not_eq_true',
          decide_eq_true_eq]
        exact ⟨⟨hnan, hxn⟩, lt_of_not_ge hc⟩
    · rcases hmem with hz | ⟨hm, hpos⟩
      · exact Or.inl hz
      · exact Or.inr ⟨List.mem_append.mpr (Or.inl hm), hpos⟩

theorem peakInv_foldl (l : List Float32) :
    ∀ (seen : List Float32) (m : Float32), PeakInv seen m →
      PeakInv (seen ++ l) (l.foldl (fun m v => if v.gt m then v else m) m) := by
  induction l with
  | nil => intro seen m h; simpa using h
  | cons v l ih =>
    intro seen m h
    have := ih (seen ++ [v]) _ (peakInv_step seen m v h)
    simpa [List.append_assoc] using this

theorem peakInv_extract_loop (l : List Float32) : PeakInv l (extract_loop l).peak := by
  have hseed : PeakInv [] Float32.zero := by
    refine ⟨Float32.zero_isNaN, le_of_eq Float32.zero_ord.symm, ?_, Or.inl rfl⟩
    intro x hx
    cases hx
  have := peakInv_foldl l [] Float32.zero hseed
  rw [List.nil_append] at this
  unfold extract_loop
  simp only [foldl_extract_step_max_val]
  exact this

theorem peakInv_extract_features (trace : Fin TRACE_LENGTH → Float32) :
    PeakInv (List.ofFn trace) (extract_features trace).peak :=
  peakInv_extract_loop (List.ofFn trace)

theorem shiftRight_and_one (v i : ℕ) : (v >>> i) &&& 1 = v / 2 ^ i % 2 := by
  rw [Nat.shiftRight_eq_div_pow, Nat.and_one_is_mod]

theorem bin_loop_length (v : ℕ) : ∀ k, (bin_loop v k).length = k := by
  intro k
  induction k with
  | zero => rfl
  | succ k ih => simp [bin_loop, ih]

theorem bin_loop_chars (v : ℕ) : ∀ k, ∀ c ∈ bin_loop v k, c = '0' ∨ c = '1' := by
  intro k
  induction k with
  | zero => intro c hc; cases hc
  | succ k ih =>
    intro c hc
    rcases List.mem_cons.mp hc with h | h
    · rw [h]
      split
      · exact Or.inr rfl
      · exact Or.inl rfl
    · exact ih c h

theorem readBin_foldl (s : List Char) : ∀ acc : ℕ,
    s.foldl (fun acc c => 2 * acc + (if c = '1' then 1 else 0)) acc =
      acc * 2 ^ s.length + readBin s := by
  induction s with
  | nil => intro acc; simp [readBin]
  | cons c s ih =>
    intro acc
    simp only [List.foldl_cons, List.length_cons, readBin]
    rw [ih, ih (2 * 0 + _)]
    ring

theorem readBin_cons (c : Char) (s : List Char) :
    readBin (c :: s) = (if c = '1' then 1 else 0) * 2 ^ s.length + readBin s := by
  have := readBin_foldl s (2 * 0 + (if c = '1' then 1 else 0))
  simpa [readBin] using this

theorem readBin_bin_loop (v : ℕ) : ∀ k, readBin (bin_loop v k) = v % 2 ^ k := by
  intro k
  induction k with
  | zero => simp [bin_loop, readBin, Nat.mod_one]
  | succ k ih =>
    rw [bin_loop, readBin_cons, ih, bin_loop_length, shiftRight_and_one, Nat.mod_pow_succ]
    rcases Nat.mod_two_eq_zero_or_one (v / 2 ^ k) with h | h
    · rw [h]; simp
    · rw [h]; simp [Nat.add_comm]

theorem bin_loop_getElem? (v : ℕ) : ∀ k i, i < k →
    (bin_loop v k)[i]? = some (if (v >>> (k - 1 - i)) &&& 1 ≠ 0 then '1' else '0') := by
  intro k
  induction k with
  | zero => intro i hi; omega
  | succ k ih =>
    intro i hi
    cases i with
    | zero => simp [bin_loop]
    | succ i =>
      rw [bin_loop, List.getElem?_cons_succ, ih i (by omega)]
      have : k + 1 - 1 - (i + 1) = k - 1 - i := by omega
      rw [this]

theorem bin_loop_high_zero (v k w : ℕ) (hv : v < 2 ^ w) (i : ℕ) (hi : i < k - w) :
    (bin_loop v k)[i]? = some '0' := by
  rw [bin_loop_getElem? v k i (by omega), shiftRight_and_one]
  have hle : 2 ^ w ≤ 2 ^ (k - 1 - i) := Nat.pow_le_pow_right (by decide) (by omega)
  have : v / 2 ^ (k - 1 - i) = 0 := Nat.div_eq_of_lt (lt_of_lt_of_le hv hle)
  rw [this]
  simp

/-! ## The quantizer -/

theorem Float32.lt_zero_of_ge (value : Float32) (h : value.ge Float32.zero = true) :
    value.lt Float32.zero = false := by
  simp only [Float32.ge, Bool.and_eq_true, Bool.not_eq_true', decide_eq_true_eq,
    Float32.zero_ord] at h
  simp only [Float32.lt, Float32.zero_ord, Bool.and_eq_false_imp, Bool.and_eq_true,
    Bool.not_eq_true', decide_eq_false_iff_not, not_lt]
  intro _
  exact h.2

/-- The call unfolded on the path that reaches the output loop. -/
theorem float_to_fixed_bin_eq (cvt : Float32 → ℕ) (value : Float32) (total_bits m n : ℕ)
    (p : ℤ) (hlt : value.lt Float32.zero = false) (hp : shl_int n = some p)
    (hmn : m + n < 32) (htb : total_bits ≤ 32) :
    float_to_fixed_bin cvt true value total_bits m n =
      Outcome.bits
        (decide (2 ^ (m + n) ≤
          Float32.toUInt32 cvt (Float32.roundf (value.mul (Float32.ofInt p)))))
        (bin_loop
          (if 2 ^ (m + n) ≤ Float32.toUInt32 cvt (Float32.roundf (value.mul (Float32.ofInt p)))
            then 2 ^ (m + n) - 1
            else Float32.toUInt32 cvt (Float32.roundf (value.mul (Float32.ofInt p))))
          total_bits) := by
  unfold float_to_fixed_bin
  rw [hlt, hp]
  have hs : shl_u32 (m + n) = some (2 ^ (m + n)) := by
    unfold shl_u32
    rw [if_pos hmn]
  simp only [hs]
  have h32 : ¬ 32 < total_bits := by omega
  simp [h32]

theorem shl_int_some (n : ℕ) (hn : n ≤ 31) : ∃ p, shl_int n = some p := by
  unfold shl_int
  by_cases h : n < 31
  · exact ⟨_, if_pos h⟩
  · rw [if_neg h, if_pos (by omega)]
    exact ⟨_, rfl⟩

/-- C5: for every `value >= 0`, however large, and every profile with
`m + n < total_bits <= 32`, the call returns `total_bits` characters of which
the first `total_bits - (m + n)` are all `0`: past the saturation step the
encoded integer is below `2^(m+n)`. -/
theorem quantizer_unused_high_bits (cvt : Float32 → ℕ) (value : Float32)
    (total_bits m n : ℕ) (hv : value.ge Float32.zero = true)
    (hmn : m + n < total_bits) (htb : total_bits ≤ 32) :
    ∃ warned s, float_to_fixed_bin cvt true value total_bits m n = Outcome.bits warned s ∧
      s.length = total_bits ∧ readBin s < 2 ^ (m + n) ∧
      ∀ i, i < total_bits - (m + n) → s[i]? = some '0' := by
  obtain ⟨p, hp⟩ := shl_int_some n (by omega)
  rw [float_to_fixed_bin_eq cvt value total_bits m n p (Float32.lt_zero_of_ge value hv) hp
    (by omega) htb]
  refine ⟨_, _, rfl, bin_loop_length _ _, ?_, ?_⟩
  all_goals
    have hpos : 0 < 2 ^ (m + n) := Nat.pow_pos (by decide)
    have hsat : (if 2 ^ (m + n) ≤
        Float32.toUInt32 cvt (Float32.roundf (value.mul (Float32.ofInt p)))
        then 2 ^ (m + n) - 1
        else Float32.toUInt32 cvt (Float32.roundf (value.mul (Float32.ofInt p))))
        < 2 ^ (m + n) := by
      split <;> omega
  · rw [readBin_bin_loop]
    exact lt_of_le_of_lt (Nat.mod_le _ _) hsat
  · intro i hi
    exact bin_loop_high_zero _ _ _ hsat i hi

theorem Float32.negOne_lt_zero : Float32.negOne.lt Float32.zero = true := by
  norm_num [Float32.lt, Float32.isNaN, Float32.ord, Float32.isInf, Float32.val, Float32.mag,
    Float32.negOne, Float32.zero]

theorem Float32.one_ge_zero : Float32.one.ge Float32.zero = true := by
  norm_num [Float32.ge, Float32.isNaN, Float32.ord, Float32.isInf, Float32.val, Float32.mag,
    Float32.one, Float32.zero]

/-- C3: for every `value < 0` and every profile the call prints the error
and returns `NULL` without producing a bit string; so it does on `-1.0` under
both profiles in use. -/
theorem quantizer_rejects_negative (cvt : Float32 → ℕ) (mallocOk : Bool) (value : Float32)
    (total_bits m n : ℕ) (hneg : value.lt Float32.zero = true) :
    float_to_fixed_bin cvt mallocOk value total_bits m n = Outcome.negative_error ∧
    float_to_fixed_bin cvt mallocOk Float32.negOne FIXED_TOTAL_BITS FIXED_M FIXED_N
      = Outcome.negative_error ∧
    float_to_fixed_bin cvt mallocOk Float32.negOne HAMMING_TOTAL_BITS HAMMING_M HAMMING_N
      = Outcome.negative_error := by
  refine ⟨?_, ?_, ?_⟩
  · unfold float_to_fixed_bin
    rw [if_pos hneg]
  · unfold float_to_fixed_bin
    rw [if_pos Float32.negOne_lt_zero]
  · unfold float_to_fixed_bin
    rw [if_pos Float32.negOne_lt_zero]

/-- Witness for C3 on `-1.0` under the profile (12, 2, 10). -/
theorem quantizer_rejects_negative_witness :
    Float32.negOne.lt Float32.zero = true ∧
    (float_to_fixed_bin cvt_x86_64 true Float32.negOne 12 2 10 = Outcome.negative_error ∧
      float_to_fixed_bin cvt_x86_64 true Float32.negOne FIXED_TOTAL_BITS FIXED_M FIXED_N
        = Outcome.negative_error ∧
      float_to_fixed_bin cvt_x86_64 true Float32.negOne HAMMING_TOTAL_BITS HAMMING_M HAMMING_N
        = Outcome.negative_error) :=
  ⟨Float32.negOne_lt_zero,
   quantizer_rejects_negative cvt_x86_64 true Float32.negOne 12 2 10 Float32.negOne_lt_zero⟩

/-- Witness for C5 on `1.0` under the profile (16, 2, 10). -/
theorem quantizer_unused_high_bits_witness :
    Float32.one.ge Float32.zero = true ∧
    ∃ warned s, float_to_fixed_bin cvt_x86_64 true Float32.one 16 2 10 = Outcome.bits warned s ∧
      s.length = 16 ∧ readBin s < 2 ^ (2 + 10) ∧
      ∀ i, i < 16 - (2 + 10) → s[i]? = some '0' :=
  ⟨Float32.one_ge_zero,
   quantizer_unused_high_bits cvt_x86_64 Float32.one 16 2 10 Float32.one_ge_zero
     (by decide) (by decide)⟩

/-! ## Exactly representable magnitudes -/

theorem Float32.roundHalfEven_natCast (k : ℕ) : Float32.roundHalfEven (k : ℚ) = k := by
  unfold Float32.roundHalfEven
  simp

theorem Float32.round_fields (s : Bool) (q : ℚ) (hq : q ≠ 0) (b : ℕ)
    (hb : b = (max (Int.log 2 q) (-126) + 126).toNat * 8388608
      + Float32.roundHalfEven (q / 2 ^ (max (Int.log 2 q) (-126) - 23)))
    (hlt : b < 255 * 8388608) :
    (Float32.round s q).sign = s ∧ (Float32.round s q).expo = b / 8388608 ∧
      (Float32.round s q).frac = b % 8388608 := by
  subst hb
  unfold Float32.round
  rw [if_neg hq]
  simp only []
  rw [dif_pos hlt]
  exact ⟨rfl, rfl, rfl⟩

theorem Float32.round_zero (s : Bool) :
    (Float32.round s 0).isFinite = true ∧ (Float32.round s 0).sign = s ∧
      (Float32.round s 0).mag = 0 := by
  unfold Float32.round
  rw [if_pos rfl]
  refine ⟨rfl, rfl, ?_⟩
  simp [Float32.mag]

theorem Float32.round_exact_pos (s : Bool) (M : ℕ) (t : ℤ) (hM0 : 0 < M) (hM : M < 2 ^ 24)
    (ht : -149 ≤ t) (hlt : (M : ℚ) * 2 ^ t < 2 ^ 128) :
    (Float32.round s ((M : ℚ) * 2 ^ t)).isFinite = true ∧
    (Float32.round s ((M : ℚ) * 2 ^ t)).sign = s ∧
    (Float32.round s ((M : ℚ) * 2 ^ t)).mag = (M : ℚ) * 2 ^ t := by
  have h2 : (0 : ℚ) < 2 := by norm_num
  have hMq : (1 : ℚ) ≤ M := by exact_mod_cast hM0
  have hMq2 : (M : ℚ) < 2 ^ 24 := by exact_mod_cast hM
  have hpt : (0 : ℚ) < 2 ^ t := zpow_pos h2 t
  have hq : (0 : ℚ) < (M : ℚ) * 2 ^ t := by positivity
  have hcast : ((2 : ℕ) : ℚ) = 2 := by norm_num
  have hL1 : (2 : ℚ) ^ Int.log 2 ((M : ℚ) * 2 ^ t) ≤ (M : ℚ) * 2 ^ t := by
    have := Int.zpow_log_le_self (b := 2) (r := (M : ℚ) * 2 ^ t) (by norm_num) hq
    rwa [hcast] at this
  have hL2 : (M : ℚ) * 2 ^ t < 2 ^ (Int.log 2 ((M : ℚ) * 2 ^ t) + 1) := by
    have := Int.lt_zpow_succ_log_self (b := 2) (by norm_num) ((M : ℚ) * 2 ^ t)
    rwa [hcast] at this
  have htL : t ≤ Int.log 2 ((M : ℚ) * 2 ^ t) := by
    have := (Int.zpow_le_iff_le_log (b := 2) (x := t) (by norm_num) hq).mp
    apply this
    rw [hcast]
    nlinarith
  have hLt : Int.log 2 ((M : ℚ) * 2 ^ t) < t + 24 := by
    have := (Int.lt_zpow_iff_log_lt (b := 2) (x := t + 24) (by norm_num) hq).mp
    apply this
    rw [hcast, zpow_add₀ (by norm_num : (2 : ℚ) ≠ 0)]
    have : (2 : ℚ) ^ (24 : ℤ) = 2 ^ 24 := by norm_num
    rw [this]
    nlinarith
  have hL128 : Int.log 2 ((M : ℚ) * 2 ^ t) < 128 := by
    have := (Int.lt_zpow_iff_log_lt (b := 2) (x := 128) (by norm_num) hq).mp
    apply this
    rw [hcast]
    have h128 : (2 : ℚ) ^ (128 : ℤ) = 2 ^ 128 := by norm_num
    rw [h128]
    exact hlt
  generalize hLdef : Int.log 2 ((M : ℚ) * 2 ^ t) = L at hL1 hL2 htL hLt hL128
  -- the exponent of the last place and the integral significand
  obtain ⟨d, hd⟩ : ∃ d : ℕ, t = (max L (-126) - 23) + d :=
    ⟨(t - (max L (-126) - 23)).toNat, by
      rcases max_cases L (-126) with ⟨h, _⟩ | ⟨h, _⟩ <;> rw [h] <;> omega⟩
  have hsplit : (M : ℚ) * 2 ^ t = ((M * 2 ^ d : ℕ) : ℚ) * 2 ^ (max L (-126) - 23) := by
    rw [hd, zpow_add₀ (by norm_num : (2 : ℚ) ≠ 0), zpow_natCast]
    push_cast
    ring
  have hpu : (0 : ℚ) < 2 ^ (max L (-126) - 23) := zpow_pos h2 _
  have hm : Float32.roundHalfEven ((M : ℚ) * 2 ^ t / 2 ^ (max L (-126) - 23)) = M * 2 ^ d := by
    rw [hsplit, mul_div_assoc, div_self (ne_of_gt hpu), mul_one]
    exact Float32.roundHalfEven_natCast _
  generalize hmdef : M * 2 ^ d = m at hsplit hm
  rw [hsplit] at hL1 hL2
  rcases le_or_lt (-126) L with hcase | hcase
  · -- normal range
    have he : max L (-126) = L := max_eq_left hcase
    rw [he] at hsplit hm hL1 hL2 hpu
    have hLs : (2 : ℚ) ^ L = 2 ^ 23 * 2 ^ (L - 23) := by
      rw [show (2 : ℚ) ^ 23 = 2 ^ (23 : ℤ) by norm_num, ← zpow_add₀ (by norm_num : (2 : ℚ) ≠ 0)]
      congr 1
      omega
    have hLs1 : (2 : ℚ) ^ (L + 1) = 2 ^ 24 * 2 ^ (L - 23) := by
      rw [show (2 : ℚ) ^ 24 = 2 ^ (24 : ℤ) by norm_num, ← zpow_add₀ (by norm_num : (2 : ℚ) ≠ 0)]
      congr 1
      omega
    rw [hLs] at hL1
    rw [hLs1] at hL2
    have hm1 : (2 : ℚ) ^ 23 ≤ (m : ℚ) := le_of_mul_le_mul_right hL1 hpu
    have hm2 : (m : ℚ) < 2 ^ 24 := lt_of_mul_lt_mul_right hL2 (le_of_lt hpu)
    have hm1n : 8388608 ≤ m := by exact_mod_cast hm1
    have hm2n : m < 16777216 := by exact_mod_cast hm2
    have hb : (L + 126).toNat * 8388608 + m < 255 * 8388608 := by omega
    obtain ⟨hs, hexp, hfrac⟩ := Float32.round_fields s ((M : ℚ) * 2 ^ t) (ne_of_gt hq)
      ((L + 126).toNat * 8388608 + m) (by rw [hLdef, he, hm]) hb
    have hexp2 : (Float32.round s ((M : ℚ) * 2 ^ t)).expo = (L + 126).toNat + 1 := by
      rw [hexp]; omega
    have hfrac2 : (Float32.round s ((M : ℚ) * 2 ^ t)).frac = m - 8388608 := by
      rw [hfrac]; omega
    refine ⟨?_, hs, ?_⟩
    · simp only [Float32.isFinite, hexp2, bne_iff_ne, ne_eq]
      omega
    · unfold Float32.mag
      rw [hexp2, hfrac2, if_neg (by omega), hsplit]
      have h1 : 2 ^ 23 + (m - 8388608) = m := by omega
      have h2 : (((L + 126).toNat + 1 : ℕ) : ℤ) - 150 = L - 23 := by
        push_cast
        omega
      rw [h1, h2]
  · -- subnormal range
    have he : max L (-126) = -126 := max_eq_right (le_of_lt hcase)
    rw [he] at hsplit hm hL1 hL2 hpu
    have hu : (-126 : ℤ) - 23 = -149 := by norm_num
    rw [hu] at hsplit hm hL2 hpu
    have hle : (2 : ℚ) ^ (L + 1) ≤ 2 ^ 23 * 2 ^ (-149 : ℤ) := by
      rw [show (2 : ℚ) ^ 23 = 2 ^ (23 : ℤ) by norm_num, ← zpow_add₀ (by norm_num : (2 : ℚ) ≠ 0)]
      apply zpow_le_zpow_right₀ (by norm_num)
      omega
    have hm2 : (m : ℚ) < 2 ^ 23 := lt_of_mul_lt_mul_right (lt_of_lt_of_le hL2 hle) (le_of_lt hpu)
    have hm2n : m < 8388608 := by exact_mod_cast hm2
    have hb : (-126 + 126 : ℤ).toNat * 8388608 + m < 255 * 8388608 := by
      simp only [neg_add_cancel, Int.toNat_zero]
      omega
    obtain ⟨hs, hexp, hfrac⟩ := Float32.round_fields s ((M : ℚ) * 2 ^ t) (ne_of_gt hq)
      ((-126 + 126 : ℤ).toNat * 8388608 + m) (by rw [hLdef, he, hu, hm]) hb
    have hexp2 : (Float32.round s ((M : ℚ) * 2 ^ t)).expo = 0 := by
      rw [hexp]
      simp only [neg_add_cancel, Int.toNat_zero]
      omega
    have hfrac2 : (Float32.round s ((M : ℚ) * 2 ^ t)).frac = m := by
      rw [hfrac]
      simp only [neg_add_cancel, Int.toNat_zero]
      omega
    refine ⟨?_, hs, ?_⟩
    · simp [Float32.isFinite, hexp2]
    · unfold Float32.mag
      rw [hexp2, hfrac2, if_pos rfl, hsplit]
      rw [show (2 : ℚ) ^ (-149 : ℤ) = 1 / 2 ^ 149 by
        rw [zpow_neg, one_div]; norm_num]
      ring

/-- Rounding leaves an exactly representable magnitude below `2^128` as it is. -/
theorem Float32.round_exact (s : Bool) (q : ℚ) (hrep : Float32.Rep q) (hlt : q < 2 ^ 128) :
    (Float32.round s q).isFinite = true ∧ (Float32.round s q).sign = s ∧
      (Float32.round s q).mag = q := by
  obtain ⟨M, t, hM, ht, rfl⟩ := hrep
  rcases Nat.eq_zero_or_pos M with h0 | h0
  · subst h0
    simp only [Nat.cast_zero, zero_mul]
    exact Float32.round_zero s
  · exact Float32.round_exact_pos s M t h0 hM ht hlt

theorem Float32.mag_nonneg (x : Float32) : 0 ≤ x.mag := by
  unfold Float32.mag
  split <;> positivity

theorem Float32.rep_mag (x : Float32) : Float32.Rep x.mag := by
  unfold Float32.mag
  split
  · refine ⟨x.frac, -149, ?_, le_refl _, ?_⟩
    · have := x.frac_lt
      omega
    · rw [show (2 : ℚ) ^ (-149 : ℤ) = 1 / 2 ^ 149 by rw [zpow_neg, one_div]; norm_num]
      ring
  · refine ⟨2 ^ 23 + x.frac, (x.expo : ℤ) - 150, ?_, by omega, rfl⟩
    have := x.frac_lt
    omega

theorem Float32.Rep.mul_two_pow {q : ℚ} (h : Float32.Rep q) (n : ℕ) :
    Float32.Rep (q * 2 ^ n) := by
  obtain ⟨M, t, hM, ht, rfl⟩ := h
  refine ⟨M, t + n, hM, by omega, ?_⟩
  rw [zpow_add₀ (by norm_num : (2 : ℚ) ≠ 0), zpow_natCast]
  ring

theorem Float32.rep_natCast (k : ℕ) (hk : k ≤ 2 ^ 24) : Float32.Rep (k : ℚ) := by
  rcases Nat.lt_or_ge k (2 ^ 24) with h | h
  · exact ⟨k, 0, h, by norm_num, by simp⟩
  · have : k = 2 ^ 24 := le_antisymm hk h
    subst this
    exact ⟨1, 24, by norm_num, by norm_num, by norm_num⟩

theorem Float32.rep_two_pow (n : ℕ) : Float32.Rep ((2 : ℚ) ^ n) :=
  ⟨1, n, by norm_num, by omega, by rw [zpow_natCast]; ring⟩

/-- Rounding a representable magnitude to the nearest integer, halves upwards,
gives a representable magnitude. -/
theorem Float32.Rep.floor_add_half {q : ℚ} (h : Float32.Rep q) :
    Float32.Rep ((⌊q + 1 / 2⌋₊ : ℕ) : ℚ) := by
  obtain ⟨M, t, hM, ht, rfl⟩ := h
  rcases le_or_lt 0 t with h0 | h0
  · obtain ⟨d, rfl⟩ : ∃ d : ℕ, t = d := ⟨t.toNat, by omega⟩
    have hfl : ⌊(M : ℚ) * 2 ^ (d : ℤ) + 1 / 2⌋₊ = M * 2 ^ d := by
      rw [Nat.floor_eq_iff (by positivity)]
      rw [zpow_natCast]
      push_cast
      constructor <;> linarith
    rw [hfl]
    refine ⟨M, d, hM, ht, ?_⟩
    rw [zpow_natCast]
    push_cast
    ring
  · apply Float32.rep_natCast
    have hMq : (M : ℚ) < 2 ^ 24 := by exact_mod_cast hM
    have hpow : (2 : ℚ) ^ t ≤ 1 / 2 := by
      have : (2 : ℚ) ^ t ≤ 2 ^ (-1 : ℤ) := zpow_le_zpow_right₀ (by norm_num) (by omega)
      rwa [show (2 : ℚ) ^ (-1 : ℤ) = 1 / 2 by norm_num] at this
    have hpos : (0 : ℚ) < 2 ^ t := zpow_pos (by norm_num) t
    have hM0 : (0 : ℚ) ≤ M := Nat.cast_nonneg M
    have hq : (M : ℚ) * 2 ^ t + 1 / 2 < (2 ^ 24 : ℕ) := by
      push_cast
      nlinarith
    have := (Nat.floor_lt (by positivity)).mpr hq
    exact le_of_lt this

theorem Float32.not_special_of_isFinite (x : Float32) (h : x.isFinite = true) :
    x.isNaN = false ∧ x.isInf = false := by
  simp only [Float32.isFinite, bne_iff_ne, ne_eq] at h
  simp [Float32.isNaN, Float32.isInf, h]

/-- The conversion `(float)(1 << n)` for `n <= 30` is the float `2^n`. -/
theorem Float32.ofInt_two_pow (n : ℕ) (hn : n < 128) :
    (Float32.ofInt (2 ^ n)).isFinite = true ∧ (Float32.ofInt (2 ^ n)).sign = false ∧
      (Float32.ofInt (2 ^ n)).mag = 2 ^ n := by
  unfold Float32.ofInt
  have hpos : (0 : ℤ) < 2 ^ n := by positivity
  have hs : decide ((2 : ℤ) ^ n < 0) = false := by
    rw [decide_eq_false_iff_not]
    omega
  have habs : |(((2 : ℤ) ^ n : ℤ) : ℚ)| = 2 ^ n := by
    push_cast
    exact abs_of_pos (by positivity)
  rw [hs, habs]
  apply Float32.round_exact false _ (Float32.rep_two_pow n)
  exact pow_lt_pow_right₀ (by norm_num) hn

/-! ## Scaling and rounding inside the quantizer -/

/-- The float `roundf(value * (1 << n))` for a finite `value` and `n <= 30`:
the product is exact, and so is its rounding to an integer. -/
theorem Float32.scaled_roundf (value : Float32) (n : ℕ) (hn : n ≤ 30)
    (hfin : value.isFinite = true) (hbig : value.mag * 2 ^ n < 2 ^ 127) :
    (Float32.roundf (value.mul (Float32.ofInt (2 ^ n)))).isFinite = true ∧
    (Float32.roundf (value.mul (Float32.ofInt (2 ^ n)))).sign = value.sign ∧
    (Float32.roundf (value.mul (Float32.ofInt (2 ^ n)))).mag
      = ((⌊value.mag * 2 ^ n + 1 / 2⌋₊ : ℕ) : ℚ) := by
  obtain ⟨pfin, psign, pmag⟩ := Float32.ofInt_two_pow n (by omega)
  obtain ⟨vnan, vinf⟩ := Float32.not_special_of_isFinite value hfin
  obtain ⟨pnan, pinf⟩ := Float32.not_special_of_isFinite _ pfin
  have hmul : value.mul (Float32.ofInt (2 ^ n))
      = Float32.round value.sign (value.mag * 2 ^ n) := by
    unfold Float32.mul
    simp [vnan, vinf, pnan, pinf, psign, pmag]
  have hrep : Float32.Rep (value.mag * 2 ^ n) := (Float32.rep_mag value).mul_two_pow n
  obtain ⟨sfin, ssign, smag⟩ := Float32.round_exact value.sign (value.mag * 2 ^ n) hrep
    (lt_trans hbig (by norm_num))
  rw [hmul]
  unfold Float32.roundf
  rw [if_pos sfin, ssign, smag]
  apply Float32.round_exact
  · exact hrep.floor_add_half
  · have h0 : (0 : ℚ) ≤ value.mag * 2 ^ n + 1 / 2 := by
      have hm := Float32.mag_nonneg value
      have h2n : (0 : ℚ) ≤ 2 ^ n := le_of_lt (pow_pos (by norm_num) n)
      have := mul_nonneg hm h2n
      linarith
    have := Nat.floor_le h0
    have h1 : (1 : ℚ) ≤ 2 ^ 127 := one_le_pow₀ (by norm_num)
    have h128 : (2 : ℚ) ^ 128 = 2 ^ 127 * 2 := by rw [← pow_succ]
    linarith

theorem Float32.val_of_nonneg (x : Float32) (h0 : 0 ≤ x.val) :
    x.val = x.mag ∧ (x.sign = true → x.mag = 0) := by
  have hm := Float32.mag_nonneg x
  unfold Float32.val at h0 ⊢
  by_cases hs : x.sign = true
  · rw [if_pos hs] at h0 ⊢
    have : x.mag = 0 := by linarith
    exact ⟨by rw [this]; simp, fun _ => this⟩
  · rw [if_neg hs]
    exact ⟨rfl, fun h => absurd h hs⟩

/-- The integer the quantizer computes before saturation: for a finite
`value >= 0`, `n <= 30` and a rounding that fits 32 bits,
`(uint32_t)roundf(value * (1 << n))` is `⌊value * 2^n + 1/2⌋`. -/
theorem Float32.quantizer_code (cvt : Float32 → ℕ) (value : Float32) (n : ℕ) (hn : n ≤ 30)
    (hfin : value.isFinite = true) (h0 : 0 ≤ value.val)
    (hk : ⌊value.val * 2 ^ n + 1 / 2⌋₊ < 2 ^ 32) :
    Float32.toUInt32 cvt (Float32.roundf (value.mul (Float32.ofInt (2 ^ n))))
      = ⌊value.val * 2 ^ n + 1 / 2⌋₊ := by
  obtain ⟨hval, hsign⟩ := Float32.val_of_nonneg value h0
  rw [hval] at hk ⊢
  have hm := Float32.mag_nonneg value
  have hpos : (0 : ℚ) ≤ value.mag * 2 ^ n + 1 / 2 := by positivity
  have hkq : value.mag * 2 ^ n + 1 / 2 < ((2 ^ 32 : ℕ) : ℚ) := (Nat.floor_lt hpos).mp hk
  have hbig : value.mag * 2 ^ n < 2 ^ 127 := by
    push_cast at hkq
    have : (2 : ℚ) ^ 32 < 2 ^ 127 := by norm_num
    linarith
  obtain ⟨rfin, rsign, rmag⟩ := Float32.scaled_roundf value n hn hfin hbig
  have hkq2 : ((⌊value.mag * 2 ^ n + 1 / 2⌋₊ : ℕ) : ℚ) < 2 ^ 32 := by exact_mod_cast hk
  unfold Float32.toUInt32 Float32.val
  rw [rfin, rsign, rmag, Nat.floor_natCast]
  by_cases hs : value.sign = true
  · have hz : ⌊value.mag * 2 ^ n + 1 / 2⌋₊ = 0 := by
      rw [hsign hs]
      norm_num
    rw [hz]
    simp
  · have hs2 : value.sign = false := by simpa using hs
    rw [hs2]
    have hnn : (0 : ℚ) ≤ ((⌊value.mag * 2 ^ n + 1 / 2⌋₊ : ℕ) : ℚ) := Nat.cast_nonneg _
    have hcond : True ∧ (-1 : ℚ) < ((⌊value.mag * 2 ^ n + 1 / 2⌋₊ : ℕ) : ℚ) ∧
        ((⌊value.mag * 2 ^ n + 1 / 2⌋₊ : ℕ) : ℚ) < 2 ^ 32 := ⟨trivial, by linarith, hkq2⟩
    simp only [Bool.false_eq_true, if_false]
    rw [if_pos hcond]
    simp

theorem shl_int_of_le (n : ℕ) (hn : n ≤ 30) : shl_int n = some (2 ^ n) := by
  unfold shl_int
  rw [if_pos (by omega)]

theorem Float32.val_nonneg_of_ge (value : Float32) (hfin : value.isFinite = true)
    (hv : value.ge Float32.zero = true) : 0 ≤ value.val := by
  obtain ⟨_, vinf⟩ := Float32.not_special_of_isFinite value hfin
  simp only [Float32.ge, Bool.and_eq_true, Bool.not_eq_true', decide_eq_true_eq,
    Float32.zero_ord] at hv
  have := hv.2
  unfold Float32.ord at this
  rw [vinf] at this
  simpa using this

theorem roundHalfAway_of_nonneg (x : ℚ) (hx : 0 ≤ x) :
    roundHalfAway x = ((⌊x + 1 / 2⌋₊ : ℕ) : ℤ) := by
  unfold roundHalfAway
  rw [if_pos hx]
  exact (Int.natCast_floor_eq_floor (by positivity)).symm

/-- The quantizer on a finite `value >= 0` under a profile with `n <= 30`,
`m + n <= 31` and `total_bits <= 32`: the code `⌊value * 2^n + 1/2⌋`, saturated
at `2^(m+n)`, written on `total_bits` characters. -/
theorem float_to_fixed_bin_code (cvt : Float32 → ℕ) (value : Float32) (total_bits m n : ℕ)
    (hfin : value.isFinite = true) (hv : value.ge Float32.zero = true)
    (hn : n ≤ 30) (hmn : m + n ≤ 31) (htb : total_bits ≤ 32)
    (hk : ⌊value.val * 2 ^ n + 1 / 2⌋₊ < 2 ^ 32) :
    float_to_fixed_bin cvt true value total_bits m n =
      Outcome.bits (decide (2 ^ (m + n) ≤ ⌊value.val * 2 ^ n + 1 / 2⌋₊))
        (bin_loop (if 2 ^ (m + n) ≤ ⌊value.val * 2 ^ n + 1 / 2⌋₊ then 2 ^ (m + n) - 1
          else ⌊value.val * 2 ^ n + 1 / 2⌋₊) total_bits) := by
  rw [float_to_fixed_bin_eq cvt value total_bits m n (2 ^ n)
    (Float32.lt_zero_of_ge value hv) (shl_int_of_le n hn) (by omega) htb]
  rw [Float32.quantizer_code cvt value n hn hfin (Float32.val_nonneg_of_ge value hfin hv) hk]

/-! ## The quantizer's contract -/

theorem Float32.one_val : Float32.one.val = 1 := by
  norm_num [Float32.val, Float32.mag, Float32.one]

theorem Float32.belowFour_val : Float32.belowFour.val = 4 - 1 / 2 ^ 12 := by
  norm_num [Float32.val, Float32.mag, Float32.belowFour]

theorem Float32.twoPow22_val : Float32.twoPow22.val = 2 ^ 22 := by
  norm_num [Float32.val, Float32.mag, Float32.twoPow22]

theorem Float32.twoPow32_val : Float32.twoPow32.val = 2 ^ 32 := by
  norm_num [Float32.val, Float32.mag, Float32.twoPow32]

theorem Float32.ge_zero_of_val (x : Float32) (hfin : x.isFinite = true) (h : 0 ≤ x.val) :
    x.ge Float32.zero = true := by
  obtain ⟨xnan, xinf⟩ := Float32.not_special_of_isFinite x hfin
  simp only [Float32.ge, xnan, Float32.zero_isNaN, Bool.not_false, Bool.true_and,
    decide_eq_true_eq, Float32.zero_ord]
  unfold Float32.ord
  rw [xinf]
  simpa using h

/-- C1, within the 32-bit arithmetic of the code: for every finite
`value >= 0` and every profile with `n <= 30`, `m + n <= 31` and
`m + n <= total_bits <= 32` whose code, `value * 2^n` rounded half away from
zero, is below `2^(m+n)`, the call returns exactly `total_bits` characters,
each `0` or `1`, that read most significant bit first are the code; a scaled
value lying on `k + 1/2` encodes `k + 1`. -/
theorem quantizer_binary_numeral (cvt : Float32 → ℕ) (value : Float32) (total_bits m n : ℕ)
    (hfin : value.isFinite = true) (hv : value.ge Float32.zero = true)
    (hmn : m + n ≤ total_bits) (htb : total_bits ≤ 32) (hn : n ≤ 30) (hmn31 : m + n ≤ 31)
    (hcode : roundHalfAway (value.val * 2 ^ n) < 2 ^ (m + n)) :
    ∃ s, float_to_fixed_bin cvt true value total_bits m n = Outcome.bits false s ∧
      s.length = total_bits ∧ (∀ c ∈ s, c = '0' ∨ c = '1') ∧
      (readBin s : ℤ) = roundHalfAway (value.val * 2 ^ n) ∧
      (∀ k : ℕ, value.val * 2 ^ n = k + 1 / 2 → readBin s = k + 1) := by
  have h0 := Float32.val_nonneg_of_ge value hfin hv
  have hx : (0 : ℚ) ≤ value.val * 2 ^ n := mul_nonneg h0 (le_of_lt (pow_pos (by norm_num) n))
  rw [roundHalfAway_of_nonneg _ hx] at hcode ⊢
  have hcode2 : ⌊value.val * 2 ^ n + 1 / 2⌋₊ < 2 ^ (m + n) := by exact_mod_cast hcode
  have hpow : 2 ^ (m + n) ≤ 2 ^ 31 := Nat.pow_le_pow_right (by decide) hmn31
  have hpow2 : 2 ^ (m + n) ≤ 2 ^ total_bits := Nat.pow_le_pow_right (by decide) hmn
  have hk : ⌊value.val * 2 ^ n + 1 / 2⌋₊ < 2 ^ 32 := by omega
  rw [float_to_fixed_bin_code cvt value total_bits m n hfin hv hn hmn31 htb hk]
  have hnot : ¬ 2 ^ (m + n) ≤ ⌊value.val * 2 ^ n + 1 / 2⌋₊ := by omega
  rw [if_neg hnot, decide_eq_false hnot]
  have hread : readBin (bin_loop ⌊value.val * 2 ^ n + 1 / 2⌋₊ total_bits)
      = ⌊value.val * 2 ^ n + 1 / 2⌋₊ := by
    rw [readBin_bin_loop]
    exact Nat.mod_eq_of_lt (by omega)
  refine ⟨_, rfl, bin_loop_length _ _, bin_loop_chars _ _, ?_, ?_⟩
  · rw [hread]
  · intro k hkk
    rw [hread, hkk]
    have : ((k : ℚ) + 1 / 2 + 1 / 2) = ((k + 1 : ℕ) : ℚ) := by
      push_cast
      ring
    rw [this, Nat.floor_natCast]

theorem Float32.oneAndHalf_val : Float32.oneAndHalf.val = 3 / 2 := by
  norm_num [Float32.val, Float32.mag, Float32.oneAndHalf]

theorem roundHalfAway_oneAndHalf : roundHalfAway (Float32.oneAndHalf.val * 2 ^ 0) = 2 := by
  rw [Float32.oneAndHalf_val, roundHalfAway_of_nonneg _ (by norm_num)]
  have : ⌊(3 : ℚ) / 2 * 2 ^ 0 + 1 / 2⌋₊ = 2 := by
    rw [Nat.floor_eq_iff (by norm_num)]
    constructor <;> norm_num
  rw [this]
  rfl

/-- Witness for C1 on `1.5` under the profile (8, 8, 0): the scaled value
lies on `1 + 1/2` and the code is 2. -/
theorem quantizer_binary_numeral_witness :
    Float32.oneAndHalf.ge Float32.zero = true ∧
    roundHalfAway (Float32.oneAndHalf.val * 2 ^ 0) < 2 ^ (8 + 0) ∧
    ∃ s, float_to_fixed_bin cvt_x86_64 true Float32.oneAndHalf 8 8 0 = Outcome.bits false s ∧
      s.length = 8 ∧ (∀ c ∈ s, c = '0' ∨ c = '1') ∧
      (readBin s : ℤ) = roundHalfAway (Float32.oneAndHalf.val * 2 ^ 0) ∧
      (∀ k : ℕ, Float32.oneAndHalf.val * 2 ^ 0 = k + 1 / 2 → readBin s = k + 1) :=
  ⟨Float32.ge_zero_of_val _ (by decide) (by rw [Float32.oneAndHalf_val]; norm_num),
   by rw [roundHalfAway_oneAndHalf]; norm_num,
   quantizer_binary_numeral cvt_x86_64 Float32.oneAndHalf 8 8 0 (by decide)
     (Float32.ge_zero_of_val _ (by decide) (by rw [Float32.oneAndHalf_val]; norm_num))
     (by decide) (by decide) (by decide) (by decide)
     (by rw [roundHalfAway_oneAndHalf]; norm_num)⟩

theorem Float32.twoPowNeg31_mag : Float32.twoPowNeg31.mag = 1 / 2 ^ 31 := by
  norm_num [Float32.mag, Float32.twoPowNeg31]

theorem Float32.twoPowNeg31_val : Float32.twoPowNeg31.val = 1 / 2 ^ 31 := by
  norm_num [Float32.val, Float32.mag, Float32.twoPowNeg31]

theorem Float32.rep_one : Float32.Rep 1 := ⟨1, 0, by norm_num, by norm_num, by norm_num⟩

/-- The conversion `(float)INT_MIN`. -/
theorem Float32.ofInt_int_min :
    (Float32.ofInt (-(2 ^ 31))).isFinite = true ∧ (Float32.ofInt (-(2 ^ 31))).sign = true ∧
      (Float32.ofInt (-(2 ^ 31))).mag = 2 ^ 31 := by
  unfold Float32.ofInt
  have hs : decide ((-(2 ^ 31) : ℤ) < 0) = true := by decide
  have habs : |(((-(2 ^ 31) : ℤ) : ℤ) : ℚ)| = 2 ^ 31 := by
    push_cast
    rw [abs_neg]
    exact abs_of_pos (by positivity)
  rw [hs, habs]
  exact Float32.round_exact true _ (Float32.rep_two_pow 31) (by norm_num)

/-- With `n = 31` the factor `1 << n` is `INT_MIN`: `2^-31` is scaled to
`-1.0`, which the x86-64 conversion turns into `0xFFFFFFFF`. -/
theorem Float32.neg31_scaled :
    Float32.toUInt32 cvt_x86_64
      (Float32.roundf (Float32.twoPowNeg31.mul (Float32.ofInt (-(2 ^ 31))))) = 4294967295 := by
  obtain ⟨pfin, psign, pmag⟩ := Float32.ofInt_int_min
  obtain ⟨pnan, pinf⟩ := Float32.not_special_of_isFinite _ pfin
  have vfin : Float32.twoPowNeg31.isFinite = true := by decide
  obtain ⟨vnan, vinf⟩ := Float32.not_special_of_isFinite _ vfin
  have vsign : Float32.twoPowNeg31.sign = false := rfl
  have hmul : Float32.twoPowNeg31.mul (Float32.ofInt (-(2 ^ 31))) = Float32.round true 1 := by
    unfold Float32.mul
    rw [vnan, vinf, pnan, pinf, psign, pmag, vsign, Float32.twoPowNeg31_mag]
    have h1 : (1 : ℚ) / 2 ^ 31 * 2 ^ 31 = 1 := by norm_num
    rw [h1]
    simp
  obtain ⟨rfin, rsign, rmag⟩ := Float32.round_exact true 1 Float32.rep_one (by norm_num)
  have hfl : ⌊(1 : ℚ) + 1 / 2⌋₊ = 1 := by
    rw [Nat.floor_eq_iff (by norm_num)]
    constructor <;> norm_num
  have hround : Float32.roundf (Float32.round true 1) = Float32.round true 1 := by
    unfold Float32.roundf
    rw [if_pos rfin, rsign, rmag, hfl]
    norm_num
  rw [hmul, hround]
  unfold Float32.toUInt32 cvt_x86_64 Float32.val
  rw [rfin, rsign, rmag]
  norm_num
  rfl

/-- Counterexample to C1 as stated, at the edges of the 32-bit arithmetic.  Under the
profile (32, 32, 0) the value `1.0` has the code 1, below `2^32`, but the
saturation bound `1U << 32` is a shift by the full width and the call has no
defined result.  Under the profile (32, 0, 31) the value `2^-31` has the code
1, below `2^31`, but `1 << 31` is `INT_MIN`, and on x86-64 the call returns
`0` followed by thirty-one `1`, which reads `2^31 - 1`. -/
theorem quantizer_binary_numeral_counterexample :
    (Float32.one.ge Float32.zero = true ∧ 32 + 0 ≤ 32 ∧
      roundHalfAway (Float32.one.val * 2 ^ 0) = 1 ∧ (1 : ℤ) < 2 ^ (32 + 0) ∧
      float_to_fixed_bin cvt_x86_64 true Float32.one 32 32 0 = Outcome.undefined) ∧
    (Float32.twoPowNeg31.ge Float32.zero = true ∧ 0 + 31 ≤ 32 ∧
      roundHalfAway (Float32.twoPowNeg31.val * 2 ^ 31) = 1 ∧ (1 : ℤ) < 2 ^ (0 + 31) ∧
      float_to_fixed_bin cvt_x86_64 true Float32.twoPowNeg31 32 0 31
        = Outcome.bits true "01111111111111111111111111111111".toList ∧
      readBin "01111111111111111111111111111111".toList = 2147483647) := by
  refine ⟨⟨Float32.one_ge_zero, by decide, ?_, by norm_num, ?_⟩,
    ⟨?_, by decide, ?_, by norm_num, ?_, by decide⟩⟩
  · rw [Float32.one_val, roundHalfAway_of_nonneg _ (by norm_num)]
    have : ⌊(1 : ℚ) * 2 ^ 0 + 1 / 2⌋₊ = 1 := by
      rw [Nat.floor_eq_iff (by norm_num)]
      constructor <;> norm_num
    rw [this]
    rfl
  · unfold float_to_fixed_bin
    rw [Float32.lt_zero_of_ge _ Float32.one_ge_zero]
    simp [shl_int, shl_u32]
  · exact Float32.ge_zero_of_val _ (by decide) (by rw [Float32.twoPowNeg31_val]; norm_num)
  · rw [Float32.twoPowNeg31_val, roundHalfAway_of_nonneg _ (by norm_num)]
    have : ⌊(1 : ℚ) / 2 ^ 31 * 2 ^ 31 + 1 / 2⌋₊ = 1 := by
      rw [Nat.floor_eq_iff (by norm_num)]
      constructor <;> norm_num
    rw [this]
    rfl
  · rw [float_to_fixed_bin_eq cvt_x86_64 Float32.twoPowNeg31 32 0 31 (-(2 ^ 31))
      (Float32.lt_zero_of_ge _
        (Float32.ge_zero_of_val _ (by decide) (by rw [Float32.twoPowNeg31_val]; norm_num)))
      (by decide) (by decide) (by decide)]
    rw [Float32.neg31_scaled]
    decide

/-- C4, up to the last half step below `2^m`: for every finite `value` in
`[0, 2^m - 2^-(n+1)]` and every profile with `n <= 30`, `m + n <= 31` and
`m + n <= total_bits <= 32`, the returned string read as an unsigned integer
and divided by `2^n` is within `2^-(n+1)` of `value`. -/
theorem quantizer_round_trip (cvt : Float32 → ℕ) (value : Float32) (total_bits m n : ℕ)
    (hfin : value.isFinite = true) (hv : value.ge Float32.zero = true)
    (hmn : m + n ≤ total_bits) (htb : total_bits ≤ 32) (hn : n ≤ 30) (hmn31 : m + n ≤ 31)
    (htop : value.val ≤ 2 ^ m - 1 / 2 ^ (n + 1)) :
    ∃ warned s, float_to_fixed_bin cvt true value total_bits m n = Outcome.bits warned s ∧
      |(readBin s : ℚ) / 2 ^ n - value.val| ≤ 1 / 2 ^ (n + 1) := by
  have h0 := Float32.val_nonneg_of_ge value hfin hv
  have h2n : (0 : ℚ) < 2 ^ n := pow_pos (by norm_num) n
  have hx0 : (0 : ℚ) ≤ value.val * 2 ^ n := mul_nonneg h0 (le_of_lt h2n)
  have hxtop : value.val * 2 ^ n ≤ ((2 ^ (m + n) : ℕ) : ℚ) - 1 / 2 := by
    have h := mul_le_mul_of_nonneg_right htop (le_of_lt h2n)
    have he : ((2 : ℚ) ^ m - 1 / 2 ^ (n + 1)) * 2 ^ n = ((2 ^ (m + n) : ℕ) : ℚ) - 1 / 2 := by
      push_cast
      field_simp
      ring
    rwa [he] at h
  have hpos : (0 : ℚ) ≤ value.val * 2 ^ n + 1 / 2 := by linarith
  have hfl1 : ((⌊value.val * 2 ^ n + 1 / 2⌋₊ : ℕ) : ℚ) ≤ value.val * 2 ^ n + 1 / 2 :=
    Nat.floor_le hpos
  have hfl2 : value.val * 2 ^ n + 1 / 2 < ((⌊value.val * 2 ^ n + 1 / 2⌋₊ : ℕ) : ℚ) + 1 :=
    Nat.lt_floor_add_one _
  have hkle : ⌊value.val * 2 ^ n + 1 / 2⌋₊ ≤ 2 ^ (m + n) := by
    have : ((⌊value.val * 2 ^ n + 1 / 2⌋₊ : ℕ) : ℚ) ≤ ((2 ^ (m + n) : ℕ) : ℚ) := by linarith
    exact_mod_cast this
  have hpow : 2 ^ (m + n) ≤ 2 ^ 31 := Nat.pow_le_pow_right (by decide) hmn31
  have hpow2 : 2 ^ (m + n) ≤ 2 ^ total_bits := Nat.pow_le_pow_right (by decide) hmn
  have hpow0 : 0 < 2 ^ (m + n) := Nat.pow_pos (by decide)
  have hk : ⌊value.val * 2 ^ n + 1 / 2⌋₊ < 2 ^ 32 := by omega
  rw [float_to_fixed_bin_code cvt value total_bits m n hfin hv hn hmn31 htb hk]
  refine ⟨_, _, rfl, ?_⟩
  rw [readBin_bin_loop]
  generalize ⌊value.val * 2 ^ n + 1 / 2⌋₊ = k at hfl1 hfl2 hkle hk
  have hkey : ∀ f : ℕ, f < 2 ^ (m + n) → |(f : ℚ) - value.val * 2 ^ n| ≤ 1 / 2 →
      |((f % 2 ^ total_bits : ℕ) : ℚ) / 2 ^ n - value.val| ≤ 1 / 2 ^ (n + 1) := by
    intro f hf habs
    rw [Nat.mod_eq_of_lt (by omega)]
    have he : (f : ℚ) / 2 ^ n - value.val = ((f : ℚ) - value.val * 2 ^ n) / 2 ^ n := by
      field_simp
      ring
    rw [he, abs_div, abs_of_pos h2n, pow_succ, div_le_div_iff₀ h2n (by positivity)]
    nlinarith
  by_cases hsat : 2 ^ (m + n) ≤ k
  · rw [if_pos hsat]
    apply hkey _ (by omega)
    have hkeq : k = 2 ^ (m + n) := le_antisymm hkle hsat
    have hcast : ((2 ^ (m + n) - 1 : ℕ) : ℚ) = ((2 ^ (m + n) : ℕ) : ℚ) - 1 := by
      rw [Nat.cast_sub hpow0]
      simp
    rw [hcast, abs_le]
    rw [hkeq] at hfl1
    constructor <;> linarith
  · rw [if_neg hsat]
    apply hkey _ (by omega)
    rw [abs_le]
    constructor <;> linarith

/-- Witness for C4 on `1.0` under the profile (12, 2, 10). -/
theorem quantizer_round_trip_witness :
    Float32.one.val ≤ 2 ^ 2 - 1 / 2 ^ (10 + 1) ∧
    ∃ warned s, float_to_fixed_bin cvt_x86_64 true Float32.one 12 2 10 = Outcome.bits warned s ∧
      |(readBin s : ℚ) / 2 ^ 10 - Float32.one.val| ≤ 1 / 2 ^ (10 + 1) :=
  ⟨by rw [Float32.one_val]; norm_num,
   quantizer_round_trip cvt_x86_64 Float32.one 12 2 10 (by decide) Float32.one_ge_zero
     (by decide) (by decide) (by decide) (by decide) (by rw [Float32.one_val]; norm_num)⟩

/-- Counterexample to C4 as stated.  In the last half step below `2^m`:
under the profile (12, 2, 10) the value `4 - 2^-12`, inside `[0, 2^2)`, is
rounded to the code `2^12`, saturated to 4095 and returned as twelve `1`; read
back, that is `4 - 2^-10`, at distance `3 * 2^-12` from the value, more than
`2^-11`.  Outside the 32-bit arithmetic: under (33, 2, 10) the output loop
starts by shifting the 32-bit word by 32 and under (32, 32, 0) the saturation
bound is `1U << 32`, so the value `1.0` gets no defined result; under
(32, 0, 31) the factor `1 << 31` is `INT_MIN` and on x86-64 the value `2^-31`,
inside `[0, 2^0)`, comes back as `0` followed by thirty-one `1`, read back as
`1 - 2^-31`. -/
theorem quantizer_round_trip_counterexample :
    (Float32.belowFour.ge Float32.zero = true ∧ Float32.belowFour.val < 2 ^ 2 ∧
      2 + 10 ≤ 12 ∧
      float_to_fixed_bin cvt_x86_64 true Float32.belowFour 12 2 10
        = Outcome.bits true "111111111111".toList ∧
      readBin "111111111111".toList = 4095 ∧
      (1 : ℚ) / 2 ^ (10 + 1) < |((4095 : ℕ) : ℚ) / 2 ^ 10 - Float32.belowFour.val|) ∧
    (Float32.one.ge Float32.zero = true ∧ Float32.one.val < 2 ^ 2 ∧
      float_to_fixed_bin cvt_x86_64 true Float32.one 33 2 10 = Outcome.undefined) ∧
    (Float32.one.val < 2 ^ 32 ∧
      float_to_fixed_bin cvt_x86_64 true Float32.one 32 32 0 = Outcome.undefined) ∧
    (Float32.twoPowNeg31.ge Float32.zero = true ∧ Float32.twoPowNeg31.val < 2 ^ 0 ∧
      float_to_fixed_bin cvt_x86_64 true Float32.twoPowNeg31 32 0 31
        = Outcome.bits true "01111111111111111111111111111111".toList ∧
      readBin "01111111111111111111111111111111".toList = 2147483647 ∧
      (1 : ℚ) / 2 ^ (31 + 1)
        < |((2147483647 : ℕ) : ℚ) / 2 ^ 31 - Float32.twoPowNeg31.val|) := by
  have hge : Float32.belowFour.ge Float32.zero = true :=
    Float32.ge_zero_of_val _ (by decide) (by rw [Float32.belowFour_val]; norm_num)
  have hge31 : Float32.twoPowNeg31.ge Float32.zero = true :=
    Float32.ge_zero_of_val _ (by decide) (by rw [Float32.twoPowNeg31_val]; norm_num)
  have hfl : ⌊Float32.belowFour.val * 2 ^ 10 + 1 / 2⌋₊ = 4096 := by
    rw [Float32.belowFour_val, Nat.floor_eq_iff (by norm_num)]
    constructor <;> norm_num
  refine ⟨⟨hge, by rw [Float32.belowFour_val]; norm_num, by decide, ?_, by decide, ?_⟩,
    ⟨Float32.one_ge_zero, by rw [Float32.one_val]; norm_num, ?_⟩,
    ⟨by rw [Float32.one_val]; norm_num, ?_⟩,
    ⟨hge31, by rw [Float32.twoPowNeg31_val]; norm_num, ?_, by decide, ?_⟩⟩
  · rw [float_to_fixed_bin_code cvt_x86_64 Float32.belowFour 12 2 10 (by decide) hge
      (by decide) (by decide) (by decide) (by rw [hfl]; decide)]
    rw [hfl]
    decide
  · rw [Float32.belowFour_val]
    norm_num [abs_of_pos]
  · unfold float_to_fixed_bin
    rw [Float32.lt_zero_of_ge _ Float32.one_ge_zero]
    simp [shl_int, shl_u32]
  · unfold float_to_fixed_bin
    rw [Float32.lt_zero_of_ge _ Float32.one_ge_zero]
    simp [shl_int, shl_u32]
  · rw [float_to_fixed_bin_eq cvt_x86_64 Float32.twoPowNeg31 32 0 31 (-(2 ^ 31))
      (Float32.lt_zero_of_ge _ hge31) (by decide) (by decide) (by decide)]
    rw [Float32.neg31_scaled]
    decide
  · rw [Float32.twoPowNeg31_val]
    norm_num [abs_of_pos]

/-- The x86-64 conversion of an integral float in `[2^32, 2^63)` keeps the low
32 bits. -/
theorem Float32.toUInt32_x86_64_wraps (r : Float32) (k : ℕ) (hfin : r.isFinite = true)
    (hsign : r.sign = false) (hmag : r.mag = (k : ℚ)) (hlo : 2 ^ 32 ≤ k) (hhi : k < 2 ^ 63) :
    Float32.toUInt32 cvt_x86_64 r = k % 2 ^ 32 := by
  have hlo2 : ¬ ((k : ℚ) < 2 ^ 32) := by
    rw [not_lt]
    exact_mod_cast hlo
  have hhi2 : (k : ℚ) < 2 ^ 63 := by exact_mod_cast hhi
  unfold Float32.toUInt32 cvt_x86_64 Float32.val
  rw [hfin, hsign, hmag, Nat.floor_natCast]
  simp only [Bool.false_eq_true, if_false]
  rw [if_neg (fun h => hlo2 h.2.2), if_pos ⟨trivial, hhi2⟩]
  omega

theorem Float32.twoPow22_scaled :
    Float32.toUInt32 cvt_x86_64
      (Float32.roundf (Float32.twoPow22.mul (Float32.ofInt (2 ^ 10)))) = 0 := by
  have hmag : Float32.twoPow22.mag = 2 ^ 22 := by
    norm_num [Float32.mag, Float32.twoPow22]
  have hfl : ⌊Float32.twoPow22.mag * 2 ^ 10 + 1 / 2⌋₊ = 4294967296 := by
    rw [hmag, Nat.floor_eq_iff (by norm_num)]
    constructor <;> norm_num
  obtain ⟨rfin, rsign, rmag⟩ := Float32.scaled_roundf Float32.twoPow22 10 (by decide)
    (by decide) (by rw [hmag]; norm_num)
  rw [hfl] at rmag
  rw [Float32.toUInt32_x86_64_wraps _ 4294967296 rfin rsign rmag (by decide) (by decide)]
  decide

theorem Float32.twoPow32_scaled :
    Float32.toUInt32 cvt_x86_64
      (Float32.roundf (Float32.twoPow32.mul (Float32.ofInt (2 ^ 0)))) = 0 := by
  have hmag : Float32.twoPow32.mag = 2 ^ 32 := by
    norm_num [Float32.mag, Float32.twoPow32]
  have hfl : ⌊Float32.twoPow32.mag * 2 ^ 0 + 1 / 2⌋₊ = 4294967296 := by
    rw [hmag, Nat.floor_eq_iff (by norm_num)]
    constructor <;> norm_num
  obtain ⟨rfin, rsign, rmag⟩ := Float32.scaled_roundf Float32.twoPow32 0 (by decide)
    (by decide) (by rw [hmag]; norm_num)
  rw [hfl] at rmag
  rw [Float32.toUInt32_x86_64_wraps _ 4294967296 rfin rsign rmag (by decide) (by decide)]
  decide

theorem floor_scaled_twoPow22 : roundHalfAway (Float32.twoPow22.val * 2 ^ 10) = 2 ^ 32 := by
  rw [Float32.twoPow22_val, roundHalfAway_of_nonneg _ (by norm_num)]
  have : ⌊(2 : ℚ) ^ 22 * 2 ^ 10 + 1 / 2⌋₊ = 4294967296 := by
    rw [Nat.floor_eq_iff (by norm_num)]
    constructor <;> norm_num
  rw [this]
  rfl

theorem floor_scaled_twoPow32 : roundHalfAway (Float32.twoPow32.val * 2 ^ 0) = 2 ^ 32 := by
  rw [Float32.twoPow32_val, roundHalfAway_of_nonneg _ (by norm_num)]
  have : ⌊(2 : ℚ) ^ 32 * 2 ^ 0 + 1 / 2⌋₊ = 4294967296 := by
    rw [Nat.floor_eq_iff (by norm_num)]
    constructor <;> norm_num
  rw [this]
  rfl

/-- C2 at values whose scaled integer does not fit `uint32_t`: the conversion
comes before the range test.  On x86-64, under the profile
(12, 2, 10) the value `2^22`, scaled to `2^32 >= 2^12`, and under the profile
(8, 8, 0) the value `2^32` are both converted to 0, pass the test unsaturated
and come back as all zeros without the overflow warning. -/
theorem quantizer_saturation_escapes :
    (Float32.twoPow22.ge Float32.zero = true ∧
      roundHalfAway (Float32.twoPow22.val * 2 ^ 10) = 2 ^ 32 ∧
      float_to_fixed_bin cvt_x86_64 true Float32.twoPow22
        FIXED_TOTAL_BITS FIXED_M FIXED_N = Outcome.bits false "000000000000".toList) ∧
    (Float32.twoPow32.ge Float32.zero = true ∧
      roundHalfAway (Float32.twoPow32.val * 2 ^ 0) = 2 ^ 32 ∧
      float_to_fixed_bin cvt_x86_64 true Float32.twoPow32
        HAMMING_TOTAL_BITS HAMMING_M HAMMING_N = Outcome.bits false "00000000".toList) := by
  have hge22 : Float32.twoPow22.ge Float32.zero = true :=
    Float32.ge_zero_of_val _ (by decide) (by rw [Float32.twoPow22_val]; norm_num)
  have hge32 : Float32.twoPow32.ge Float32.zero = true :=
    Float32.ge_zero_of_val _ (by decide) (by rw [Float32.twoPow32_val]; norm_num)
  refine ⟨⟨hge22, floor_scaled_twoPow22, ?_⟩, ⟨hge32, floor_scaled_twoPow32, ?_⟩⟩
  · rw [float_to_fixed_bin_eq cvt_x86_64 Float32.twoPow22 12 2 10 (2 ^ 10)
      (Float32.lt_zero_of_ge _ hge22) (by decide) (by decide) (by decide)]
    rw [Float32.twoPow22_scaled]
    decide
  · rw [float_to_fixed_bin_eq cvt_x86_64 Float32.twoPow32 8 8 0 (2 ^ 0)
      (Float32.lt_zero_of_ge _ hge32) (by decide) (by decide) (by decide)]
    rw [Float32.twoPow32_scaled]
    decide

theorem bin_loop_all_ones (w : ℕ) : ∀ k, k ≤ w →
    bin_loop (2 ^ w - 1) k = List.replicate k '1' := by
  intro k
  induction k with
  | zero => intro _; rfl
  | succ k ih =>
    intro hk
    rw [bin_loop, ih (by omega), List.replicate_succ]
    have hb : (2 ^ w - 1).testBit k = true := by
      rw [Nat.testBit_two_pow_sub_one]
      exact decide_eq_true (by omega)
    have hne : (2 ^ w - 1) >>> k &&& 1 ≠ 0 := by
      rw [Nat.testBit, Nat.and_comm] at hb
      simpa using hb
    rw [if_pos hne]

/-- Saturation where the conversion is in range: for a finite `value >= 0`
whose code lies in `[2^(m+n), 2^32)`, under a profile with `n <= 30` and
`total_bits = m + n <= 31`, the call prints the warning and returns
`total_bits` times `1`. -/
theorem float_to_fixed_bin_saturates (cvt : Float32 → ℕ) (value : Float32) (m n : ℕ)
    (hfin : value.isFinite = true) (hv : value.ge Float32.zero = true)
    (hn : n ≤ 30) (hmn31 : m + n ≤ 31)
    (hlo : 2 ^ (m + n) ≤ ⌊value.val * 2 ^ n + 1 / 2⌋₊)
    (hhi : ⌊value.val * 2 ^ n + 1 / 2⌋₊ < 2 ^ 32) :
    float_to_fixed_bin cvt true value (m + n) m n
      = Outcome.bits true (List.replicate (m + n) '1') := by
  rw [float_to_fixed_bin_code cvt value (m + n) m n hfin hv hn hmn31 (by omega) hhi]
  rw [if_pos hlo, decide_eq_true hlo, bin_loop_all_ones (m + n) (m + n) (le_refl _)]

/-! ## Quantizing the leakage score -/

/-- The conversion `(float)k` of an `int` from 0 to `2^24` is exact. -/
theorem Float32.ofInt_natCast (k : ℕ) (hk : k ≤ 2 ^ 24) :
    (Float32.ofInt (k : ℤ)).isFinite = true ∧ (Float32.ofInt (k : ℤ)).sign = false ∧
      (Float32.ofInt (k : ℤ)).mag = (k : ℚ) := by
  unfold Float32.ofInt
  have hs : decide ((k : ℤ) < 0) = false := by
    rw [decide_eq_false_iff_not]
    omega
  have habs : |(((k : ℤ) : ℤ) : ℚ)| = (k : ℚ) := by
    push_cast
    exact abs_of_nonneg (Nat.cast_nonneg k)
  rw [hs, habs]
  apply Float32.round_exact false _ (Float32.rep_natCast k hk)
  have h1 : (k : ℚ) ≤ ((2 ^ 24 : ℕ) : ℚ) := by exact_mod_cast hk
  have h2 : ((2 ^ 24 : ℕ) : ℚ) < 2 ^ 128 := by norm_num
  linarith

theorem Float32.val_of_sign_false (x : Float32) (hs : x.sign = false) : x.val = x.mag := by
  unfold Float32.val
  rw [hs]
  simp

theorem hamming_distance_toNat (a b : Block) :
    ∃ h : ℕ, hamming_distance a b = (h : ℤ) ∧ h ≤ 128 ∧ (a = b → h = 0) := by
  refine ⟨((List.finRange 16).map
    (fun i => popcount (((a i).val ^^^ (b i).val) % 256))).sum, hamming_distance_eq_sum a b, ?_, ?_⟩
  · have h := sum_map_le_of_le (fun i => popcount (((a i).val ^^^ (b i).val) % 256)) 8
      (fun i => popcount_byte_le ⟨((a i).val ^^^ (b i).val) % 256, Nat.mod_lt _ (by decide)⟩)
      (List.finRange 16)
    rw [List.length_finRange] at h
    exact h
  · intro hab
    subst hab
    rw [List.sum_eq_zero_iff]
    intro x hx
    obtain ⟨i, _, rfl⟩ := List.mem_map.mp hx
    exact (hamming_term_zero_iff (a i) (a i)).mpr rfl

/-- C12: for all 16-byte blocks `a` and `b` the pipeline's call
`float_to_fixed_bin((float)hamming_distance(a, b), 8, 8, 0)` takes neither the
negative-value branch nor the saturation branch and returns eight characters,
each `0` or `1`, that read most significant bit first are
`hamming_distance(a, b)`; the string is `00000000` when `a = b`. -/
theorem leakage_score_quantized (cvt : Float32 → ℕ) (a b : Block) :
    ∃ s, float_to_fixed_bin cvt true (Float32.ofInt (hamming_distance a b))
        HAMMING_TOTAL_BITS HAMMING_M HAMMING_N = Outcome.bits false s ∧
      s.length = 8 ∧ (∀ c ∈ s, c = '0' ∨ c = '1') ∧
      (readBin s : ℤ) = hamming_distance a b ∧
      (a = b → s = "00000000".toList) := by
  obtain ⟨h, hh, hle, hz⟩ := hamming_distance_toNat a b
  rw [hh]
  obtain ⟨vfin, vsign, vmag⟩ := Float32.ofInt_natCast h (by omega)
  have hval : (Float32.ofInt (h : ℤ)).val = (h : ℚ) := by
    rw [Float32.val_of_sign_false _ vsign, vmag]
  have hge : (Float32.ofInt (h : ℤ)).ge Float32.zero = true :=
    Float32.ge_zero_of_val _ vfin (by rw [hval]; exact Nat.cast_nonneg h)
  have hfl : ⌊(Float32.ofInt (h : ℤ)).val * 2 ^ 0 + 1 / 2⌋₊ = h := by
    rw [hval, Nat.floor_eq_iff (by positivity)]
    constructor <;> norm_num
  rw [float_to_fixed_bin_code cvt (Float32.ofInt (h : ℤ)) 8 8 0 vfin hge (by decide)
    (by decide) (by decide) (by rw [hfl]; omega)]
  rw [hfl]
  have hnot : ¬ 2 ^ (8 + 0) ≤ h := by
    have : (2 : ℕ) ^ (8 + 0) = 256 := by norm_num
    omega
  rw [if_neg hnot, decide_eq_false hnot]
  refine ⟨_, rfl, bin_loop_length _ _, bin_loop_chars _ _, ?_, ?_⟩
  · rw [readBin_bin_loop]
    have : h % 2 ^ 8 = h := Nat.mod_eq_of_lt (by norm_num; omega)
    rw [this]
  · intro hab
    rw [hz hab]
    decide

/-! ## Round trip of the fixed-point codes -/

/-- A code of at most 24 bits, scaled down by `2^n`, is a float. -/
theorem Float32.round_fixed_point (k n : ℕ) (hk : k < 2 ^ 24) (hn : n ≤ 149) :
    (Float32.round false ((k : ℚ) / 2 ^ n)).isFinite = true ∧
      (Float32.round false ((k : ℚ) / 2 ^ n)).val = (k : ℚ) / 2 ^ n := by
  have hrep : Float32.Rep ((k : ℚ) / 2 ^ n) := by
    refine ⟨k, -(n : ℤ), hk, by omega, ?_⟩
    rw [zpow_neg, zpow_natCast, div_eq_mul_inv]
  have h2n : (1 : ℚ) ≤ 2 ^ n := one_le_pow₀ (by norm_num)
  have hkq : (k : ℚ) < 2 ^ 24 := by exact_mod_cast hk
  have hlt : (k : ℚ) / 2 ^ n < 2 ^ 128 := by
    have h1 : (k : ℚ) / 2 ^ n ≤ k := div_le_self (Nat.cast_nonneg k) h2n
    have h2 : (2 : ℚ) ^ 24 < 2 ^ 128 := by norm_num
    linarith
  obtain ⟨rfin, rsign, rmag⟩ := Float32.round_exact false _ hrep hlt
  exact ⟨rfin, by rw [Float32.val_of_sign_false _ rsign, rmag]⟩

/-- C14, for codes that are floats and within the 32-bit arithmetic of the
code: for every profile with `n <= 30`, `m + n <= 31` and
`m + n <= total_bits <= 32`, every integer `k < 2^(m+n)` and every float
`value` equal to `k / 2^n`, the call does not saturate and returns
`total_bits` characters that read most significant bit first are `k`; such a
float exists for every `k < 2^24`. -/
theorem quantizer_exact_round_trip (cvt : Float32 → ℕ) (value : Float32)
    (total_bits m n k : ℕ) (hfin : value.isFinite = true)
    (hval : value.val = (k : ℚ) / 2 ^ n) (hk : k < 2 ^ (m + n))
    (hmn : m + n ≤ total_bits) (htb : total_bits ≤ 32) (hn : n ≤ 30) (hmn31 : m + n ≤ 31) :
    (∃ s, float_to_fixed_bin cvt true value total_bits m n = Outcome.bits false s ∧
      s.length = total_bits ∧ readBin s = k) ∧
    (k < 2 ^ 24 → (Float32.round false ((k : ℚ) / 2 ^ n)).isFinite = true ∧
      (Float32.round false ((k : ℚ) / 2 ^ n)).val = (k : ℚ) / 2 ^ n) := by
  refine ⟨?_, fun hk24 => Float32.round_fixed_point k n hk24 (by omega)⟩
  have h2n : (0 : ℚ) < 2 ^ n := pow_pos (by norm_num) n
  have h0 : (0 : ℚ) ≤ value.val := by
    rw [hval]
    exact div_nonneg (Nat.cast_nonneg k) (le_of_lt h2n)
  have hge := Float32.ge_zero_of_val value hfin h0
  have hfl : ⌊value.val * 2 ^ n + 1 / 2⌋₊ = k := by
    rw [hval, div_mul_cancel₀ _ (ne_of_gt h2n), Nat.floor_eq_iff (by positivity)]
    constructor <;> norm_num
  have hpow : 2 ^ (m + n) ≤ 2 ^ 31 := Nat.pow_le_pow_right (by decide) hmn31
  have hpow2 : 2 ^ (m + n) ≤ 2 ^ total_bits := Nat.pow_le_pow_right (by decide) hmn
  rw [float_to_fixed_bin_code cvt value total_bits m n hfin hge hn hmn31 htb
    (by rw [hfl]; omega)]
  rw [hfl]
  have hnot : ¬ 2 ^ (m + n) ≤ k := by omega
  rw [if_neg hnot, decide_eq_false hnot]
  refine ⟨_, rfl, bin_loop_length _ _, ?_⟩
  rw [readBin_bin_loop]
  exact Nat.mod_eq_of_lt (by omega)

/-- Witness for C14 on the code 1024 of `1.0` under the profile (12, 2, 10). -/
theorem quantizer_exact_round_trip_witness :
    Float32.one.val = ((1024 : ℕ) : ℚ) / 2 ^ 10 ∧
    ((∃ s, float_to_fixed_bin cvt_x86_64 true Float32.one 12 2 10 = Outcome.bits false s ∧
      s.length = 12 ∧ readBin s = 1024) ∧
    (1024 < 2 ^ 24 → (Float32.round false (((1024 : ℕ) : ℚ) / 2 ^ 10)).isFinite = true ∧
      (Float32.round false (((1024 : ℕ) : ℚ) / 2 ^ 10)).val = ((1024 : ℕ) : ℚ) / 2 ^ 10)) :=
  ⟨by rw [Float32.one_val]; norm_num,
   quantizer_exact_round_trip cvt_x86_64 Float32.one 12 2 10 1024 (by decide)
     (by rw [Float32.one_val]; norm_num) (by decide) (by decide) (by decide) (by decide)
     (by decide)⟩

/-- The conversion `(float)16777217` rounds to `2^24`. -/
theorem Float32.ofInt_16777217 :
    (Float32.ofInt 16777217).isFinite = true ∧ (Float32.ofInt 16777217).val = 16777216 := by
  have hq : |(((16777217 : ℤ) : ℤ) : ℚ)| = 16777217 := by norm_num
  have hs : decide ((16777217 : ℤ) < 0) = false := by decide
  have hlog : Int.log 2 (16777217 : ℚ) = 24 := by
    apply le_antisymm
    · have h := (Int.lt_zpow_iff_log_lt (b := 2) (x := 25) (r := (16777217 : ℚ))
        (by norm_num) (by norm_num)).mp (by norm_num)
      omega
    · exact (Int.zpow_le_iff_le_log (b := 2) (x := 24) (r := (16777217 : ℚ))
        (by norm_num) (by norm_num)).mp (by norm_num)
  have hfl : ⌊(16777217 : ℚ) / 2⌋₊ = 8388608 := by
    rw [Nat.floor_eq_iff (by norm_num)]
    constructor <;> norm_num
  have hrhe : Float32.roundHalfEven ((16777217 : ℚ) / 2 ^ ((24 : ℤ) - 23)) = 8388608 := by
    have h1 : (2 : ℚ) ^ ((24 : ℤ) - 23) = 2 := by norm_num
    rw [h1]
    unfold Float32.roundHalfEven
    simp only [hfl]
    norm_num
  obtain ⟨rs, rexp, rfrac⟩ := Float32.round_fields false (16777217 : ℚ) (by norm_num)
    ((24 + 126 : ℤ).toNat * 8388608 + 8388608)
    (by rw [hlog, max_eq_left (by norm_num : (-126 : ℤ) ≤ 24), hrhe]) (by decide)
  unfold Float32.ofInt
  rw [hs, hq]
  have hexp : (Float32.round false 16777217).expo = 151 := by rw [rexp]; decide
  have hfrac : (Float32.round false 16777217).frac = 0 := by rw [rfrac]; decide
  refine ⟨?_, ?_⟩
  · simp [Float32.isFinite, hexp]
  · rw [Float32.val_of_sign_false _ rs]
    unfold Float32.mag
    rw [hexp, hfrac]
    norm_num

/-- Counterexample to C14 as stated.  Under the profile (32, 32, 0) the code
1, the value `1.0`, has no defined result (`1U << 32`); under (32, 0, 31) the
code 1, the value `2^-31`, is saturated on x86-64 and reads `2^31 - 1`
(`1 << 31` is `INT_MIN`); under (25, 25, 0) the code `2^24 + 1` is not a
float, `(float)16777217` is `2^24`, and the string reads 16777216. -/
theorem quantizer_exact_round_trip_counterexample :
    ((1 : ℕ) < 2 ^ (32 + 0) ∧ 32 + 0 ≤ 32 ∧ Float32.one.val = ((1 : ℕ) : ℚ) / 2 ^ 0 ∧
      float_to_fixed_bin cvt_x86_64 true Float32.one 32 32 0 = Outcome.undefined) ∧
    ((1 : ℕ) < 2 ^ (0 + 31) ∧ 0 + 31 ≤ 32 ∧ Float32.twoPowNeg31.val = ((1 : ℕ) : ℚ) / 2 ^ 31 ∧
      float_to_fixed_bin cvt_x86_64 true Float32.twoPowNeg31 32 0 31
        = Outcome.bits true "01111111111111111111111111111111".toList ∧
      readBin "01111111111111111111111111111111".toList = 2147483647) ∧
    ((16777217 : ℕ) < 2 ^ (25 + 0) ∧ 25 + 0 ≤ 25 ∧
      float_to_fixed_bin cvt_x86_64 true (Float32.ofInt 16777217) 25 25 0
        = Outcome.bits false "1000000000000000000000000".toList ∧
      readBin "1000000000000000000000000".toList = 16777216) := by
  have hge31 : Float32.twoPowNeg31.ge Float32.zero = true :=
    Float32.ge_zero_of_val _ (by decide) (by rw [Float32.twoPowNeg31_val]; norm_num)
  obtain ⟨xfin, xval⟩ := Float32.ofInt_16777217
  have xge : (Float32.ofInt 16777217).ge Float32.zero = true :=
    Float32.ge_zero_of_val _ xfin (by rw [xval]; norm_num)
  have hfl : ⌊(Float32.ofInt 16777217).val * 2 ^ 0 + 1 / 2⌋₊ = 16777216 := by
    rw [xval, Nat.floor_eq_iff (by norm_num)]
    constructor <;> norm_num
  refine ⟨⟨by norm_num, by decide, by rw [Float32.one_val]; norm_num, ?_⟩,
    ⟨by norm_num, by decide, by rw [Float32.twoPowNeg31_val]; norm_num, ?_, by decide⟩,
    ⟨by norm_num, by decide, ?_, by decide⟩⟩
  · unfold float_to_fixed_bin
    rw [Float32.lt_zero_of_ge _ Float32.one_ge_zero]
    simp [shl_int, shl_u32]
  · rw [float_to_fixed_bin_eq cvt_x86_64 Float32.twoPowNeg31 32 0 31 (-(2 ^ 31))
      (Float32.lt_zero_of_ge _ hge31) (by decide) (by decide) (by decide)]
    rw [Float32.neg31_scaled]
    decide
  · rw [float_to_fixed_bin_code cvt_x86_64 (Float32.ofInt 16777217) 25 25 0 xfin xge
      (by decide) (by decide) (by decide) (by rw [hfl]; decide)]
    rw [hfl]
    decide

/-! ## Signs, NaNs and exact sums -/

theorem Float32.val_def (x : Float32) :
    x.val = if x.sign = true then - x.mag else x.mag := rfl

theorem Float32.round_sign (s : Bool) (q : ℚ) : (Float32.round s q).sign = s := by
  unfold Float32.round
  by_cases hq : q = 0
  · rw [if_pos hq]
  · rw [if_neg hq]
    dsimp only
    split <;> rfl

theorem Float32.round_isNaN (s : Bool) (q : ℚ) : (Float32.round s q).isNaN = false := by
  unfold Float32.round
  by_cases hq : q = 0
  · rw [if_pos hq]
    rfl
  · rw [if_neg hq]
    dsimp only
    split
    · rename_i h
      simp only [Float32.isNaN, Bool.and_eq_false_imp, beq_iff_eq]
      intro hexp
      omega
    · rfl

theorem Float32.abs_val (x : Float32) : |x.val| = x.mag := by
  have hm := Float32.mag_nonneg x
  unfold Float32.val
  split
  · rw [abs_neg, abs_of_nonneg hm]
  · exact abs_of_nonneg hm

theorem Float32.val_nonneg_of_sign_false (x : Float32) (hs : x.sign = false) : 0 ≤ x.val := by
  rw [Float32.val_of_sign_false x hs]
  exact Float32.mag_nonneg x

/-- The sum of two finite floats whose exact sum is a float below `2^128`. -/
theorem Float32.add_exact (a b : Float32) (ha : a.isFinite = true) (hb : b.isFinite = true)
    (hrep : Float32.Rep |a.val + b.val|) (hlt : |a.val + b.val| < 2 ^ 128) :
    (a.add b).isFinite = true ∧ (a.add b).val = a.val + b.val := by
  obtain ⟨anan, ainf⟩ := Float32.not_special_of_isFinite a ha
  obtain ⟨bnan, binf⟩ := Float32.not_special_of_isFinite b hb
  unfold Float32.add
  simp only [anan, bnan, ainf, binf, Bool.or_self, Bool.false_eq_true, if_false]
  by_cases hs : a.val + b.val = 0
  · rw [if_pos hs, hs]
    refine ⟨rfl, ?_⟩
    rw [Float32.val_def]
    simp [Float32.mag]
  · rw [if_neg hs]
    obtain ⟨rfin, rsign, rmag⟩ := Float32.round_exact (decide (a.val + b.val < 0)) _ hrep hlt
    refine ⟨rfin, ?_⟩
    rw [Float32.val_def (Float32.round _ _), rsign, rmag]
    by_cases hneg : a.val + b.val < 0
    · rw [decide_eq_true hneg, if_pos rfl, abs_of_neg hneg, neg_neg]
    · rw [decide_eq_false hneg, if_neg (by simp)]
      exact abs_of_nonneg (not_lt.mp hneg)

/-- The quotient of two finite floats, the divisor not zero, whose exact
quotient is a float below `2^128`. -/
theorem Float32.div_exact (a b : Float32) (ha : a.isFinite = true) (hb : b.isFinite = true)
    (hb0 : b.mag ≠ 0) (hrep : Float32.Rep (a.mag / b.mag)) (hlt : a.mag / b.mag < 2 ^ 128) :
    (a.div b).isFinite = true ∧ (a.div b).sign = (a.sign != b.sign) ∧
      (a.div b).mag = a.mag / b.mag := by
  obtain ⟨anan, ainf⟩ := Float32.not_special_of_isFinite a ha
  obtain ⟨bnan, binf⟩ := Float32.not_special_of_isFinite b hb
  unfold Float32.div
  simp only [anan, bnan, ainf, binf, Bool.or_self, Bool.false_eq_true, if_false]
  rw [if_neg hb0]
  exact Float32.round_exact _ _ hrep hlt

/-- The square of a finite float whose exact square is a float below `2^128`. -/
theorem Float32.mul_self_exact (c : Float32) (hc : c.isFinite = true)
    (hrep : Float32.Rep (c.mag * c.mag)) (hlt : c.mag * c.mag < 2 ^ 128) :
    (c.mul c).isFinite = true ∧ (c.mul c).val = c.val ^ 2 := by
  obtain ⟨cnan, cinf⟩ := Float32.not_special_of_isFinite c hc
  unfold Float32.mul
  simp only [cnan, cinf, Bool.or_self, Bool.false_eq_true, if_false]
  obtain ⟨rfin, rsign, rmag⟩ := Float32.round_exact (c.sign != c.sign) _ hrep hlt
  refine ⟨rfin, ?_⟩
  have hsf : (c.sign != c.sign) = false := by simp
  rw [hsf] at rsign rmag ⊢
  rw [Float32.val_of_sign_false _ rsign, rmag, ← Float32.abs_val c, ← sq, sq_abs]

/-- The accumulation `s = s + w` repeated over `k` equal samples, from a
finite `a` worth `i * x`, when `w` is worth `x` and all multiples met are
floats: the result is finite and worth `(i + k) * x`. -/
theorem foldl_add_replicate (g : Float32 → Float32 → Float32) (c w : Float32) (x : ℚ)
    (hg : ∀ s, g s c = s.add w) (hwfin : w.isFinite = true) (hwval : w.val = x) :
    ∀ (k : ℕ) (a : Float32) (i : ℕ), a.isFinite = true → a.val = (i : ℚ) * x →
      (∀ j : ℕ, j ≤ i + k → Float32.Rep ((j : ℚ) * |x|) ∧ (j : ℚ) * |x| < 2 ^ 128) →
      ((List.replicate k c).foldl g a).isFinite = true ∧
        ((List.replicate k c).foldl g a).val = ((i + k : ℕ) : ℚ) * x := by
  intro k
  induction k with
  | zero =>
    intro a i hfin hval _
    exact ⟨hfin, by simpa using hval⟩
  | succ k ih =>
    intro a i hfin hval hrep
    rw [List.replicate_succ, List.foldl_cons, hg]
    have hsum : a.val + w.val = ((i + 1 : ℕ) : ℚ) * x := by
      rw [hval, hwval]
      push_cast
      ring
    have habs : |a.val + w.val| = ((i + 1 : ℕ) : ℚ) * |x| := by
      rw [hsum, abs_mul, abs_of_nonneg (Nat.cast_nonneg _)]
    obtain ⟨h1, h2⟩ := hrep (i + 1) (by omega)
    obtain ⟨sfin, sval⟩ := Float32.add_exact a w hfin hwfin (by rw [habs]; exact h1)
      (by rw [habs]; exact h2)
    have := ih (a.add w) (i + 1) sfin (by rw [sval, hsum])
      (fun j hj => hrep j (by omega))
    have hidx : i + 1 + k = i + (k + 1) := by omega
    rw [hidx] at this
    exact this

theorem foldl_extract_step_sum (l : List Float32) :
    ∀ acc : Accum, (l.foldl extract_step acc).sum =
      l.foldl (fun s v => s.add v) acc.sum := by
  induction l with
  | nil => intro acc; rfl
  | cons v l ih =>
    intro acc
    simp only [List.foldl_cons]
    rw [ih]
    rfl

theorem foldl_extract_step_energy_val (l : List Float32) :
    ∀ acc : Accum, (l.foldl extract_step acc).energy_val =
      l.foldl (fun e v => e.add (v.mul v)) acc.energy_val := by
  induction l with
  | nil => intro acc; rfl
  | cons v l ih =>
    intro acc
    simp only [List.foldl_cons]
    rw [ih]
    rfl

theorem Float32.zero_isFinite : Float32.zero.isFinite = true := by decide

theorem Float32.zero_val : Float32.zero.val = 0 := by
  simp [Float32.val, Float32.mag, Float32.zero]

/-! ## Signs of the extracted features -/

theorem Float32.isNaN_nan : Float32.nan.isNaN = true := by decide

theorem Float32.add_nan_left (a b : Float32) (ha : a.isNaN = true) : a.add b = Float32.nan := by
  unfold Float32.add
  simp [ha]

theorem Float32.add_nan_right (a b : Float32) (hb : b.isNaN = true) : a.add b = Float32.nan := by
  unfold Float32.add
  simp [hb]

theorem Float32.mul_self_nan (v : Float32) (hv : v.isNaN = true) : v.mul v = Float32.nan := by
  unfold Float32.mul
  simp [hv]

theorem Float32.mag_pos_of_isInf (v : Float32) (hv : v.isInf = true) : v.mag ≠ 0 := by
  simp only [Float32.isInf, Bool.and_eq_true, beq_iff_eq] at hv
  unfold Float32.mag
  rw [if_neg (by omega)]
  have h1 : (0 : ℚ) < ((2 ^ 23 + v.frac : ℕ) : ℚ) := by
    have : 0 < 2 ^ 23 + v.frac := by positivity
    exact_mod_cast this
  have h2 : (0 : ℚ) < 2 ^ ((v.expo : ℤ) - 150) := zpow_pos (by norm_num) _
  exact ne_of_gt (mul_pos h1 h2)

/-- The square of a number is a number with the sign bit clear. -/
theorem Float32.mul_self_strong (v : Float32) (hv : v.isNaN = false) :
    (v.mul v).isNaN = false ∧ (v.mul v).sign = false := by
  unfold Float32.mul
  simp only [hv, Bool.or_self, Bool.false_eq_true, if_false]
  have hsf : (v.sign != v.sign) = false := by simp
  by_cases hinf : v.isInf = true
  · rw [if_pos hinf, if_neg (Float32.mag_pos_of_isInf v hinf), hsf]
    exact ⟨rfl, rfl⟩
  · rw [if_neg hinf, if_neg hinf, hsf]
    exact ⟨Float32.round_isNaN _ _, Float32.round_sign _ _⟩

/-- The sum of two numbers with the sign bit clear is one as well. -/
theorem Float32.add_strong (a b : Float32) (ha : a.isNaN = false ∧ a.sign = false)
    (hb : b.isNaN = false ∧ b.sign = false) :
    (a.add b).isNaN = false ∧ (a.add b).sign = false := by
  unfold Float32.add
  simp only [ha.1, hb.1, ha.2, hb.2, Bool.or_self, Bool.false_eq_true, if_false,
    bne_self_eq_false, Bool.and_false, Bool.and_self]
  by_cases hainf : a.isInf = true
  · rw [if_pos hainf]
    exact ha
  · rw [if_neg hainf]
    by_cases hbinf : b.isInf = true
    · rw [if_pos hbinf]
      exact hb
    · rw [if_neg hbinf]
      by_cases hs : a.val + b.val = 0
      · rw [if_pos hs]
        exact ⟨rfl, rfl⟩
      · rw [if_neg hs]
        have h0 : ¬ a.val + b.val < 0 := by
          have h1 := Float32.val_nonneg_of_sign_false a ha.2
          have h2 := Float32.val_nonneg_of_sign_false b hb.2
          linarith
        refine ⟨Float32.round_isNaN _ _, ?_⟩
        rw [Float32.round_sign, decide_eq_false h0]

/-- The running energy is a NaN or has the sign bit clear. -/
theorem energy_sign_foldl (l : List Float32) :
    ∀ e : Float32, (e.isNaN = false → e.sign = false) →
      ((l.foldl (fun e v => e.add (v.mul v)) e).isNaN = false →
        (l.foldl (fun e v => e.add (v.mul v)) e).sign = false) := by
  induction l with
  | nil => intro e he; exact he
  | cons v l ih =>
    intro e he
    rw [List.foldl_cons]
    apply ih
    intro hn
    by_cases hen : e.isNaN = true
    · rw [Float32.add_nan_left _ _ hen] at hn
      cases hn
    · by_cases hvn : v.isNaN = true
      · rw [Float32.add_nan_right _ _ (by rw [Float32.mul_self_nan v hvn]; rfl)] at hn
        cases hn
      · have hen2 : e.isNaN = false := by simpa using hen
        have hvn2 : v.isNaN = false := by simpa using hvn
        exact (Float32.add_strong e (v.mul v) ⟨hen2, he hen2⟩
          (Float32.mul_self_strong v hvn2)).2

/-- Without a NaN among the samples the running energy is a number with the
sign bit clear. -/
theorem energy_strong_foldl (l : List Float32) (hl : ∀ v ∈ l, v.isNaN = false) :
    ∀ e : Float32, (e.isNaN = false ∧ e.sign = false) →
      ((l.foldl (fun e v => e.add (v.mul v)) e).isNaN = false ∧
        (l.foldl (fun e v => e.add (v.mul v)) e).sign = false) := by
  induction l with
  | nil => intro e he; exact he
  | cons v l ih =>
    intro e he
    rw [List.foldl_cons]
    apply ih (fun x hx => hl x (List.mem_cons_of_mem _ hx))
    exact Float32.add_strong e (v.mul v) he
      (Float32.mul_self_strong v (hl v (List.mem_cons_self _ _)))

theorem Float32.ord_nonneg_of_sign_false (x : Float32) (hs : x.sign = false) : 0 ≤ x.ord := by
  unfold Float32.ord
  rw [hs]
  split
  · simp only [Bool.false_eq_true, if_false]
    exact le_of_lt (pow_pos (by norm_num) 128)
  · exact Float32.val_nonneg_of_sign_false x hs

theorem Float32.lt_zero_of_nan_or_sign (x : Float32) (h : x.isNaN = false → x.sign = false) :
    x.lt Float32.zero = false := by
  by_cases hn : x.isNaN = true
  · simp [Float32.lt, hn]
  · have hn2 : x.isNaN = false := by simpa using hn
    have h0 := Float32.ord_nonneg_of_sign_false x (h hn2)
    simp only [Float32.lt, hn2, Float32.zero_isNaN, Float32.zero_ord, Bool.not_false,
      Bool.true_and, decide_eq_false_iff_not, not_lt]
    exact h0

theorem Float32.ge_zero_of_strong (x : Float32) (h : x.isNaN = false ∧ x.sign = false) :
    x.ge Float32.zero = true := by
  have h0 := Float32.ord_nonneg_of_sign_false x h.2
  simp only [Float32.ge, h.1, Float32.zero_isNaN, Float32.zero_ord, Bool.not_false,
    Bool.true_and, decide_eq_true_eq]
  exact h0

/-- A NaN in the running energy or among the samples left makes the final
energy a NaN. -/
theorem energy_nan_foldl (l : List Float32) :
    ∀ e : Float32, (e.isNaN = true ∨ ∃ v ∈ l, v.isNaN = true) →
      (l.foldl (fun e v => e.add (v.mul v)) e).isNaN = true := by
  induction l with
  | nil =>
    intro e h
    rcases h with h | ⟨v, hv, _⟩
    · exact h
    · cases hv
  | cons x l ih =>
    intro e h
    rw [List.foldl_cons]
    apply ih
    rcases h with h | ⟨v, hv, hvn⟩
    · left
      rw [Float32.add_nan_left _ _ h]
      rfl
    · rcases List.mem_cons.mp hv with hx | hl
      · left
        rw [← hx, Float32.add_nan_right _ _ (by rw [Float32.mul_self_nan v hvn]; rfl)]
        rfl
      · exact Or.inr ⟨v, hl, hvn⟩

theorem extract_loop_energy (l : List Float32) :
    (extract_loop l).energy = l.foldl (fun e v => e.add (v.mul v)) Float32.zero := by
  unfold extract_loop
  simp only [foldl_extract_step_energy_val]

theorem extract_loop_mean (l : List Float32) :
    (extract_loop l).mean
      = (l.foldl (fun s v => s.add v) Float32.zero).div (Float32.ofInt TRACE_LENGTH) := by
  unfold extract_loop
  simp only [foldl_extract_step_sum]

/-- A call on a value that is not `< 0` does not take the negative-value
branch. -/
theorem float_to_fixed_bin_ne_negative_error (cvt : Float32 → ℕ) (mallocOk : Bool)
    (value : Float32) (total_bits m n : ℕ) (hlt : value.lt Float32.zero = false) :
    float_to_fixed_bin cvt mallocOk value total_bits m n ≠ Outcome.negative_error := by
  unfold float_to_fixed_bin
  rw [hlt]
  simp only [Bool.false_eq_true, if_false]
  cases shl_int n with
  | none => simp
  | some p =>
    cases shl_u32 (m + n) with
    | none => simp
    | some lim =>
      simp only []
      split
      · simp
      · split <;> simp

/-- The store `*mean = sum / TRACE_LENGTH` when the exact quotient is a float. -/
theorem Float32.div_trace_length (a : Float32) (ha : a.isFinite = true)
    (hrep : Float32.Rep (a.mag / 1024)) (hlt : a.mag / 1024 < 2 ^ 128) :
    (a.div (Float32.ofInt TRACE_LENGTH)).isFinite = true ∧
      (a.div (Float32.ofInt TRACE_LENGTH)).val = a.val / 1024 := by
  obtain ⟨nfin, nsign, nmag⟩ := Float32.ofInt_natCast 1024 (by norm_num)
  have nmag2 : (Float32.ofInt ((1024 : ℕ) : ℤ)).mag = 1024 := by rw [nmag]; norm_num
  obtain ⟨dfin, dsign, dmag⟩ := Float32.div_exact a (Float32.ofInt ((1024 : ℕ) : ℤ)) ha nfin
    (by rw [nmag2]; norm_num) (by rw [nmag2]; exact hrep) (by rw [nmag2]; exact hlt)
  rw [nsign] at dsign
  rw [nmag2] at dmag
  refine ⟨dfin, ?_⟩
  rw [Float32.val_def (a.div _), Float32.val_def a]
  have hd : (a.div (Float32.ofInt TRACE_LENGTH)).sign = a.sign := by
    rw [show Float32.ofInt (TRACE_LENGTH : ℤ) = Float32.ofInt ((1024 : ℕ) : ℤ) from rfl, dsign]
    simp
  have hm : (a.div (Float32.ofInt TRACE_LENGTH)).mag = a.mag / 1024 := dmag
  rw [hd, hm]
  split
  · ring
  · rfl

theorem Float32.lt_zero_of_val_neg (x : Float32) (hfin : x.isFinite = true) (h : x.val < 0) :
    x.lt Float32.zero = true := by
  obtain ⟨xnan, xinf⟩ := Float32.not_special_of_isFinite x hfin
  simp only [Float32.lt, xnan, Float32.zero_isNaN, Float32.zero_ord, Bool.not_false,
    Bool.true_and, decide_eq_true_eq]
  unfold Float32.ord
  rw [xinf]
  simpa using h

theorem Float32.negOne_val : Float32.negOne.val = -1 := by
  norm_num [Float32.val, Float32.mag, Float32.negOne]

/-- On the trace whose 1024 samples are all `-1.0` the mean is `-1.0`. -/
theorem mean_of_negOne_trace :
    (extract_features (fun _ => Float32.negOne)).mean.isFinite = true ∧
      (extract_features (fun _ => Float32.negOne)).mean.val = -1 := by
  unfold extract_features
  rw [List.ofFn_const, extract_loop_mean]
  obtain ⟨sfin, sval⟩ := foldl_add_replicate (fun s v => s.add v) Float32.negOne
    Float32.negOne (-1) (fun _ => rfl) (by decide) Float32.negOne_val
    TRACE_LENGTH Float32.zero 0 Float32.zero_isFinite (by rw [Float32.zero_val]; simp)
    (by
      intro j hj
      have hj2 : j ≤ 2 ^ 24 := by
        have : (0 : ℕ) + TRACE_LENGTH = 1024 := rfl
        omega
      have habs : ((j : ℚ)) * |(-1 : ℚ)| = (j : ℚ) := by norm_num
      rw [habs]
      refine ⟨Float32.rep_natCast j hj2, ?_⟩
      have h1 : (j : ℚ) ≤ ((2 ^ 24 : ℕ) : ℚ) := by exact_mod_cast hj2
      have h2 : ((2 ^ 24 : ℕ) : ℚ) < 2 ^ 128 := by norm_num
      linarith)
  have sval2 : (List.foldl (fun s v => s.add v) Float32.zero
      (List.replicate TRACE_LENGTH Float32.negOne)).val = -1024 := by
    rw [sval]
    norm_num
  have smag : (List.foldl (fun s v => s.add v) Float32.zero
      (List.replicate TRACE_LENGTH Float32.negOne)).mag = 1024 := by
    rw [← Float32.abs_val, sval2]
    norm_num
  obtain ⟨mfin, mval⟩ := Float32.div_trace_length _ sfin
    (by rw [smag]; norm_num; exact Float32.rep_one) (by rw [smag]; norm_num)
  refine ⟨mfin, ?_⟩
  rw [mval, sval2]
  norm_num

/-- On the trace whose 1024 samples are all NaN the energy is a NaN. -/
theorem energy_of_nan_trace :
    (extract_features (fun _ => Float32.nan)).energy.isNaN = true := by
  unfold extract_features
  rw [List.ofFn_const, extract_loop_energy]
  have hstep : ∀ (l : List Float32) (e : Float32), e.isNaN = true →
      (l.foldl (fun e v => e.add (v.mul v)) e).isNaN = true := by
    intro l
    induction l with
    | nil => intro e he; exact he
    | cons v l ih =>
      intro e he
      rw [List.foldl_cons]
      apply ih
      rw [Float32.add_nan_left _ _ he]
      rfl
  have hsplit : List.replicate TRACE_LENGTH Float32.nan
      = Float32.nan :: List.replicate 1023 Float32.nan := rfl
  rw [hsplit, List.foldl_cons]
  apply hstep
  rw [Float32.add_nan_right _ _ (by rw [Float32.mul_self_nan _ Float32.isNaN_nan]; rfl)]
  rfl

/-- C13, with NaN samples accounted for: for every trace of 1024 samples
the peak is `>= 0.0` and the energy is never `< 0.0`: it is `>= 0.0` when no
sample is a NaN and a NaN when some sample is; so the pipeline's calls
`float_to_fixed_bin(peak, 12, 2, 10)` and `float_to_fixed_bin(energy, 12, 2, 10)`
never take the negative-value branch; the mean has no such guarantee: on the
trace of all `-1.0` it is negative and its quantization fails. -/
theorem features_never_negative (cvt : Float32 → ℕ) (mallocOk : Bool)
    (trace : Fin TRACE_LENGTH → Float32) :
    (extract_features trace).peak.ge Float32.zero = true ∧
    (extract_features trace).energy.lt Float32.zero = false ∧
    ((∀ i, (trace i).isNaN = false) → (extract_features trace).energy.ge Float32.zero = true) ∧
    ((∃ i, (trace i).isNaN = true) → (extract_features trace).energy.isNaN = true) ∧
    float_to_fixed_bin cvt mallocOk (extract_features trace).peak
      FIXED_TOTAL_BITS FIXED_M FIXED_N ≠ Outcome.negative_error ∧
    float_to_fixed_bin cvt mallocOk (extract_features trace).energy
      FIXED_TOTAL_BITS FIXED_M FIXED_N ≠ Outcome.negative_error ∧
    (∃ tr : Fin TRACE_LENGTH → Float32,
      (extract_features tr).mean.lt Float32.zero = true ∧
      float_to_fixed_bin cvt mallocOk (extract_features tr).mean
        FIXED_TOTAL_BITS FIXED_M FIXED_N = Outcome.negative_error) := by
  obtain ⟨pnan, p0, _, _⟩ := peakInv_extract_features trace
  have hpeak : (extract_features trace).peak.ge Float32.zero = true := by
    simp only [Float32.ge, pnan, Float32.zero_isNaN, Float32.zero_ord, Bool.not_false,
      Bool.true_and, decide_eq_true_eq]
    exact p0
  have henergy : (extract_features trace).energy.lt Float32.zero = false := by
    apply Float32.lt_zero_of_nan_or_sign
    unfold extract_features
    rw [extract_loop_energy]
    exact energy_sign_foldl _ Float32.zero (fun _ => rfl)
  refine ⟨hpeak, henergy, ?_, ?_, ?_, ?_, ?_⟩
  · intro hall
    apply Float32.ge_zero_of_strong
    unfold extract_features
    rw [extract_loop_energy]
    apply energy_strong_foldl _ _ Float32.zero ⟨rfl, rfl⟩
    intro v hv
    obtain ⟨i, hi⟩ := (List.mem_ofFn trace v).mp hv
    rw [← hi]
    exact hall i
  · rintro ⟨i, hi⟩
    unfold extract_features
    rw [extract_loop_energy]
    exact energy_nan_foldl _ Float32.zero
      (Or.inr ⟨trace i, (List.mem_ofFn trace _).mpr ⟨i, rfl⟩, hi⟩)
  · exact float_to_fixed_bin_ne_negative_error cvt mallocOk _ _ _ _
      (Float32.lt_zero_of_ge _ hpeak)
  · exact float_to_fixed_bin_ne_negative_error cvt mallocOk _ _ _ _ henergy
  · obtain ⟨mfin, mval⟩ := mean_of_negOne_trace
    have hlt := Float32.lt_zero_of_val_neg _ mfin (by rw [mval]; norm_num)
    refine ⟨fun _ => Float32.negOne, hlt, ?_⟩
    unfold float_to_fixed_bin
    rw [if_pos hlt]

/-- Counterexample to C13 as stated: on the trace whose 1024 samples are all
NaN the energy is a NaN, and `energy >= 0.0` is false. -/
theorem features_never_negative_counterexample :
    (extract_features (fun _ => Float32.nan)).energy.isNaN = true ∧
    (extract_features (fun _ => Float32.nan)).energy.ge Float32.zero = false := by
  have h := energy_of_nan_trace
  refine ⟨h, ?_⟩
  simp [Float32.ge, h]

/-! ## Features of a constant trace -/

theorem Float32.roundHalfEven_ge_floor (x : ℚ) : ⌊x⌋₊ ≤ Float32.roundHalfEven x := by
  unfold Float32.roundHalfEven
  dsimp only
  split
  · exact le_refl _
  · split
    · exact Nat.le_succ _
    · split
      · exact le_refl _
      · exact Nat.le_succ _

/-- Rounding a magnitude of `2^128` or more overflows to infinity. -/
theorem Float32.round_overflow (s : Bool) (q : ℚ) (hq : 2 ^ 128 ≤ q) :
    Float32.round s q = Float32.inf s := by
  have hpos : (0 : ℚ) < q := lt_of_lt_of_le (pow_pos (by norm_num) 128) hq
  have hcast : ((2 : ℕ) : ℚ) = 2 := by norm_num
  have hL : (128 : ℤ) ≤ Int.log 2 q := by
    apply (Int.zpow_le_iff_le_log (b := 2) (x := 128) (by norm_num) hpos).mp
    rw [hcast]
    have h128 : (2 : ℚ) ^ (128 : ℤ) = 2 ^ 128 := by norm_num
    rw [h128]
    exact hq
  have hL1 : (2 : ℚ) ^ Int.log 2 q ≤ q := by
    have := Int.zpow_log_le_self (b := 2) (r := q) (by norm_num) hpos
    rwa [hcast] at this
  have he : max (Int.log 2 q) (-126) = Int.log 2 q := max_eq_left (by omega)
  have hpu : (0 : ℚ) < 2 ^ (Int.log 2 q - 23) := zpow_pos (by norm_num) _
  have hx : ((8388608 : ℕ) : ℚ) ≤ q / 2 ^ (Int.log 2 q - 23) := by
    rw [le_div_iff₀ hpu]
    have hs : ((8388608 : ℕ) : ℚ) * 2 ^ (Int.log 2 q - 23) = 2 ^ Int.log 2 q := by
      have h23 : ((8388608 : ℕ) : ℚ) = 2 ^ (23 : ℤ) := by norm_num
      rw [h23, ← zpow_add₀ (by norm_num : (2 : ℚ) ≠ 0)]
      congr 1
      omega
    rw [hs]
    exact hL1
  have hm : 8388608 ≤ Float32.roundHalfEven (q / 2 ^ (Int.log 2 q - 23)) :=
    le_trans (Nat.le_floor hx) (Float32.roundHalfEven_ge_floor _)
  have hb : ¬ ((max (Int.log 2 q) (-126) + 126).toNat * 8388608
      + Float32.roundHalfEven (q / 2 ^ (max (Int.log 2 q) (-126) - 23))) < 255 * 8388608 := by
    rw [he]
    omega
  unfold Float32.round
  rw [if_neg (ne_of_gt hpos)]
  dsimp only
  rw [dif_neg hb]

theorem Float32.inf_isNaN (s : Bool) : (Float32.inf s).isNaN = false := by
  cases s <;> rfl

theorem Float32.inf_isInf (s : Bool) : (Float32.inf s).isInf = true := by
  cases s <;> rfl

theorem Float32.twoPow127_val : Float32.twoPow127.val = 2 ^ 127 := by
  norm_num [Float32.val, Float32.mag, Float32.twoPow127]

/-- On the trace whose 1024 samples are all `2^127` the sum overflows at the
second sample and the mean is `+inf`. -/
theorem mean_of_twoPow127_trace :
    (extract_features (fun _ => Float32.twoPow127)).mean = Float32.inf false := by
  unfold extract_features
  rw [List.ofFn_const, extract_loop_mean]
  have hcfin : Float32.twoPow127.isFinite = true := by decide
  obtain ⟨cnan, cinf⟩ := Float32.not_special_of_isFinite _ hcfin
  have habs : |Float32.zero.val + Float32.twoPow127.val| = 2 ^ 127 := by
    rw [Float32.zero_val, Float32.twoPow127_val, zero_add]
    exact abs_of_pos (pow_pos (by norm_num) 127)
  obtain ⟨s1fin, s1val⟩ := Float32.add_exact Float32.zero Float32.twoPow127
    Float32.zero_isFinite hcfin (by rw [habs]; exact Float32.rep_two_pow 127)
    (by rw [habs]; norm_num)
  rw [Float32.zero_val, Float32.twoPow127_val, zero_add] at s1val
  obtain ⟨s1nan, s1inf⟩ := Float32.not_special_of_isFinite _ s1fin
  have hs2 : (Float32.zero.add Float32.twoPow127).add Float32.twoPow127 = Float32.inf false := by
    have hsum : (Float32.zero.add Float32.twoPow127).val + Float32.twoPow127.val = 2 ^ 128 := by
      rw [s1val, Float32.twoPow127_val]
      norm_num
    rw [Float32.add]
    simp only [s1nan, s1inf, cnan, cinf, Bool.or_self, Bool.false_eq_true, if_false]
    rw [hsum, if_neg (by norm_num)]
    have hd : decide ((2 : ℚ) ^ 128 < 0) = false := by
      rw [decide_eq_false_iff_not]
      norm_num
    rw [hd, abs_of_pos (by norm_num)]
    exact Float32.round_overflow false _ (le_refl _)
  have hstay : ∀ k : ℕ, (List.replicate k Float32.twoPow127).foldl
      (fun s v => s.add v) (Float32.inf false) = Float32.inf false := by
    intro k
    induction k with
    | zero => rfl
    | succ k ih =>
      rw [List.replicate_succ, List.foldl_cons]
      have : (Float32.inf false).add Float32.twoPow127 = Float32.inf false := by
        rw [Float32.add]
        simp [cnan, cinf, Float32.inf_isNaN, Float32.inf_isInf]
      rw [this, ih]
  have hsplit : List.replicate TRACE_LENGTH Float32.twoPow127
      = Float32.twoPow127 :: Float32.twoPow127 :: List.replicate 1022 Float32.twoPow127 := rfl
  rw [hsplit, List.foldl_cons, List.foldl_cons, hs2, hstay]
  obtain ⟨nfin, nsign, _⟩ := Float32.ofInt_natCast 1024 (by norm_num)
  obtain ⟨nnan, ninf⟩ := Float32.not_special_of_isFinite _ nfin
  have hn : Float32.ofInt (TRACE_LENGTH : ℤ) = Float32.ofInt ((1024 : ℕ) : ℤ) := rfl
  rw [hn, Float32.div]
  simp only [nnan, ninf, nsign, Float32.inf_isNaN, Float32.inf_isInf, Bool.or_self,
    Bool.false_eq_true, if_false, if_true]
  rfl

theorem Float32.ge_zero_iff (c : Float32) (hc : c.ge Float32.zero = true) :
    c.isNaN = false ∧ 0 ≤ c.ord := by
  simp only [Float32.ge, Bool.and_eq_true, Bool.not_eq_true', decide_eq_true_eq,
    Float32.zero_ord] at hc
  exact ⟨hc.1.1, hc.2⟩

theorem Float32.eq_of_val (a b : Float32) (ha : a.isFinite = true) (hb : b.isFinite = true)
    (h : a.val = b.val) : a.eq b = true := by
  obtain ⟨anan, ainf⟩ := Float32.not_special_of_isFinite a ha
  obtain ⟨bnan, binf⟩ := Float32.not_special_of_isFinite b hb
  simp only [Float32.eq, anan, bnan, Bool.not_false, Bool.true_and, decide_eq_true_eq]
  unfold Float32.ord
  rw [ainf, binf]
  simpa using h

/-- The peak of a constant trace of samples `c >= 0.0` compares equal to `c`. -/
theorem peak_of_constant_trace (c : Float32) (hc : c.ge Float32.zero = true) :
    (extract_features (fun _ => c)).peak.eq c = true := by
  obtain ⟨cnan, c0⟩ := Float32.ge_zero_iff c hc
  obtain ⟨pnan, p0, hub, hmem⟩ := peakInv_extract_features (fun _ => c)
  rw [List.ofFn_const] at hub hmem
  have hcmem : c ∈ List.replicate TRACE_LENGTH c :=
    List.mem_replicate.mpr ⟨by decide, rfl⟩
  simp only [Float32.eq, pnan, cnan, Bool.not_false, Bool.true_and, decide_eq_true_eq]
  rcases hmem with hz | ⟨hm, _⟩
  · have h1 := hub c hcmem cnan
    rw [hz] at h1 ⊢
    rw [Float32.zero_ord] at h1 ⊢
    linarith
  · rw [List.eq_of_mem_replicate hm]

/-- The mean of a constant trace whose sample has a significand of at most 14
bits and lies below `2^118`: every partial sum is exact. -/
theorem mean_of_constant_trace (c : Float32) (M : ℕ) (t : ℤ) (hfin : c.isFinite = true)
    (hmag : c.mag = (M : ℚ) * 2 ^ t) (hM : M < 2 ^ 14) (ht : -149 ≤ t)
    (hlt : c.mag < 2 ^ 118) :
    (extract_features (fun _ => c)).mean.isFinite = true ∧
      (extract_features (fun _ => c)).mean.val = c.val := by
  unfold extract_features
  rw [List.ofFn_const, extract_loop_mean]
  have hm0 := Float32.mag_nonneg c
  obtain ⟨sfin, sval⟩ := foldl_add_replicate (fun s v => s.add v) c c c.val
    (fun _ => rfl) hfin rfl TRACE_LENGTH Float32.zero 0 Float32.zero_isFinite
    (by rw [Float32.zero_val]; simp)
    (by
      intro j hj
      have hj2 : j ≤ 1024 := by
        have : (0 : ℕ) + TRACE_LENGTH = 1024 := rfl
        omega
      have hjq : (j : ℚ) ≤ 1024 := by exact_mod_cast hj2
      rw [Float32.abs_val]
      constructor
      · refine ⟨j * M, t, ?_, ht, ?_⟩
        · have h1 : j * M ≤ 1024 * M := Nat.mul_le_mul_right M hj2
          have h2 : (2 : ℕ) ^ 24 = 1024 * 2 ^ 14 := by norm_num
          omega
        · rw [hmag]
          push_cast
          ring
      · have h1 : (j : ℚ) * c.mag ≤ 1024 * c.mag := mul_le_mul_of_nonneg_right hjq hm0
        have h2 : (2 : ℚ) ^ 128 = 1024 * 2 ^ 118 := by norm_num
        linarith)
  have sval2 : (List.foldl (fun s v => s.add v) Float32.zero
      (List.replicate TRACE_LENGTH c)).val = 1024 * c.val := by
    rw [sval]
    norm_num
  have smag : (List.foldl (fun s v => s.add v) Float32.zero
      (List.replicate TRACE_LENGTH c)).mag = 1024 * c.mag := by
    rw [← Float32.abs_val, sval2, abs_mul, Float32.abs_val]
    norm_num
  have hq : 1024 * c.mag / 1024 = c.mag := by ring
  obtain ⟨mfin, mval⟩ := Float32.div_trace_length _ sfin
    (by rw [smag, hq]; exact Float32.rep_mag c)
    (by
      rw [smag, hq]
      have : (2 : ℚ) ^ 118 < 2 ^ 128 := by norm_num
      linarith)
  refine ⟨mfin, ?_⟩
  rw [mval, sval2]
  ring

/-- The energy of a constant trace whose sample has a significand of at most
7 bits at an exponent of `-74` or more and lies below `2^59`: the square and
every partial sum are exact. -/
theorem energy_of_constant_trace (c : Float32) (M : ℕ) (t : ℤ) (hfin : c.isFinite = true)
    (hmag : c.mag = (M : ℚ) * 2 ^ t) (hM : M < 2 ^ 7) (ht : -74 ≤ t)
    (hlt : c.mag < 2 ^ 59) :
    (extract_features (fun _ => c)).energy.isFinite = true ∧
      (extract_features (fun _ => c)).energy.val = 1024 * c.val ^ 2 := by
  unfold extract_features
  rw [List.ofFn_const, extract_loop_energy]
  have hm0 := Float32.mag_nonneg c
  have hsq : c.mag * c.mag = ((M * M : ℕ) : ℚ) * 2 ^ (t + t) := by
    rw [hmag, zpow_add₀ (by norm_num : (2 : ℚ) ≠ 0)]
    push_cast
    ring
  have hMM : M * M ≤ 127 * 127 := Nat.mul_le_mul (by omega) (by omega)
  have hsqlt : c.mag * c.mag < 2 ^ 118 := by
    have h1 : c.mag * c.mag ≤ c.mag * 2 ^ 59 := mul_le_mul_of_nonneg_left (le_of_lt hlt) hm0
    have h2 : c.mag * 2 ^ 59 < 2 ^ 59 * 2 ^ 59 :=
      mul_lt_mul_of_pos_right hlt (pow_pos (by norm_num) 59)
    have h3 : (2 : ℚ) ^ 59 * 2 ^ 59 = 2 ^ 118 := by norm_num
    linarith
  obtain ⟨wfin, wval⟩ := Float32.mul_self_exact c hfin
    ⟨M * M, t + t, by omega, by omega, hsq⟩
    (lt_trans hsqlt (by norm_num))
  have hvsq : c.val ^ 2 = c.mag * c.mag := by
    rw [← Float32.abs_val c, ← sq, sq_abs]
  obtain ⟨efin, eval⟩ := foldl_add_replicate (fun e v => e.add (v.mul v)) c (c.mul c)
    (c.val ^ 2) (fun _ => rfl) wfin wval TRACE_LENGTH Float32.zero 0 Float32.zero_isFinite
    (by rw [Float32.zero_val]; simp)
    (by
      intro j hj
      have hj2 : j ≤ 1024 := by
        have : (0 : ℕ) + TRACE_LENGTH = 1024 := rfl
        omega
      have hjq : (j : ℚ) ≤ 1024 := by exact_mod_cast hj2
      rw [abs_of_nonneg (sq_nonneg _), hvsq]
      constructor
      · refine ⟨j * (M * M), t + t, ?_, by omega, ?_⟩
        · have h1 : j * (M * M) ≤ 1024 * (M * M) := Nat.mul_le_mul_right _ hj2
          have h2 : 1024 * (M * M) ≤ 1024 * (127 * 127) := Nat.mul_le_mul_left _ hMM
          have h3 : 1024 * (127 * 127) < 2 ^ 24 := by norm_num
          omega
        · rw [hsq]
          push_cast
          ring
      · have h1 : (j : ℚ) * (c.mag * c.mag) ≤ 1024 * (c.mag * c.mag) :=
          mul_le_mul_of_nonneg_right hjq (mul_nonneg hm0 hm0)
        have h2 : (2 : ℚ) ^ 128 = 1024 * 2 ^ 118 := by norm_num
        linarith)
  refine ⟨efin, ?_⟩
  rw [eval]
  norm_num

/-! ## Rounding error -/

theorem Float32.roundHalfEven_error (x : ℚ) (hx : 0 ≤ x) :
    |(Float32.roundHalfEven x : ℚ) - x| ≤ 1 / 2 ∧ Float32.roundHalfEven x ≤ ⌊x⌋₊ + 1 := by
  have h1 : ((⌊x⌋₊ : ℕ) : ℚ) ≤ x := Nat.floor_le hx
  have h2 : x < ((⌊x⌋₊ : ℕ) : ℚ) + 1 := Nat.lt_floor_add_one x
  unfold Float32.roundHalfEven
  dsimp only
  by_cases hr1 : x - ((⌊x⌋₊ : ℕ) : ℚ) < 1 / 2
  · rw [if_pos hr1]
    refine ⟨?_, Nat.le_succ _⟩
    rw [abs_le]
    constructor <;> linarith
  · rw [if_neg hr1]
    by_cases hr2 : 1 / 2 < x - ((⌊x⌋₊ : ℕ) : ℚ)
    · rw [if_pos hr2]
      refine ⟨?_, le_refl _⟩
      push_cast
      rw [abs_le]
      constructor <;> linarith
    · rw [if_neg hr2]
      have hr3 : x - ((⌊x⌋₊ : ℕ) : ℚ) = 1 / 2 := le_antisymm (not_lt.mp hr2) (not_lt.mp hr1)
      split
      · refine ⟨?_, Nat.le_succ _⟩
        rw [abs_le]
        constructor <;> linarith
      · refine ⟨?_, le_refl _⟩
        push_cast
        rw [abs_le]
        constructor <;> linarith

theorem Float32.roundHalfEven_le_natCast (x : ℚ) (hx : 0 ≤ x) (K : ℕ) (hK : x ≤ (K : ℚ)) :
    Float32.roundHalfEven x ≤ K := by
  have hf : ⌊x⌋₊ ≤ K := Nat.floor_le_of_le hK
  rcases Nat.lt_or_ge ⌊x⌋₊ K with hlt | hge
  · exact le_trans (Float32.roundHalfEven_error x hx).2 hlt
  · have hfe : ⌊x⌋₊ = K := le_antisymm hf hge
    have h1 : ((⌊x⌋₊ : ℕ) : ℚ) ≤ x := Nat.floor_le hx
    have hxe : x = (K : ℚ) := by
      rw [hfe] at h1
      exact le_antisymm hK h1
    rw [hxe, Float32.roundHalfEven_natCast]

/-- Rounding in the normal range: the result is finite, within a relative
`2^-24` of the magnitude, and does not pass a power of two that bounds the
magnitude. -/
theorem Float32.round_near (s : Bool) (q : ℚ) (hlo : 1 / 2 ^ 126 ≤ q) (hhi : q < 2 ^ 127) :
    (Float32.round s q).isFinite = true ∧ (Float32.round s q).sign = s ∧
    |(Float32.round s q).mag - q| ≤ q / 2 ^ 24 ∧
    (∀ N : ℕ, q ≤ 2 ^ N → (Float32.round s q).mag ≤ 2 ^ N) := by
  have h2 : (0 : ℚ) < 2 := by norm_num
  have hq : (0 : ℚ) < q := lt_of_lt_of_le (by positivity) hlo
  have hcast : ((2 : ℕ) : ℚ) = 2 := by norm_num
  have hL1 : (2 : ℚ) ^ Int.log 2 q ≤ q := by
    have := Int.zpow_log_le_self (b := 2) (r := q) (by norm_num) hq
    rwa [hcast] at this
  have hL2 : q < 2 ^ (Int.log 2 q + 1) := by
    have := Int.lt_zpow_succ_log_self (b := 2) (by norm_num) q
    rwa [hcast] at this
  have hLlo : (-126 : ℤ) ≤ Int.log 2 q := by
    apply (Int.zpow_le_iff_le_log (b := 2) (x := -126) (by norm_num) hq).mp
    rw [hcast]
    have : (2 : ℚ) ^ (-126 : ℤ) = 1 / 2 ^ 126 := by
      rw [zpow_neg, one_div]
      norm_num
    rw [this]
    exact hlo
  have hLhi : Int.log 2 q < 127 := by
    apply (Int.lt_zpow_iff_log_lt (b := 2) (x := 127) (by norm_num) hq).mp
    rw [hcast]
    have : (2 : ℚ) ^ (127 : ℤ) = 2 ^ 127 := by norm_num
    rw [this]
    exact hhi
  generalize hLdef : Int.log 2 q = L at hL1 hL2 hLlo hLhi
  have he : max L (-126) = L := max_eq_left hLlo
  have hpu : (0 : ℚ) < 2 ^ (L - 23) := zpow_pos h2 _
  have hLs : (2 : ℚ) ^ L = 2 ^ 23 * 2 ^ (L - 23) := by
    rw [show (2 : ℚ) ^ 23 = 2 ^ (23 : ℤ) by norm_num, ← zpow_add₀ (by norm_num : (2 : ℚ) ≠ 0)]
    congr 1
    omega
  have hLs1 : (2 : ℚ) ^ (L + 1) = 2 ^ 24 * 2 ^ (L - 23) := by
    rw [show (2 : ℚ) ^ 24 = 2 ^ (24 : ℤ) by norm_num, ← zpow_add₀ (by norm_num : (2 : ℚ) ≠ 0)]
    congr 1
    omega
  have hxlo : (2 : ℚ) ^ 23 ≤ q / 2 ^ (L - 23) := by
    rw [le_div_iff₀ hpu, ← hLs]
    exact hL1
  have hxhi : q / 2 ^ (L - 23) < 2 ^ 24 := by
    rw [div_lt_iff₀ hpu, ← hLs1]
    exact hL2
  have hx0 : (0 : ℚ) ≤ q / 2 ^ (L - 23) := le_trans (by positivity) hxlo
  obtain ⟨herr, hsucc⟩ := Float32.roundHalfEven_error (q / 2 ^ (L - 23)) hx0
  have hmlo : 8388608 ≤ Float32.roundHalfEven (q / 2 ^ (L - 23)) := by
    have h23 : ((8388608 : ℕ) : ℚ) ≤ q / 2 ^ (L - 23) := by
      have : ((8388608 : ℕ) : ℚ) = 2 ^ 23 := by norm_num
      rw [this]
      exact hxlo
    exact le_trans (Nat.le_floor h23) (Float32.roundHalfEven_ge_floor _)
  have hmhi : Float32.roundHalfEven (q / 2 ^ (L - 23)) ≤ 16777216 := by
    have h24 : ⌊q / 2 ^ (L - 23)⌋₊ < 16777216 := by
      rw [Nat.floor_lt hx0]
      have : ((16777216 : ℕ) : ℚ) = 2 ^ 24 := by norm_num
      rw [this]
      exact hxhi
    omega
  generalize hmdef : Float32.roundHalfEven (q / 2 ^ (L - 23)) = m at herr hsucc hmlo hmhi
  have hb : (L + 126).toNat * 8388608 + m < 255 * 8388608 := by omega
  obtain ⟨hs, hexp, hfrac⟩ := Float32.round_fields s q (ne_of_gt hq)
    ((L + 126).toNat * 8388608 + m) (by rw [hLdef, he, hmdef]) hb
  have hmag : (Float32.round s q).mag = (m : ℚ) * 2 ^ (L - 23) := by
    rcases Nat.lt_or_ge m 16777216 with hm | hm
    · have hexp2 : (Float32.round s q).expo = (L + 126).toNat + 1 := by
        rw [hexp]; omega
      have hfrac2 : (Float32.round s q).frac = m - 8388608 := by
        rw [hfrac]; omega
      unfold Float32.mag
      rw [hexp2, hfrac2, if_neg (by omega)]
      have h1 : 2 ^ 23 + (m - 8388608) = m := by omega
      have h3 : (((L + 126).toNat + 1 : ℕ) : ℤ) - 150 = L - 23 := by
        push_cast
        omega
      rw [h1, h3]
    · have hme : m = 16777216 := le_antisymm hmhi hm
      have hexp2 : (Float32.round s q).expo = (L + 126).toNat + 2 := by
        rw [hexp]; omega
      have hfrac2 : (Float32.round s q).frac = 0 := by
        rw [hfrac]; omega
      unfold Float32.mag
      rw [hexp2, hfrac2, if_neg (by omega), hme]
      have h3 : (((L + 126).toNat + 2 : ℕ) : ℤ) - 150 = (L - 23) + 1 := by
        push_cast
        omega
      rw [h3, zpow_add₀ (by norm_num : (2 : ℚ) ≠ 0)]
      norm_num
      ring
  have hqx : q = q / 2 ^ (L - 23) * 2 ^ (L - 23) := by
    rw [div_mul_cancel₀ _ (ne_of_gt hpu)]
  refine ⟨?_, hs, ?_, ?_⟩
  · simp only [Float32.isFinite, hexp, bne_iff_ne, ne_eq]
    omega
  · rw [hmag]
    have hd : (m : ℚ) * 2 ^ (L - 23) - q
        = ((m : ℚ) - q / 2 ^ (L - 23)) * 2 ^ (L - 23) := by
      rw [sub_mul, ← hqx]
    rw [hd, abs_mul, abs_of_pos hpu]
    have h5 : |(m : ℚ) - q / 2 ^ (L - 23)| * 2 ^ (L - 23) ≤ 1 / 2 * 2 ^ (L - 23) :=
      mul_le_mul_of_nonneg_right herr (le_of_lt hpu)
    have h6 : (2 : ℚ) ^ 23 * 2 ^ (L - 23) ≤ q := by rw [← hLs]; exact hL1
    have h7 : q / 2 ^ 24 = q * (1 / 2 ^ 24) := by ring
    rw [h7]
    have h8 : (1 : ℚ) / 2 * 2 ^ (L - 23) = 2 ^ 23 * 2 ^ (L - 23) * (1 / 2 ^ 24) := by
      norm_num
      ring
    have h9 : (2 : ℚ) ^ 23 * 2 ^ (L - 23) * (1 / 2 ^ 24) ≤ q * (1 / 2 ^ 24) :=
      mul_le_mul_of_nonneg_right h6 (by positivity)
    linarith
  · intro N hN
    rw [hmag]
    have hLN : L ≤ (N : ℤ) := by
      have h10 : (2 : ℚ) ^ L ≤ 2 ^ (N : ℤ) := by
        rw [zpow_natCast]
        exact le_trans hL1 hN
      exact (zpow_le_zpow_iff_right₀ (by norm_num : (1 : ℚ) < 2)).mp h10
    obtain ⟨d, hd⟩ : ∃ d : ℕ, (N : ℤ) = (L - 23) + d := ⟨((N : ℤ) - (L - 23)).toNat, by omega⟩
    have hNs : (2 : ℚ) ^ N = ((2 ^ d : ℕ) : ℚ) * 2 ^ (L - 23) := by
      rw [← zpow_natCast (2 : ℚ) N, hd, zpow_add₀ (by norm_num : (2 : ℚ) ≠ 0), zpow_natCast]
      push_cast
      ring
    have hxK : q / 2 ^ (L - 23) ≤ ((2 ^ d : ℕ) : ℚ) := by
      rw [div_le_iff₀ hpu, ← hNs]
      exact hN
    have hmK : m ≤ 2 ^ d := by
      rw [← hmdef]
      exact Float32.roundHalfEven_le_natCast _ hx0 _ hxK
    rw [hNs]
    apply mul_le_mul_of_nonneg_right _ (le_of_lt hpu)
    exact_mod_cast hmK

theorem Float32.sign_false_of_val_pos (x : Float32) (h : 0 < x.val) : x.sign = false := by
  by_contra hs
  have hs2 : x.sign = true := by simpa using hs
  have hm := Float32.mag_nonneg x
  rw [Float32.val_def, if_pos hs2] at h
  linarith

/-- The float sum of two finite floats whose exact sum is positive and in the
normal range: finite, not negative, within a relative `2^-24` of the exact sum. -/
theorem Float32.add_near (a b : Float32) (ha : a.isFinite = true) (hb : b.isFinite = true)
    (hlo : 1 / 2 ^ 126 ≤ a.val + b.val) (hhi : a.val + b.val < 2 ^ 127) :
    (a.add b).isFinite = true ∧ 0 ≤ (a.add b).val ∧
      |(a.add b).val - (a.val + b.val)| ≤ (a.val + b.val) / 2 ^ 24 := by
  obtain ⟨anan, ainf⟩ := Float32.not_special_of_isFinite a ha
  obtain ⟨bnan, binf⟩ := Float32.not_special_of_isFinite b hb
  have hpos : (0 : ℚ) < a.val + b.val := lt_of_lt_of_le (by positivity) hlo
  unfold Float32.add
  simp only [anan, bnan, ainf, binf, Bool.or_self, Bool.false_eq_true, if_false]
  rw [if_neg (ne_of_gt hpos), decide_eq_false (not_lt.mpr (le_of_lt hpos)), abs_of_pos hpos]
  obtain ⟨rfin, rsign, rerr, _⟩ := Float32.round_near false (a.val + b.val) hlo hhi
  rw [Float32.val_of_sign_false _ rsign]
  exact ⟨rfin, Float32.mag_nonneg _, rerr⟩

theorem pow_one_add_le (n : ℕ) (hn : n ≤ 1025) :
    ((1 : ℚ) + 1 / 2 ^ 24) ^ n ≤ 1 + 1 / 2 ^ 13 := by
  have hB := one_add_mul_le_pow (show (-2 : ℚ) ≤ -(1 / 2 ^ 24) by norm_num) n
  have hprod : ((1 : ℚ) + 1 / 2 ^ 24) ^ n * (1 + -(1 / 2 ^ 24)) ^ n ≤ 1 := by
    rw [← mul_pow]
    apply pow_le_one₀
    · norm_num
    · norm_num
  have hnq : (n : ℚ) ≤ 1025 := by exact_mod_cast hn
  have hpos : (0 : ℚ) < 1 + (n : ℚ) * -(1 / 2 ^ 24) := by
    have : (n : ℚ) * (1 / 2 ^ 24) ≤ 1025 * (1 / 2 ^ 24) :=
      mul_le_mul_of_nonneg_right hnq (by positivity)
    have h1025 : (1025 : ℚ) * (1 / 2 ^ 24) < 1 := by norm_num
    linarith
  have hU : (0 : ℚ) ≤ (1 + 1 / 2 ^ 24) ^ n := pow_nonneg (by norm_num) n
  have h1 : ((1 : ℚ) + 1 / 2 ^ 24) ^ n * (1 + (n : ℚ) * -(1 / 2 ^ 24)) ≤ 1 :=
    le_trans (mul_le_mul_of_nonneg_left hB hU) hprod
  have h2 : (1 : ℚ) ≤ (1 + 1 / 2 ^ 13) * (1 + (n : ℚ) * -(1 / 2 ^ 24)) := by
    have : (1 : ℚ) ≤ (1 + 1 / 2 ^ 13) * (1 + (1025 : ℚ) * -(1 / 2 ^ 24)) := by norm_num
    have h3 : (1 + (1025 : ℚ) * -(1 / 2 ^ 24)) ≤ 1 + (n : ℚ) * -(1 / 2 ^ 24) := by
      have : (n : ℚ) * (1 / 2 ^ 24) ≤ 1025 * (1 / 2 ^ 24) :=
        mul_le_mul_of_nonneg_right hnq (by positivity)
      linarith
    have h4 := mul_le_mul_of_nonneg_left h3 (show (0 : ℚ) ≤ 1 + 1 / 2 ^ 13 by positivity)
    linarith
  exact le_of_mul_le_mul_right (le_trans h1 h2) hpos

theorem pow_one_sub_ge (n : ℕ) (hn : n ≤ 1025) :
    (1 : ℚ) - 1 / 2 ^ 13 ≤ (1 - 1 / 2 ^ 24) ^ n := by
  have hB := one_add_mul_le_pow (show (-2 : ℚ) ≤ -(1 / 2 ^ 24) by norm_num) n
  have hnq : (n : ℚ) ≤ 1025 := by exact_mod_cast hn
  have h : (1 : ℚ) - 1 / 2 ^ 13 ≤ 1 + (n : ℚ) * -(1 / 2 ^ 24) := by
    have : (n : ℚ) * (1 / 2 ^ 24) ≤ 1025 * (1 / 2 ^ 24) :=
      mul_le_mul_of_nonneg_right hnq (by positivity)
    have h1025 : (1025 : ℚ) * (1 / 2 ^ 24) ≤ 1 / 2 ^ 13 := by norm_num
    linarith
  have e : (1 : ℚ) - 1 / 2 ^ 24 = 1 + -(1 / 2 ^ 24) := by ring
  rw [e]
  exact le_trans h hB

/-- The accumulation `s = s + w` repeated over `k` equal samples in rounded
arithmetic, from a finite `a` between `i * x * (1 - 2^-24)^i` and
`i * x * (1 + 2^-24)^i`, when `w` is worth `x` in the normal range and at most
`2^116`, and no more than 1024 terms are added in all: the result is finite and
between the same bounds for `i + k`. -/
theorem foldl_add_replicate_near (g : Float32 → Float32 → Float32) (c w : Float32) (x : ℚ)
    (hg : ∀ s, g s c = s.add w) (hwfin : w.isFinite = true) (hwval : w.val = x)
    (hxlo : 1 / 2 ^ 126 ≤ x) (hxhi : x ≤ 2 ^ 116) :
    ∀ (k : ℕ) (a : Float32) (i : ℕ), i + k ≤ 1024 → a.isFinite = true →
      (i : ℚ) * x * (1 - 1 / 2 ^ 24) ^ i ≤ a.val →
      a.val ≤ (i : ℚ) * x * (1 + 1 / 2 ^ 24) ^ i →
      ((List.replicate k c).foldl g a).isFinite = true ∧
      ((i + k : ℕ) : ℚ) * x * (1 - 1 / 2 ^ 24) ^ (i + k)
        ≤ ((List.replicate k c).foldl g a).val ∧
      ((List.replicate k c).foldl g a).val
        ≤ ((i + k : ℕ) : ℚ) * x * (1 + 1 / 2 ^ 24) ^ (i + k) := by
  have hx0 : (0 : ℚ) < x := lt_of_lt_of_le (by positivity) hxlo
  intro k
  induction k with
  | zero =>
    intro a i _ hfin hlo hhi
    exact ⟨hfin, by simpa using hlo, by simpa using hhi⟩
  | succ k ih =>
    intro a i hik hfin hlo hhi
    rw [List.replicate_succ, List.foldl_cons, hg]
    have hi0 : (0 : ℚ) ≤ (i : ℚ) := Nat.cast_nonneg i
    have hiq : (i : ℚ) + 1 ≤ 1024 := by
      have : i + 1 ≤ 1024 := by omega
      exact_mod_cast this
    have hD0 : (0 : ℚ) ≤ (1 - 1 / 2 ^ 24) ^ i := pow_nonneg (by norm_num) i
    have hD1 : ((1 : ℚ) - 1 / 2 ^ 24) ^ i ≤ 1 := pow_le_one₀ (by norm_num) (by norm_num)
    have hU1 : (1 : ℚ) ≤ (1 + 1 / 2 ^ 24) ^ i := one_le_pow₀ (by norm_num)
    have hU2 : ((1 : ℚ) + 1 / 2 ^ 24) ^ i ≤ 1 + 1 / 2 ^ 13 := pow_one_add_le i (by omega)
    have ha0 : (0 : ℚ) ≤ a.val :=
      le_trans (mul_nonneg (mul_nonneg hi0 (le_of_lt hx0)) hD0) hlo
    -- the exact sum lies between the bounds
    have hslo : ((i : ℚ) + 1) * x * (1 - 1 / 2 ^ 24) ^ i ≤ a.val + w.val := by
      rw [hwval]
      have : x * (1 - 1 / 2 ^ 24) ^ i ≤ x := by
        have := mul_le_mul_of_nonneg_left hD1 (le_of_lt hx0)
        linarith
      nlinarith
    have hshi : a.val + w.val ≤ ((i : ℚ) + 1) * x * (1 + 1 / 2 ^ 24) ^ i := by
      rw [hwval]
      have : x ≤ x * (1 + 1 / 2 ^ 24) ^ i := by
        have := mul_le_mul_of_nonneg_left hU1 (le_of_lt hx0)
        linarith
      nlinarith
    have hsum_lo : 1 / 2 ^ 126 ≤ a.val + w.val := by
      rw [hwval]
      linarith
    have hsum_hi : a.val + w.val < 2 ^ 127 := by
      have h1 : ((i : ℚ) + 1) * x ≤ 1024 * 2 ^ 116 :=
        mul_le_mul hiq hxhi (le_of_lt hx0) (by norm_num)
      have h2 : ((i : ℚ) + 1) * x * (1 + 1 / 2 ^ 24) ^ i
          ≤ 1024 * 2 ^ 116 * (1 + 1 / 2 ^ 13) :=
        mul_le_mul h1 hU2 (le_trans (by norm_num) hU1) (by positivity)
      have h3 : (1024 : ℚ) * 2 ^ 116 * (1 + 1 / 2 ^ 13) < 2 ^ 127 := by norm_num
      linarith
    obtain ⟨sfin, s0, serr⟩ := Float32.add_near a w hfin hwfin hsum_lo hsum_hi
    rw [abs_le] at serr
    have hspos : (0 : ℚ) ≤ a.val + w.val := le_trans (by positivity) hsum_lo
    have hnew_lo : ((i + 1 : ℕ) : ℚ) * x * (1 - 1 / 2 ^ 24) ^ (i + 1) ≤ (a.add w).val := by
      have h1 : (a.val + w.val) * (1 - 1 / 2 ^ 24) ≤ (a.add w).val := by
        have : (a.val + w.val) / 2 ^ 24 = (a.val + w.val) * (1 / 2 ^ 24) := by ring
        linarith [serr.1]
      have h2 : ((i : ℚ) + 1) * x * (1 - 1 / 2 ^ 24) ^ i * (1 - 1 / 2 ^ 24)
          ≤ (a.val + w.val) * (1 - 1 / 2 ^ 24) :=
        mul_le_mul_of_nonneg_right hslo (by norm_num)
      push_cast
      rw [pow_succ]
      linarith
    have hnew_hi : (a.add w).val ≤ ((i + 1 : ℕ) : ℚ) * x * (1 + 1 / 2 ^ 24) ^ (i + 1) := by
      have h1 : (a.add w).val ≤ (a.val + w.val) * (1 + 1 / 2 ^ 24) := by
        have : (a.val + w.val) / 2 ^ 24 = (a.val + w.val) * (1 / 2 ^ 24) := by ring
        linarith [serr.2]
      have h2 : (a.val + w.val) * (1 + 1 / 2 ^ 24)
          ≤ ((i : ℚ) + 1) * x * (1 + 1 / 2 ^ 24) ^ i * (1 + 1 / 2 ^ 24) :=
        mul_le_mul_of_nonneg_right hshi (by norm_num)
      push_cast
      rw [pow_succ]
      linarith
    have := ih (a.add w) (i + 1) (by omega) sfin hnew_lo hnew_hi
    have hidx : i + 1 + k = i + (k + 1) := by omega
    rw [hidx] at this
    exact this

theorem near_of_rounded_quotient (x q m D U : ℚ) (hx : 0 ≤ x) (hD0 : 0 ≤ D)
    (hq1 : x * D ≤ q) (hq2 : q ≤ x * U) (hm : |m - q| ≤ q / 2 ^ 24)
    (hD : 1 - 1 / 2 ^ 13 ≤ D * (1 - 1 / 2 ^ 24))
    (hU : U * (1 + 1 / 2 ^ 24) ≤ 1 + 1 / 2 ^ 13) :
    x * (1 - 1 / 2 ^ 13) ≤ q ∧ q ≤ x * (1 + 1 / 2 ^ 13) ∧ |m - x| ≤ x / 2 ^ 13 := by
  rw [abs_le] at hm
  have hq0 : 0 ≤ q := le_trans (mul_nonneg hx hD0) hq1
  have a1 : x * D * (1 - 1 / 2 ^ 24) ≤ q * (1 - 1 / 2 ^ 24) :=
    mul_le_mul_of_nonneg_right hq1 (by norm_num)
  have a2 : x * (1 - 1 / 2 ^ 13) ≤ x * (D * (1 - 1 / 2 ^ 24)) :=
    mul_le_mul_of_nonneg_left hD hx
  have a3 : q * (1 + 1 / 2 ^ 24) ≤ x * U * (1 + 1 / 2 ^ 24) :=
    mul_le_mul_of_nonneg_right hq2 (by norm_num)
  have a4 : x * (U * (1 + 1 / 2 ^ 24)) ≤ x * (1 + 1 / 2 ^ 13) :=
    mul_le_mul_of_nonneg_left hU hx
  have a5 : q * (1 - 1 / 2 ^ 24) ≤ q := by
    have : 0 ≤ q * (1 / 2 ^ 24) := mul_nonneg hq0 (by norm_num)
    linarith
  have a6 : q ≤ q * (1 + 1 / 2 ^ 24) := by
    have : 0 ≤ q * (1 / 2 ^ 24) := mul_nonneg hq0 (by norm_num)
    linarith
  refine ⟨by linarith, by linarith, ?_⟩
  rw [abs_le]
  constructor
  · have : q / 2 ^ 24 = q * (1 / 2 ^ 24) := by ring
    have e1 : x / 2 ^ 13 = x * (1 / 2 ^ 13) := by ring
    linarith [hm.1]
  · have : q / 2 ^ 24 = q * (1 / 2 ^ 24) := by ring
    have e1 : x / 2 ^ 13 = x * (1 / 2 ^ 13) := by ring
    linarith [hm.2]

theorem near_of_rounded_term (x w e D U : ℚ) (hx : 0 ≤ x) (hD0 : 0 ≤ D) (hU0 : 0 ≤ U)
    (hw : |w - x| ≤ x / 2 ^ 24) (he1 : w * D ≤ e) (he2 : e ≤ w * U)
    (hD : 1 - 1 / 2 ^ 13 ≤ D * (1 - 1 / 2 ^ 24))
    (hU : U * (1 + 1 / 2 ^ 24) ≤ 1 + 1 / 2 ^ 13) :
    |e - x| ≤ x / 2 ^ 13 := by
  rw [abs_le] at hw
  have e0 : x / 2 ^ 24 = x * (1 / 2 ^ 24) := by ring
  have w1 : x * (1 - 1 / 2 ^ 24) ≤ w := by linarith [hw.1]
  have w2 : w ≤ x * (1 + 1 / 2 ^ 24) := by linarith [hw.2]
  have a1 : x * (1 - 1 / 2 ^ 24) * D ≤ w * D := mul_le_mul_of_nonneg_right w1 hD0
  have a2 : x * (1 - 1 / 2 ^ 13) ≤ x * (D * (1 - 1 / 2 ^ 24)) :=
    mul_le_mul_of_nonneg_left hD hx
  have a3 : w * U ≤ x * (1 + 1 / 2 ^ 24) * U := mul_le_mul_of_nonneg_right w2 hU0
  have a4 : x * (U * (1 + 1 / 2 ^ 24)) ≤ x * (1 + 1 / 2 ^ 13) :=
    mul_le_mul_of_nonneg_left hU hx
  have e1 : x / 2 ^ 13 = x * (1 / 2 ^ 13) := by ring
  rw [abs_le]
  constructor
  · have : x * (1 - 1 / 2 ^ 24) * D = x * (D * (1 - 1 / 2 ^ 24)) := by ring
    linarith
  · have : x * (1 + 1 / 2 ^ 24) * U = x * (U * (1 + 1 / 2 ^ 24)) := by ring
    linarith

/-- The square of a finite float between `2^-62` and `2^58` in magnitude:
finite, positive, within a relative `2^-24` of the exact square. -/
theorem Float32.mul_self_near (c : Float32) (hc : c.isFinite = true)
    (hlo : 1 / 2 ^ 62 ≤ c.mag) (hhi : c.mag ≤ 2 ^ 58) :
    (c.mul c).isFinite = true ∧ |(c.mul c).val - c.mag * c.mag| ≤ c.mag * c.mag / 2 ^ 24 ∧
      1 / 2 ^ 126 ≤ (c.mul c).val ∧ (c.mul c).val ≤ 2 ^ 116 := by
  obtain ⟨cnan, cinf⟩ := Float32.not_special_of_isFinite c hc
  have hm0 : (0 : ℚ) < c.mag := lt_of_lt_of_le (by positivity) hlo
  have hqlo : (1 : ℚ) / 2 ^ 124 ≤ c.mag * c.mag := by
    have h1 : (1 : ℚ) / 2 ^ 62 * (1 / 2 ^ 62) ≤ c.mag * c.mag :=
      mul_le_mul hlo hlo (by positivity) (le_of_lt hm0)
    have h2 : (1 : ℚ) / 2 ^ 62 * (1 / 2 ^ 62) = 1 / 2 ^ 124 := by norm_num
    linarith
  have hqhi : c.mag * c.mag ≤ 2 ^ 116 := by
    have h1 : c.mag * c.mag ≤ 2 ^ 58 * 2 ^ 58 :=
      mul_le_mul hhi hhi (le_of_lt hm0) (by positivity)
    have h2 : (2 : ℚ) ^ 58 * 2 ^ 58 = 2 ^ 116 := by norm_num
    linarith
  have h126 : (1 : ℚ) / 2 ^ 126 ≤ c.mag * c.mag := by
    have : (1 : ℚ) / 2 ^ 126 ≤ 1 / 2 ^ 124 := by norm_num
    linarith
  have h127 : c.mag * c.mag < 2 ^ 127 := by
    have : (2 : ℚ) ^ 116 < 2 ^ 127 := by norm_num
    linarith
  obtain ⟨rfin, rsign, rerr, rle⟩ := Float32.round_near (c.sign != c.sign) (c.mag * c.mag)
    h126 h127
  have hsf : (c.sign != c.sign) = false := by simp
  rw [hsf] at rfin rsign rerr rle
  have hmul : c.mul c = Float32.round false (c.mag * c.mag) := by
    unfold Float32.mul
    simp only [cnan, cinf, Bool.or_self, Bool.false_eq_true, if_false]
    rw [hsf]
  rw [hmul, Float32.val_of_sign_false _ rsign]
  refine ⟨rfin, rerr, ?_, rle 116 hqhi⟩
  rw [abs_le] at rerr
  have e0 : c.mag * c.mag / 2 ^ 24 = c.mag * c.mag * (1 / 2 ^ 24) := by ring
  have h3 : (1 : ℚ) / 2 ^ 124 * (1 - 1 / 2 ^ 24) ≤ c.mag * c.mag * (1 - 1 / 2 ^ 24) :=
    mul_le_mul_of_nonneg_right hqlo (by norm_num)
  have h4 : (1 : ℚ) / 2 ^ 126 ≤ 1 / 2 ^ 124 * (1 - 1 / 2 ^ 24) := by norm_num
  linarith [rerr.1]

/-- The store `*mean = sum / TRACE_LENGTH` for a positive sum whose exact
quotient is in the normal range: within a relative `2^-24` of the quotient. -/
theorem Float32.div_trace_length_near (a : Float32) (ha : a.isFinite = true)
    (hlo : 1 / 2 ^ 126 ≤ a.val / 1024) (hhi : a.val / 1024 < 2 ^ 127) :
    (a.div (Float32.ofInt TRACE_LENGTH)).isFinite = true ∧
      |(a.div (Float32.ofInt TRACE_LENGTH)).val - a.val / 1024| ≤ a.val / 1024 / 2 ^ 24 := by
  obtain ⟨anan, ainf⟩ := Float32.not_special_of_isFinite a ha
  obtain ⟨nfin, nsign, nmag⟩ := Float32.ofInt_natCast 1024 (by norm_num)
  obtain ⟨nnan, ninf⟩ := Float32.not_special_of_isFinite _ nfin
  have nmag2 : (Float32.ofInt ((1024 : ℕ) : ℤ)).mag = 1024 := by rw [nmag]; norm_num
  have hn : Float32.ofInt (TRACE_LENGTH : ℤ) = Float32.ofInt ((1024 : ℕ) : ℤ) := rfl
  have hapos : 0 < a.val := by
    have : (0 : ℚ) < a.val / 1024 := lt_of_lt_of_le (by positivity) hlo
    linarith
  have asign := Float32.sign_false_of_val_pos a hapos
  have aval := Float32.val_of_sign_false a asign
  have hdiv : a.div (Float32.ofInt TRACE_LENGTH) = Float32.round false (a.val / 1024) := by
    rw [hn]
    unfold Float32.div
    simp only [anan, ainf, nnan, ninf, Bool.or_self, Bool.false_eq_true, if_false]
    rw [if_neg (by rw [nmag2]; norm_num), nmag2, nsign, asign, aval]
    rfl
  obtain ⟨rfin, rsign, rerr, _⟩ := Float32.round_near false (a.val / 1024) hlo hhi
  rw [hdiv, Float32.val_of_sign_false _ rsign]
  exact ⟨rfin, rerr⟩

/-- The mean of a constant trace whose sample is finite and between `2^-125`
and `2^116`: finite and within a relative `2^-13` of the sample. -/
theorem mean_near_of_constant_trace (c : Float32) (hfin : c.isFinite = true)
    (hlo : 1 / 2 ^ 125 ≤ c.val) (hhi : c.val ≤ 2 ^ 116) :
    (extract_features (fun _ => c)).mean.isFinite = true ∧
      |(extract_features (fun _ => c)).mean.val - c.val| ≤ c.val / 2 ^ 13 := by
  unfold extract_features
  rw [List.ofFn_const, extract_loop_mean]
  have hc0 : (0 : ℚ) < c.val := lt_of_lt_of_le (by positivity) hlo
  have hlo2 : (1 : ℚ) / 2 ^ 126 ≤ c.val := by
    have : (1 : ℚ) / 2 ^ 126 ≤ 1 / 2 ^ 125 := by norm_num
    linarith
  obtain ⟨sfin, slo, shi⟩ := foldl_add_replicate_near (fun s v => s.add v) c c c.val
    (fun _ => rfl) hfin rfl hlo2 hhi TRACE_LENGTH Float32.zero 0 (by decide)
    Float32.zero_isFinite (by rw [Float32.zero_val]; simp) (by rw [Float32.zero_val]; simp)
  have hD : (1 : ℚ) - 1 / 2 ^ 13 ≤ (1 - 1 / 2 ^ 24) ^ (0 + TRACE_LENGTH) * (1 - 1 / 2 ^ 24) :=
    le_of_le_of_eq (pow_one_sub_ge (0 + TRACE_LENGTH + 1) (by decide)) (pow_succ _ _)
  have hU : ((1 : ℚ) + 1 / 2 ^ 24) ^ (0 + TRACE_LENGTH) * (1 + 1 / 2 ^ 24) ≤ 1 + 1 / 2 ^ 13 :=
    le_of_eq_of_le (pow_succ _ _).symm (pow_one_add_le (0 + TRACE_LENGTH + 1) (by decide))
  have hD0 : (0 : ℚ) ≤ (1 - 1 / 2 ^ 24) ^ (0 + TRACE_LENGTH) := pow_nonneg (by norm_num) _
  have hN : ((0 + TRACE_LENGTH : ℕ) : ℚ) = 1024 := by norm_num
  rw [hN] at slo shi
  generalize (List.foldl (fun s v => s.add v) Float32.zero (List.replicate TRACE_LENGTH c)) = s
    at sfin slo shi ⊢
  generalize ((1 : ℚ) - 1 / 2 ^ 24) ^ (0 + TRACE_LENGTH) = D at hD hD0 slo
  generalize ((1 : ℚ) + 1 / 2 ^ 24) ^ (0 + TRACE_LENGTH) = U at hU shi
  have hq1 : c.val * D ≤ s.val / 1024 := by linarith
  have hq2 : s.val / 1024 ≤ c.val * U := by linarith
  have hx1 : c.val * (1 - 1 / 2 ^ 13) ≤ s.val / 1024 := by
    have a1 : c.val * D * (1 - 1 / 2 ^ 24) ≤ c.val * D := by
      have : 0 ≤ c.val * D * (1 / 2 ^ 24) :=
        mul_nonneg (mul_nonneg (le_of_lt hc0) hD0) (by norm_num)
      linarith
    have a2 : c.val * (1 - 1 / 2 ^ 13) ≤ c.val * (D * (1 - 1 / 2 ^ 24)) :=
      mul_le_mul_of_nonneg_left hD (le_of_lt hc0)
    linarith
  have hU0 : (0 : ℚ) ≤ U := by
    by_contra hneg
    have : c.val * U < 0 := mul_neg_of_pos_of_neg hc0 (not_le.mp hneg)
    have h3 : (0 : ℚ) ≤ c.val * (1 - 1 / 2 ^ 13) := mul_nonneg (le_of_lt hc0) (by norm_num)
    linarith
  have hx2 : s.val / 1024 ≤ c.val * (1 + 1 / 2 ^ 13) := by
    have a1 : c.val * U ≤ c.val * U * (1 + 1 / 2 ^ 24) := by
      have : 0 ≤ c.val * U * (1 / 2 ^ 24) :=
        mul_nonneg (mul_nonneg (le_of_lt hc0) hU0) (by norm_num)
      linarith
    have a2 : c.val * (U * (1 + 1 / 2 ^ 24)) ≤ c.val * (1 + 1 / 2 ^ 13) :=
      mul_le_mul_of_nonneg_left hU (le_of_lt hc0)
    linarith
  have hqlo : (1 : ℚ) / 2 ^ 126 ≤ s.val / 1024 := by
    have a1 : (1 : ℚ) / 2 ^ 125 * (1 - 1 / 2 ^ 13) ≤ c.val * (1 - 1 / 2 ^ 13) :=
      mul_le_mul_of_nonneg_right hlo (by norm_num)
    have a2 : (1 : ℚ) / 2 ^ 126 ≤ 1 / 2 ^ 125 * (1 - 1 / 2 ^ 13) := by norm_num
    linarith
  have hqhi : s.val / 1024 < 2 ^ 127 := by
    have a1 : c.val * (1 + 1 / 2 ^ 13) ≤ 2 ^ 116 * (1 + 1 / 2 ^ 13) :=
      mul_le_mul_of_nonneg_right hhi (by norm_num)
    have a2 : (2 : ℚ) ^ 116 * (1 + 1 / 2 ^ 13) < 2 ^ 127 := by norm_num
    linarith
  obtain ⟨mfin, merr⟩ := Float32.div_trace_length_near s sfin hqlo hqhi
  exact ⟨mfin, (near_of_rounded_quotient c.val (s.val / 1024) _ D U (le_of_lt hc0) hD0
    hq1 hq2 merr hD hU).2.2⟩

/-- The energy of a constant trace whose sample is finite and between `2^-62`
and `2^58`: finite and within a relative `2^-13` of `1024 * c^2`. -/
theorem energy_near_of_constant_trace (c : Float32) (hfin : c.isFinite = true)
    (hlo : 1 / 2 ^ 62 ≤ c.val) (hhi : c.val ≤ 2 ^ 58) :
    (extract_features (fun _ => c)).energy.isFinite = true ∧
      |(extract_features (fun _ => c)).energy.val - 1024 * c.val ^ 2|
        ≤ 1024 * c.val ^ 2 / 2 ^ 13 := by
  unfold extract_features
  rw [List.ofFn_const, extract_loop_energy]
  have hc0 : (0 : ℚ) < c.val := lt_of_lt_of_le (by positivity) hlo
  have cmag : c.mag = c.val :=
    (Float32.val_of_sign_false c (Float32.sign_false_of_val_pos c hc0)).symm
  obtain ⟨wfin, werr, wlo, whi⟩ := Float32.mul_self_near c hfin (by rw [cmag]; exact hlo)
    (by rw [cmag]; exact hhi)
  rw [cmag] at werr
  obtain ⟨efin, elo, ehi⟩ := foldl_add_replicate_near (fun e v => e.add (v.mul v)) c (c.mul c)
    (c.mul c).val (fun _ => rfl) wfin rfl wlo whi TRACE_LENGTH Float32.zero 0 (by decide)
    Float32.zero_isFinite (by rw [Float32.zero_val]; simp) (by rw [Float32.zero_val]; simp)
  have hD : (1 : ℚ) - 1 / 2 ^ 13 ≤ (1 - 1 / 2 ^ 24) ^ (0 + TRACE_LENGTH) * (1 - 1 / 2 ^ 24) :=
    le_of_le_of_eq (pow_one_sub_ge (0 + TRACE_LENGTH + 1) (by decide)) (pow_succ _ _)
  have hU : ((1 : ℚ) + 1 / 2 ^ 24) ^ (0 + TRACE_LENGTH) * (1 + 1 / 2 ^ 24) ≤ 1 + 1 / 2 ^ 13 :=
    le_of_eq_of_le (pow_succ _ _).symm (pow_one_add_le (0 + TRACE_LENGTH + 1) (by decide))
  have hD0 : (0 : ℚ) ≤ (1 - 1 / 2 ^ 24) ^ (0 + TRACE_LENGTH) := pow_nonneg (by norm_num) _
  have hU0 : (0 : ℚ) ≤ (1 + 1 / 2 ^ 24) ^ (0 + TRACE_LENGTH) := pow_nonneg (by norm_num) _
  have hN : ((0 + TRACE_LENGTH : ℕ) : ℚ) = 1024 := by norm_num
  rw [hN] at elo ehi
  generalize (List.foldl (fun e v => e.add (v.mul v)) Float32.zero
    (List.replicate TRACE_LENGTH c)) = e at efin elo ehi ⊢
  generalize (c.mul c).val = w at werr elo ehi
  generalize ((1 : ℚ) - 1 / 2 ^ 24) ^ (0 + TRACE_LENGTH) = D at hD hD0 elo
  generalize ((1 : ℚ) + 1 / 2 ^ 24) ^ (0 + TRACE_LENGTH) = U at hU hU0 ehi
  refine ⟨efin, ?_⟩
  have hx0 : (0 : ℚ) ≤ 1024 * c.val ^ 2 := by positivity
  apply near_of_rounded_term (1024 * c.val ^ 2) (1024 * w) e.val D U hx0 hD0 hU0 ?_ elo ehi hD hU
  have e1 : 1024 * w - 1024 * c.val ^ 2 = 1024 * (w - c.val * c.val) := by ring
  have e2 : 1024 * c.val ^ 2 / 2 ^ 24 = 1024 * (c.val * c.val / 2 ^ 24) := by ring
  rw [e1, e2, abs_mul, abs_of_pos (by norm_num : (0 : ℚ) < 1024)]
  exact mul_le_mul_of_nonneg_left werr (by norm_num)

/-! ## Constant traces on which the accumulation rounds -/

theorem Float32.c16641_val : Float32.c16641.val = 16641 := by
  norm_num [Float32.val, Float32.mag, Float32.c16641]

theorem Float32.c129_val : Float32.c129.val = 129 := by
  norm_num [Float32.val, Float32.mag, Float32.c129]

theorem Float32.tenth_val : Float32.tenth.val = 13421773 / 2 ^ 27 := by
  norm_num [Float32.val, Float32.mag, Float32.tenth]

/-- An odd integer `2 * A + 1` between `2^24` and `2^25` lies halfway between
two floats; with `A` even it rounds down to `2 * A`. -/
theorem Float32.round_tie_even (A : ℕ) (hA1 : 2 ^ 23 ≤ A) (hA2 : A < 2 ^ 24)
    (hev : A % 2 = 0) :
    (Float32.round false (((2 * A + 1 : ℕ) : ℚ))).isFinite = true ∧
      (Float32.round false (((2 * A + 1 : ℕ) : ℚ))).val = ((2 * A : ℕ) : ℚ) := by
  have hA1q : ((2 ^ 23 : ℕ) : ℚ) ≤ (A : ℚ) := by exact_mod_cast hA1
  have hA2q : (A : ℚ) < ((2 ^ 24 : ℕ) : ℚ) := by exact_mod_cast hA2
  have hA1q2 : (8388608 : ℚ) ≤ (A : ℚ) := by
    have : ((2 ^ 23 : ℕ) : ℚ) = 8388608 := by norm_num
    linarith
  have hA2q2 : (A : ℚ) + 1 ≤ 16777216 := by
    have h : A + 1 ≤ 2 ^ 24 := hA2
    have hq : ((A + 1 : ℕ) : ℚ) ≤ ((2 ^ 24 : ℕ) : ℚ) := by exact_mod_cast h
    have : ((2 ^ 24 : ℕ) : ℚ) = 16777216 := by norm_num
    push_cast at hq
    push_cast at this
    linarith
  have hqpos : (0 : ℚ) < ((2 * A + 1 : ℕ) : ℚ) := by positivity
  have hqv : ((2 * A + 1 : ℕ) : ℚ) = 2 * (A : ℚ) + 1 := by push_cast; ring
  have hlog : Int.log 2 (((2 * A + 1 : ℕ) : ℚ)) = 24 := by
    apply le_antisymm
    · have h := (Int.lt_zpow_iff_log_lt (b := 2) (x := 25) (r := ((2 * A + 1 : ℕ) : ℚ))
        (by norm_num) hqpos).mp (by
          rw [hqv]
          have : (((2 : ℕ) : ℚ)) ^ (25 : ℤ) = 33554432 := by norm_num
          rw [this]
          linarith)
      omega
    · exact (Int.zpow_le_iff_le_log (b := 2) (x := 24) (r := ((2 * A + 1 : ℕ) : ℚ))
        (by norm_num) hqpos).mp (by
          rw [hqv]
          have : (((2 : ℕ) : ℚ)) ^ (24 : ℤ) = 16777216 := by norm_num
          rw [this]
          linarith)
  have hfl : ⌊((2 * A + 1 : ℕ) : ℚ) / 2⌋₊ = A := by
    rw [Nat.floor_eq_iff (by positivity), hqv]
    constructor
    · linarith
    · linarith
  have hrhe : Float32.roundHalfEven (((2 * A + 1 : ℕ) : ℚ) / 2 ^ ((24 : ℤ) - 23)) = A := by
    have h1 : (2 : ℚ) ^ ((24 : ℤ) - 23) = 2 := by norm_num
    rw [h1]
    unfold Float32.roundHalfEven
    simp only [hfl]
    have hr : ((2 * A + 1 : ℕ) : ℚ) / 2 - (A : ℚ) = 1 / 2 := by
      rw [hqv]
      ring
    rw [hr, if_neg (lt_irrefl _), if_neg (lt_irrefl _), if_pos hev]
  obtain ⟨rs, rexp, rfrac⟩ := Float32.round_fields false (((2 * A + 1 : ℕ) : ℚ))
    (ne_of_gt hqpos) ((24 + 126 : ℤ).toNat * 8388608 + A)
    (by rw [hlog, max_eq_left (by norm_num : (-126 : ℤ) ≤ 24), hrhe])
    (by
      have : (24 + 126 : ℤ).toNat = 150 := by decide
      rw [this]
      have h24 : (2 : ℕ) ^ 24 = 16777216 := by norm_num
      omega)
  have h150 : (24 + 126 : ℤ).toNat = 150 := by decide
  have h23 : (2 : ℕ) ^ 23 = 8388608 := by norm_num
  have h24 : (2 : ℕ) ^ 24 = 16777216 := by norm_num
  have hexp : (Float32.round false (((2 * A + 1 : ℕ) : ℚ))).expo = 151 := by
    rw [rexp, h150]
    omega
  have hfrac : (Float32.round false (((2 * A + 1 : ℕ) : ℚ))).frac = A - 8388608 := by
    rw [rfrac, h150]
    omega
  refine ⟨?_, ?_⟩
  · unfold Float32.isFinite
    rw [hexp]
    rfl
  · rw [Float32.val_of_sign_false _ rs]
    unfold Float32.mag
    rw [hexp, hfrac, if_neg (by decide)]
    have hsub : ((2 ^ 23 + (A - 8388608) : ℕ) : ℚ) = (A : ℚ) := by
      have : 2 ^ 23 + (A - 8388608) = A := by omega
      rw [this]
    rw [hsub]
    push_cast
    norm_num
    ring

/-- The product of two finite floats whose exact product is a float below
`2^128`. -/
theorem Float32.mul_exact (a b : Float32) (ha : a.isFinite = true) (hb : b.isFinite = true)
    (hrep : Float32.Rep (a.mag * b.mag)) (hlt : a.mag * b.mag < 2 ^ 128) :
    (a.mul b).isFinite = true ∧ (a.mul b).sign = (a.sign != b.sign) ∧
      (a.mul b).mag = a.mag * b.mag := by
  obtain ⟨anan, ainf⟩ := Float32.not_special_of_isFinite a ha
  obtain ⟨bnan, binf⟩ := Float32.not_special_of_isFinite b hb
  unfold Float32.mul
  simp only [anan, bnan, ainf, binf, Bool.or_self, Bool.false_eq_true, if_false]
  exact Float32.round_exact _ _ hrep hlt

theorem Float32.eq_false_of_val (a b : Float32) (ha : a.isFinite = true)
    (hb : b.isFinite = true) (h : a.val ≠ b.val) : a.eq b = false := by
  obtain ⟨anan, ainf⟩ := Float32.not_special_of_isFinite a ha
  obtain ⟨bnan, binf⟩ := Float32.not_special_of_isFinite b hb
  simp only [Float32.eq, anan, bnan, Bool.not_false, Bool.true_and, decide_eq_false_iff_not]
  unfold Float32.ord
  rw [ainf, binf]
  simpa using h

/-- The last 16 of 1024 additions of `16641.0`: from 16774128 on, every exact
sum is an odd integer above `2^24` and rounds down, so each step adds 16640. -/
theorem foldl_add_16641_tail (g : Float32 → Float32 → Float32) (c w : Float32)
    (hg : ∀ s, g s c = s.add w) (hwfin : w.isFinite = true) (hwval : w.val = 16641) :
    ∀ (k : ℕ) (a : Float32) (i : ℕ), i + k ≤ 16 → a.isFinite = true →
      a.val = ((16774128 + 16640 * i : ℕ) : ℚ) →
      ((List.replicate k c).foldl g a).isFinite = true ∧
        ((List.replicate k c).foldl g a).val = ((16774128 + 16640 * (i + k) : ℕ) : ℚ) := by
  intro k
  induction k with
  | zero =>
    intro a i _ hfin hval
    exact ⟨hfin, by simpa using hval⟩
  | succ k ih =>
    intro a i hik hfin hval
    rw [List.replicate_succ, List.foldl_cons, hg]
    obtain ⟨anan, ainf⟩ := Float32.not_special_of_isFinite a hfin
    obtain ⟨wnan, winf⟩ := Float32.not_special_of_isFinite w hwfin
    have hsum : a.val + w.val = ((2 * (8395384 + 8320 * i) + 1 : ℕ) : ℚ) := by
      rw [hval, hwval]
      push_cast
      ring
    have hpos : (0 : ℚ) < a.val + w.val := by
      rw [hsum]
      positivity
    have hadd : a.add w = Float32.round false (((2 * (8395384 + 8320 * i) + 1 : ℕ) : ℚ)) := by
      unfold Float32.add
      simp only [anan, wnan, ainf, winf, Bool.or_self, Bool.false_eq_true, if_false]
      rw [if_neg (ne_of_gt hpos), decide_eq_false (not_lt.mpr (le_of_lt hpos)),
        abs_of_pos hpos, hsum]
    have h23 : (2 : ℕ) ^ 23 = 8388608 := by norm_num
    have h24 : (2 : ℕ) ^ 24 = 16777216 := by norm_num
    obtain ⟨sfin, sval⟩ := Float32.round_tie_even (8395384 + 8320 * i) (by omega) (by omega)
      (by omega)
    rw [← hadd] at sfin sval
    have := ih (a.add w) (i + 1) (by omega) sfin (by
      rw [sval]
      congr 1
      ring)
    have hidx : i + 1 + k = i + (k + 1) := by omega
    rw [hidx] at this
    exact this

/-- The float sum of 1024 terms `16641.0`, accumulated left to right, is
17040368: sixteen less than the exact 17040384. -/
theorem foldl_add_16641 (g : Float32 → Float32 → Float32) (c w : Float32)
    (hg : ∀ s, g s c = s.add w) (hwfin : w.isFinite = true) (hwval : w.val = 16641) :
    ((List.replicate TRACE_LENGTH c).foldl g Float32.zero).isFinite = true ∧
      ((List.replicate TRACE_LENGTH c).foldl g Float32.zero).val = 17040368 := by
  have hsplit : List.replicate TRACE_LENGTH c
      = List.replicate 1008 c ++ List.replicate 16 c := by
    rw [← List.replicate_add]
  rw [hsplit, List.foldl_append]
  obtain ⟨s1fin, s1val⟩ := foldl_add_replicate g c w 16641 hg hwfin hwval 1008 Float32.zero 0
    Float32.zero_isFinite (by rw [Float32.zero_val]; simp)
    (by
      intro j hj
      have hj1 : j ≤ 1008 := by omega
      have habs : (j : ℚ) * |(16641 : ℚ)| = ((j * 16641 : ℕ) : ℚ) := by
        rw [abs_of_pos (by norm_num)]
        push_cast
        ring
      have h24 : (2 : ℕ) ^ 24 = 16777216 := by norm_num
      have hle : j * 16641 ≤ 2 ^ 24 := by omega
      rw [habs]
      refine ⟨Float32.rep_natCast _ hle, ?_⟩
      have h1 : ((j * 16641 : ℕ) : ℚ) ≤ ((2 ^ 24 : ℕ) : ℚ) := by exact_mod_cast hle
      have h2 : ((2 ^ 24 : ℕ) : ℚ) < 2 ^ 128 := by norm_num
      linarith)
  obtain ⟨s2fin, s2val⟩ := foldl_add_16641_tail g c w hg hwfin hwval 16 _ 0 (by decide) s1fin
    (by rw [s1val]; norm_num)
  refine ⟨s2fin, ?_⟩
  rw [s2val]
  norm_num

/-- On the trace whose 1024 samples are all `16641.0` the mean is
`17040368 / 1024 = 16640.984375`. -/
theorem mean_of_c16641_trace :
    (extract_features (fun _ => Float32.c16641)).mean.isFinite = true ∧
      (extract_features (fun _ => Float32.c16641)).mean.val = 17040368 / 1024 := by
  unfold extract_features
  rw [List.ofFn_const, extract_loop_mean]
  obtain ⟨sfin, sval⟩ := foldl_add_16641 (fun s v => s.add v) Float32.c16641 Float32.c16641
    (fun _ => rfl) (by decide) Float32.c16641_val
  have smag : (List.foldl (fun s v => s.add v) Float32.zero
      (List.replicate TRACE_LENGTH Float32.c16641)).mag = 17040368 := by
    rw [← Float32.abs_val, sval]
    norm_num
  have hq : (17040368 : ℚ) / 1024 = ((1065023 : ℕ) : ℚ) * 2 ^ (-6 : ℤ) := by norm_num
  obtain ⟨mfin, mval⟩ := Float32.div_trace_length _ sfin
    (by rw [smag, hq]; exact ⟨1065023, -6, by norm_num, by norm_num, rfl⟩)
    (by rw [smag]; norm_num)
  refine ⟨mfin, ?_⟩
  rw [mval, sval]

/-- On the trace whose 1024 samples are all `129.0` the energy is 17040368. -/
theorem energy_of_c129_trace :
    (extract_features (fun _ => Float32.c129)).energy.isFinite = true ∧
      (extract_features (fun _ => Float32.c129)).energy.val = 17040368 := by
  unfold extract_features
  rw [List.ofFn_const, extract_loop_energy]
  have hmag : Float32.c129.mag = 129 := by
    rw [← Float32.abs_val, Float32.c129_val]
    norm_num
  obtain ⟨wfin, wval⟩ := Float32.mul_self_exact Float32.c129 (by decide)
    (by
      rw [hmag]
      have : (129 : ℚ) * 129 = ((16641 : ℕ) : ℚ) := by norm_num
      rw [this]
      exact Float32.rep_natCast 16641 (by norm_num))
    (by rw [hmag]; norm_num)
  rw [Float32.c129_val] at wval
  exact foldl_add_16641 (fun e v => e.add (v.mul v)) Float32.c129
    (Float32.c129.mul Float32.c129) (fun _ => rfl) wfin (by rw [wval]; norm_num)

/-- The float product `1024 * (129 * 129)` is exact: 17040384. -/
theorem Float32.trace_length_mul_sq_c129 :
    ((Float32.ofInt TRACE_LENGTH).mul (Float32.c129.mul Float32.c129)).isFinite = true ∧
      ((Float32.ofInt TRACE_LENGTH).mul (Float32.c129.mul Float32.c129)).val = 17040384 := by
  have hmag : Float32.c129.mag = 129 := by
    rw [← Float32.abs_val, Float32.c129_val]
    norm_num
  have h16641 : (129 : ℚ) * 129 = ((16641 : ℕ) : ℚ) := by norm_num
  obtain ⟨wfin, wsign, wmag⟩ := Float32.mul_exact Float32.c129 Float32.c129 (by decide)
    (by decide)
    (by rw [hmag, h16641]; exact Float32.rep_natCast 16641 (by norm_num))
    (by rw [hmag]; norm_num)
  rw [hmag] at wmag
  obtain ⟨nfin, nsign, nmag⟩ := Float32.ofInt_natCast 1024 (by norm_num)
  have nmag2 : (Float32.ofInt ((1024 : ℕ) : ℤ)).mag = 1024 := by rw [nmag]; norm_num
  have hn : Float32.ofInt (TRACE_LENGTH : ℤ) = Float32.ofInt ((1024 : ℕ) : ℤ) := rfl
  rw [hn]
  have hprod : (1024 : ℚ) * (129 * 129) = ((16641 : ℕ) : ℚ) * 2 ^ (10 : ℤ) := by norm_num
  obtain ⟨pfin, psign, pmag⟩ := Float32.mul_exact (Float32.ofInt ((1024 : ℕ) : ℤ))
    (Float32.c129.mul Float32.c129) nfin wfin
    (by rw [nmag2, wmag, hprod]; exact ⟨16641, 10, by norm_num, by norm_num, rfl⟩)
    (by rw [nmag2, wmag]; norm_num)
  refine ⟨pfin, ?_⟩
  have hs : ((Float32.ofInt ((1024 : ℕ) : ℤ)).mul (Float32.c129.mul Float32.c129)).sign
      = false := by
    rw [psign, nsign, wsign]
    rfl
  rw [Float32.val_of_sign_false _ hs, pmag, nmag2, wmag]
  norm_num

theorem Float32.twoPow118_val : Float32.twoPow118.val = 2 ^ 118 := by
  norm_num [Float32.val, Float32.mag, Float32.twoPow118]

/-- On the trace whose 1024 samples are all `2^118` the first 1023 partial
sums are exact and the last addition reaches `2^128`: the sum overflows and the
mean is `+inf`. -/
theorem mean_of_twoPow118_trace :
    (extract_features (fun _ => Float32.twoPow118)).mean = Float32.inf false := by
  unfold extract_features
  rw [List.ofFn_const, extract_loop_mean]
  have hcfin : Float32.twoPow118.isFinite = true := by decide
  obtain ⟨cnan, cinf⟩ := Float32.not_special_of_isFinite _ hcfin
  have hsplit : List.replicate TRACE_LENGTH Float32.twoPow118
      = List.replicate 1023 Float32.twoPow118 ++ [Float32.twoPow118] := by
    rw [show [Float32.twoPow118] = List.replicate 1 Float32.twoPow118 from rfl,
      ← List.replicate_add]
  have h118 : (0 : ℚ) < 2 ^ 118 := pow_pos (by norm_num) 118
  obtain ⟨sfin, sval⟩ := foldl_add_replicate (fun s v => s.add v) Float32.twoPow118
    Float32.twoPow118 (2 ^ 118) (fun _ => rfl) hcfin Float32.twoPow118_val 1023
    Float32.zero 0 Float32.zero_isFinite (by rw [Float32.zero_val]; simp)
    (by
      intro j hj
      have hj1 : j ≤ 1023 := by omega
      have hjq : (j : ℚ) ≤ 1023 := by exact_mod_cast hj1
      rw [abs_of_pos h118]
      constructor
      · refine ⟨j, 118, ?_, by norm_num, ?_⟩
        · have h24 : (2 : ℕ) ^ 24 = 16777216 := by norm_num
          omega
        · norm_num
      · have h1 : (j : ℚ) * 2 ^ 118 ≤ 1023 * 2 ^ 118 :=
          mul_le_mul_of_nonneg_right hjq (le_of_lt h118)
        have h2 : (2 : ℚ) ^ 128 = 1024 * 2 ^ 118 := by norm_num
        linarith)
  obtain ⟨snan, sinf⟩ := Float32.not_special_of_isFinite _ sfin
  have hlast : (List.foldl (fun s v => s.add v) Float32.zero
      (List.replicate 1023 Float32.twoPow118)).add Float32.twoPow118 = Float32.inf false := by
    have hsum : (List.foldl (fun s v => s.add v) Float32.zero
        (List.replicate 1023 Float32.twoPow118)).val + Float32.twoPow118.val = 2 ^ 128 := by
      rw [sval, Float32.twoPow118_val]
      norm_num
    rw [Float32.add]
    simp only [snan, sinf, cnan, cinf, Bool.or_self, Bool.false_eq_true, if_false]
    rw [hsum, if_neg (by norm_num)]
    have hd : decide ((2 : ℚ) ^ 128 < 0) = false := by
      rw [decide_eq_false_iff_not]
      norm_num
    rw [hd, abs_of_pos (by norm_num)]
    exact Float32.round_overflow false _ (le_refl _)
  rw [hsplit, List.foldl_append, List.foldl_cons, List.foldl_nil, hlast]
  obtain ⟨nfin, nsign, _⟩ := Float32.ofInt_natCast 1024 (by norm_num)
  obtain ⟨nnan, ninf⟩ := Float32.not_special_of_isFinite _ nfin
  have hn : Float32.ofInt (TRACE_LENGTH : ℤ) = Float32.ofInt ((1024 : ℕ) : ℤ) := rfl
  rw [hn, Float32.div]
  simp only [nnan, ninf, nsign, Float32.inf_isNaN, Float32.inf_isInf, Bool.or_self,
    Bool.false_eq_true, if_false, if_true]
  rfl

/-- The result `+inf` does not compare equal to a finite float. -/
theorem Float32.inf_eq_false (c : Float32) (hc : c.isFinite = true) (hv : c.val < 2 ^ 128) :
    (Float32.inf false).eq c = false := by
  obtain ⟨cnan, cinf⟩ := Float32.not_special_of_isFinite c hc
  have h1 : (Float32.inf false).ord = 2 ^ 128 := by
    unfold Float32.ord
    rw [Float32.inf_isInf, if_pos rfl]
    rfl
  have h2 : c.ord = c.val := by
    unfold Float32.ord
    rw [cinf]
    rfl
  simp only [Float32.eq, h1, h2, Bool.and_eq_false_imp, decide_eq_false_iff_not]
  intro _ h
  linarith

/-- C11, with float32 accumulation accounted for: on the trace of 1024
samples all equal to `c >= 0.0`, the peak compares equal to `c`; for a finite
`c` between `2^-125` and `2^116` the mean is finite and within `c / 2^13` of
`c`; for a finite `c` between `2^-62` and `2^58` the energy is finite and
within `1024 * c^2 / 2^13` of `1024 * c^2`; the mean compares equal to `c` when
`c` is finite with a significand of at most 14 bits and below `2^118`; the
energy is the real number `1024 * c^2` when `c` is finite with a significand of
at most 7 bits at an exponent of `-74` or more and below `2^59`. -/
theorem constant_trace_features (c : Float32) (hc : c.ge Float32.zero = true) :
    (extract_features (fun _ => c)).peak.eq c = true ∧
    (c.isFinite = true → 1 / 2 ^ 125 ≤ c.val → c.val ≤ 2 ^ 116 →
      (extract_features (fun _ => c)).mean.isFinite = true ∧
        |(extract_features (fun _ => c)).mean.val - c.val| ≤ c.val / 2 ^ 13) ∧
    (c.isFinite = true → 1 / 2 ^ 62 ≤ c.val → c.val ≤ 2 ^ 58 →
      (extract_features (fun _ => c)).energy.isFinite = true ∧
        |(extract_features (fun _ => c)).energy.val - 1024 * c.val ^ 2|
          ≤ 1024 * c.val ^ 2 / 2 ^ 13) ∧
    (∀ (M : ℕ) (t : ℤ), c.isFinite = true → c.mag = (M : ℚ) * 2 ^ t → M < 2 ^ 14 →
      -149 ≤ t → c.mag < 2 ^ 118 →
      (extract_features (fun _ => c)).mean.eq c = true) ∧
    (∀ (M : ℕ) (t : ℤ), c.isFinite = true → c.mag = (M : ℚ) * 2 ^ t → M < 2 ^ 7 →
      -74 ≤ t → c.mag < 2 ^ 59 →
      (extract_features (fun _ => c)).energy.isFinite = true ∧
        (extract_features (fun _ => c)).energy.val = 1024 * c.val ^ 2) := by
  refine ⟨peak_of_constant_trace c hc, ?_, ?_, ?_, ?_⟩
  · intro hfin hlo hhi
    exact mean_near_of_constant_trace c hfin hlo hhi
  · intro hfin hlo hhi
    exact energy_near_of_constant_trace c hfin hlo hhi
  · intro M t hfin hmag hM ht hlt
    obtain ⟨mfin, mval⟩ := mean_of_constant_trace c M t hfin hmag hM ht hlt
    exact Float32.eq_of_val _ _ mfin hfin mval
  · intro M t hfin hmag hM ht hlt
    exact energy_of_constant_trace c M t hfin hmag hM ht hlt

theorem Float32.one_mag : Float32.one.mag = ((1 : ℕ) : ℚ) * 2 ^ (0 : ℤ) := by
  norm_num [Float32.mag, Float32.one]

theorem Float32.tenth_ge_zero : Float32.tenth.ge Float32.zero = true :=
  Float32.ge_zero_of_val _ (by decide) (by rw [Float32.tenth_val]; norm_num)

/-- Witness for C11 on the trace of 1024 samples `1.0`: peak and mean compare
equal to `1.0` and the energy is 1024; and on the trace of 1024 samples `0.1f`:
the mean is within `2^-13` of the sample and the energy within `2^-13` of
`1024 * c^2`, relatively. -/
theorem constant_trace_features_witness :
    (Float32.one.ge Float32.zero = true ∧
      (extract_features (fun _ => Float32.one)).peak.eq Float32.one = true ∧
      (extract_features (fun _ => Float32.one)).mean.eq Float32.one = true ∧
      (extract_features (fun _ => Float32.one)).energy.isFinite = true ∧
      (extract_features (fun _ => Float32.one)).energy.val = 1024 * Float32.one.val ^ 2) ∧
    (Float32.tenth.ge Float32.zero = true ∧
      (extract_features (fun _ => Float32.tenth)).peak.eq Float32.tenth = true ∧
      ((extract_features (fun _ => Float32.tenth)).mean.isFinite = true ∧
        |(extract_features (fun _ => Float32.tenth)).mean.val - Float32.tenth.val|
          ≤ Float32.tenth.val / 2 ^ 13) ∧
      ((extract_features (fun _ => Float32.tenth)).energy.isFinite = true ∧
        |(extract_features (fun _ => Float32.tenth)).energy.val - 1024 * Float32.tenth.val ^ 2|
          ≤ 1024 * Float32.tenth.val ^ 2 / 2 ^ 13)) :=
  ⟨⟨Float32.one_ge_zero,
    (constant_trace_features Float32.one Float32.one_ge_zero).1,
    (constant_trace_features Float32.one Float32.one_ge_zero).2.2.2.1 1 0 (by decide)
      Float32.one_mag (by norm_num) (by norm_num) (by rw [Float32.one_mag]; norm_num),
    (constant_trace_features Float32.one Float32.one_ge_zero).2.2.2.2 1 0 (by decide)
      Float32.one_mag (by norm_num) (by norm_num) (by rw [Float32.one_mag]; norm_num)⟩,
   ⟨Float32.tenth_ge_zero,
    (constant_trace_features Float32.tenth Float32.tenth_ge_zero).1,
    (constant_trace_features Float32.tenth Float32.tenth_ge_zero).2.1 (by decide)
      (by rw [Float32.tenth_val]; norm_num) (by rw [Float32.tenth_val]; norm_num),
    (constant_trace_features Float32.tenth Float32.tenth_ge_zero).2.2.1 (by decide)
      (by rw [Float32.tenth_val]; norm_num) (by rw [Float32.tenth_val]; norm_num)⟩⟩

/-- Counterexample to C11 as stated.  On the trace of 1024 samples `2^127`
the running sum overflows: the mean is `+inf` and does not compare equal to the
sample.  The same happens from `2^118` on: there the sum overflows at the last
addition.  On the trace of 1024 samples `16641.0` the last sixteen additions
round down: the mean is `17040368 / 1024 = 16640.984375` and does not compare
equal to the sample.  On the trace of 1024 samples `129.0` the energy is
17040368, while `1024 * 129^2 = 17040384` is a float, the value of the float
product `1024 * (c * c)`, and the energy does not compare equal to it. -/
theorem constant_trace_features_counterexample :
    (Float32.twoPow127.ge Float32.zero = true ∧
      (extract_features (fun _ => Float32.twoPow127)).mean = Float32.inf false ∧
      (extract_features (fun _ => Float32.twoPow127)).mean.eq Float32.twoPow127 = false) ∧
    (Float32.twoPow118.ge Float32.zero = true ∧
      Float32.twoPow118.val = 2 ^ 118 ∧
      (extract_features (fun _ => Float32.twoPow118)).mean = Float32.inf false ∧
      (extract_features (fun _ => Float32.twoPow118)).mean.eq Float32.twoPow118 = false) ∧
    (Float32.c16641.ge Float32.zero = true ∧
      Float32.c16641.val = 16641 ∧
      (extract_features (fun _ => Float32.c16641)).mean.isFinite = true ∧
      (extract_features (fun _ => Float32.c16641)).mean.val = 17040368 / 1024 ∧
      (extract_features (fun _ => Float32.c16641)).mean.eq Float32.c16641 = false) ∧
    (Float32.c129.ge Float32.zero = true ∧
      Float32.c129.val = 129 ∧
      (extract_features (fun _ => Float32.c129)).energy.isFinite = true ∧
      (extract_features (fun _ => Float32.c129)).energy.val = 17040368 ∧
      1024 * Float32.c129.val ^ 2 = 17040384 ∧
      ((Float32.ofInt TRACE_LENGTH).mul (Float32.c129.mul Float32.c129)).val = 17040384 ∧
      (extract_features (fun _ => Float32.c129)).energy.eq
        ((Float32.ofInt TRACE_LENGTH).mul (Float32.c129.mul Float32.c129)) = false) := by
  obtain ⟨mfin, mval⟩ := mean_of_c16641_trace
  obtain ⟨efin, eval⟩ := energy_of_c129_trace
  obtain ⟨pfin, pval⟩ := Float32.trace_length_mul_sq_c129
  refine ⟨⟨Float32.ge_zero_of_val _ (by decide) (by rw [Float32.twoPow127_val]; norm_num),
    mean_of_twoPow127_trace, ?_⟩,
    ⟨Float32.ge_zero_of_val _ (by decide) (by rw [Float32.twoPow118_val]; norm_num),
      Float32.twoPow118_val, mean_of_twoPow118_trace, ?_⟩,
    ⟨Float32.ge_zero_of_val _ (by decide) (by rw [Float32.c16641_val]; norm_num),
      Float32.c16641_val, mfin, mval, ?_⟩,
    ⟨Float32.ge_zero_of_val _ (by decide) (by rw [Float32.c129_val]; norm_num),
      Float32.c129_val, efin, eval, ?_, pval, ?_⟩⟩
  · rw [mean_of_twoPow127_trace]
    have h1 : (Float32.inf false).ord = 2 ^ 128 := by
      unfold Float32.ord
      rw [Float32.inf_isInf, if_pos rfl]
      rfl
    have h2 : Float32.twoPow127.ord = 2 ^ 127 := by
      have : Float32.twoPow127.isInf = false := by decide
      unfold Float32.ord
      rw [this]
      simpa using Float32.twoPow127_val
    simp only [Float32.eq, h1, h2, Bool.and_eq_false_imp, decide_eq_false_iff_not]
    intro _ h
    have h3 : (2 : ℚ) ^ 128 = 2 * 2 ^ 127 := by norm_num
    have h4 : (0 : ℚ) < 2 ^ 127 := pow_pos (by norm_num) 127
    linarith
  · rw [mean_of_twoPow118_trace]
    apply Float32.inf_eq_false _ (by decide)
    rw [Float32.twoPow118_val]
    norm_num
  · apply Float32.eq_false_of_val _ _ mfin (by decide)
    rw [mval, Float32.c16641_val]
    norm_num
  · rw [Float32.c129_val]
    norm_num
  · apply Float32.eq_false_of_val _ _ efin pfin
    rw [eval, pval]
    norm_num
